import Mathlib

/-!
# Verification of the workflow engine core

A shallow embedding of the workflow engine (graph builder, topological sort,
node execution with retry, and the concurrent scheduler) together with proofs
of the specification claims.

Conventions of the embedding:
* JavaScript runtime values that flow through validation code are modelled by
  the type JsVal: undefined, null, booleans, numbers (as exact rationals,
  so no NaN or infinities), and strings.  JS truthiness is JsVal.truthy.
* Asynchronous functions are modelled as pure functions; awaiting is
  flattened.  Wall-clock effects (timestamps, retry delays) have no semantic
  content and are dropped.
* Throwing code is modelled with Except; a try/catch that swallows a failure
  discards the Except value.
* Mutable objects (the context, node status, the scheduler sets) are modelled
  by explicit state passing.  The nondeterminism of the event loop (which of
  several in-flight node executions settles first) is modelled by a schedule
  parameter: every theorem about a run quantifies over all schedules.
-/

namespace WEngine

/-- Model of a primitive JavaScript runtime value.  Numbers are exact
rationals (the embedding does not model NaN or the infinities). -/
inductive JsVal where
  | vUndef : JsVal
  | vNull : JsVal
  | vBool (b : Bool) : JsVal
  | vNum (q : ℚ) : JsVal
  | vStr (s : String) : JsVal
deriving DecidableEq, Repr

/-- JS truthiness of a primitive value. -/
def JsVal.truthy : JsVal → Bool
  | .vUndef => false
  | .vNull => false
  | .vBool b => b
  | .vNum q => decide (q ≠ 0)
  | .vStr s => decide (s ≠ "")

/-- typeof v === "number" for a primitive value. -/
def JsVal.typeofNumber : JsVal → Bool
  | .vNum _ => true
  | _ => false

/-- typeof v === "string" for a primitive value. -/
def JsVal.typeofString : JsVal → Bool
  | .vStr _ => true
  | _ => false

/-- v < 0 on a value already known to be a number (other cases are
unreachable behind the typeof guard, mirroring the source order of checks). -/
def JsVal.ltZero : JsVal → Bool
  | .vNum q => decide (q < 0)
  | _ => false

/-- Number.isInteger v for a primitive value. -/
def JsVal.isIntegerNum : JsVal → Bool
  | .vNum q => decide (q.den = 1)
  | _ => false

/-- The Nat value of a validated non-negative integer number, used for the
retry loop bound; 0 on non-numbers (unreachable after validation). -/
def JsVal.toNatFloor : JsVal → Nat
  | .vNum q => q.num.toNat
  | _ => 0

/-- Configuration-time errors (thrown synchronously by the builder and the
node constructor). -/
inductive CfgErr where
  | reservedId : CfgErr
  | duplicateId (id : String) : CfgErr
  | depNotString : CfgErr
  | selfDependency (id : String) : CfgErr
  | depNotFound (dep id : String) : CfgErr
  | invalidMaxRetries : CfgErr
  | invalidRetryDelay : CfgErr
  | bothContextOptions : CfgErr
  | contextValueIsFunction : CfgErr
  | contextFactoryNotFunction : CfgErr
  | enabledNeedsContext (id : String) : CfgErr
deriving DecidableEq, Repr

/-- Node lifecycle status, as in the NodeStatus union of the source. -/
inductive NodeStatus where
  | pending : NodeStatus
  | running : NodeStatus
  | completed : NodeStatus
  | failed : NodeStatus
  | skipped : NodeStatus
deriving DecidableEq, Repr

/-- The execution context snapshot: the reserved initial slot plus one entry
per merged node result.  A value of none in an entry models a JS null result
(a skipped node's run resolves with null).  The snapshot is immutable; every
update produces a fresh value (mirroring the frozen-object discipline of the
source). -/
structure Ctx (α : Type) where
  initial : JsVal
  entries : List (String × Option α)
deriving DecidableEq, Repr

/-- The snapshot a fresh Context holds: initial undefined, no results. -/
def emptyCtx {α : Type} : Ctx α := { initial := .vUndef, entries := [] }

/-- Context.reset: a seed that is neither undefined nor null becomes the
initial value; otherwise the initial slot is undefined.  All result entries
are dropped (the whole snapshot object is replaced). -/
def Ctx.reset {α : Type} (seed : JsVal) : Ctx α :=
  if seed == .vUndef || seed == .vNull then { initial := .vUndef, entries := [] }
  else { initial := seed, entries := [] }

/-- Lookup of a result key.  some none means the key is present with value
null; none means the key is absent. -/
def Ctx.get {α : Type} (c : Ctx α) (k : String) : Option (Option α) :=
  (c.entries.find? (fun p => p.1 == k)).map Prod.snd

/-- The JS `in` operator on the snapshot: the reserved key "initial" is always
present, other keys are present when an entry exists. -/
def Ctx.hasKey {α : Type} (c : Ctx α) (k : String) : Bool :=
  k == "initial" || c.entries.any (fun p => p.1 == k)

/-- One merge step of Context.update with a single-key patch, as issued by
the scheduler: spread of the old snapshot with the new binding.  An existing
key keeps its position and gets the new value; a new key is appended. -/
def Ctx.set {α : Type} (c : Ctx α) (k : String) (v : Option α) : Ctx α :=
  if c.entries.any (fun p => p.1 == k) then
    { c with entries := c.entries.map (fun p => if p.1 == k then (k, v) else p) }
  else
    { c with entries := c.entries ++ [(k, v)] }

/-- The untouched retry policy object as supplied by the caller (values are
raw JS values; validation happens in the node constructor). -/
structure RetryPolicyJs where
  maxRetries : JsVal
  retryDelayMs : JsVal
deriving DecidableEq, Repr

/-- Node.#validateRetryPolicy, with the source's exact order of checks. -/
def validateRetryPolicy (rp : RetryPolicyJs) : Except CfgErr Unit :=
  if !rp.maxRetries.typeofNumber || rp.maxRetries.ltZero || !rp.maxRetries.isIntegerNum then
    .error .invalidMaxRetries
  else if !rp.retryDelayMs.typeofNumber || rp.retryDelayMs.ltZero then
    .error .invalidRetryDelay
  else .ok ()

/-- The enabled option of a node: absent, a static boolean, or a predicate
over the context. -/
inductive EnabledOpt (α : Type) where
  | missing : EnabledOpt α
  | isStatic (b : Bool) : EnabledOpt α
  | isPred (p : Ctx α → Bool) : EnabledOpt α

/-- The caller-supplied node options.  Dependencies are raw JS values because
addNode checks each one with typeof before using it.  ε is the type of values
thrown by the work function and hooks; α is the type of node results.
onCompleted records only whether a per-node completion hook was supplied
(hook bodies cannot influence scheduler state: their failures are swallowed;
the events they observe are recorded in the run trace). -/
structure NodeOptions (ε α : Type) where
  id : String
  dependencies : List JsVal
  enabled : EnabledOpt α
  retryPolicy : Option RetryPolicyJs
  execute : Nat → Ctx α → Except ε α
  errorHandler : Option (ε → Ctx α → Except ε Unit)
  onCompleted : Bool

/-- A constructed Node: the stored options plus the stored retry policy
(the private #retryPolicy field).  The execute function takes the attempt
number first, modelling work functions whose behaviour differs between retry
attempts (e.g. stateful counters in the repository tests). -/
structure Node (ε α : Type) where
  id : String
  dependencies : List JsVal
  enabled : EnabledOpt α
  retryPolicy : RetryPolicyJs
  execute : Nat → Ctx α → Except ε α
  errorHandler : Option (ε → Ctx α → Except ε Unit)
  onCompleted : Bool

/-- The Node constructor: if a retry policy is supplied it is validated and
then stored unchanged; otherwise the default policy (0 retries, 0 delay)
remains. -/
def Node.construct {ε α : Type} (opts : NodeOptions ε α) : Except CfgErr (Node ε α) :=
  match opts.retryPolicy with
  | none =>
      .ok { id := opts.id, dependencies := opts.dependencies, enabled := opts.enabled,
            retryPolicy := { maxRetries := .vNum 0, retryDelayMs := .vNum 0 },
            execute := opts.execute, errorHandler := opts.errorHandler,
            onCompleted := opts.onCompleted }
  | some rp =>
      match validateRetryPolicy rp with
      | .error e => .error e
      | .ok _ =>
          .ok { id := opts.id, dependencies := opts.dependencies, enabled := opts.enabled,
                retryPolicy := rp,
                execute := opts.execute, errorHandler := opts.errorHandler,
                onCompleted := opts.onCompleted }

/-- Enablement of a node against a context snapshot (the branch of
Node.isEnabled reached when a context is supplied and the
skipCallbackIfMissingDeps flag is false, which is how Node.run calls it). -/
def Node.isEnabledWith {ε α : Type} (n : Node ε α) (c : Ctx α) : Bool :=
  match n.enabled with
  | .missing => true
  | .isStatic b => b
  | .isPred p => p c

/-- The full Node.isEnabled method: without a context a predicate-enabled
node throws; with the skip flag set, a predicate is assumed true while some
declared dependency key is missing from the context. -/
def Node.isEnabledMethod {ε α : Type} (n : Node ε α) (ctx : Option (Ctx α))
    (skipCallbackIfMissingDeps : Bool) : Except CfgErr Bool :=
  match n.enabled with
  | .missing => .ok true
  | .isStatic b => .ok b
  | .isPred p =>
      match ctx with
      | none => .error (.enabledNeedsContext n.id)
      | some c =>
          if skipCallbackIfMissingDeps &&
              n.dependencies.any (fun d =>
                match d with
                | .vStr s => !c.hasKey s
                | _ => false) then
            .ok true
          else .ok (p c)

/-- In workflow.ts every readiness check reads node.isEnabled as a property
(lines 279, 342 and 349) while _node.ts declares isEnabled as a method
(index.ts source, lines 159-184).  Reading a method without calling it yields
the function object itself, which is always truthy, so the scheduler's
readiness checks see true for every node regardless of its enabled option.
This definition records that JS semantics. -/
def Node.isEnabledPropertyRead {ε α : Type} (_ : Node ε α) : Bool := true

/-- Outcome of Node.run: resolved with a value (some result, or none for the
null a skipped node returns), rejected with a thrown work-function failure,
or the unreachable trailing throw after the for loop (modelled separately and
proved unreachable). -/
inductive RunOut (ε α : Type) where
  | ok (v : Option α) : RunOut ε α
  | thrown (e : ε) : RunOut ε α
  | internalError : RunOut ε α
deriving DecidableEq, Repr

/-- Full observable outcome of one Node.run call: the settled result, the
final node status, the number of invocations of the work function, and the
list of failures passed to the error handler (empty when no handler was
supplied or the node did not exhaust its attempts). -/
structure RunResult (ε α : Type) where
  out : RunOut ε α
  status : NodeStatus
  calls : Nat
  hookArgs : List ε

/-- The retry loop of Node.run.  fuel is the number of loop iterations still
available (the loop runs while attempt < maxRetries + 1, so the initial fuel
is maxRetries + 1 and exhausting it corresponds to falling off the loop into
the trailing throw).  On the last allowed attempt a failure invokes the error
handler if present (its own outcome is discarded: the source catches and
logs it) and the original failure is rethrown. -/
def Node.runLoop {ε α : Type} (n : Node ε α) (c : Ctx α) (maxR : Nat) :
    Nat → Nat → RunOut ε α × Nat × List ε
  | 0, _ => (.internalError, 0, [])
  | fuel + 1, attempt =>
      match n.execute attempt c with
      | .ok r => (.ok (some r), 1, [])
      | .error e =>
          if attempt == maxR then
            let hookArgs := match n.errorHandler with
              | some h => let _ := h e c; [e]
              | none => []
            (.thrown e, 1, hookArgs)
          else
            let rest := n.runLoop c maxR fuel (attempt + 1)
            (rest.1, rest.2.1 + 1, rest.2.2)

/-- Node.run: a disabled node is skipped (status skipped, resolves null,
work function never invoked); an enabled node runs the retry loop.  The final
status mirrors the assignments in the source: completed on success, failed
after the last failure, and still running in the unreachable trailing-throw
case (the source never assigns a status there). -/
def Node.run {ε α : Type} (n : Node ε α) (c : Ctx α) : RunResult ε α :=
  if !n.isEnabledWith c then
    { out := .ok none, status := .skipped, calls := 0, hookArgs := [] }
  else
    let maxR := n.retryPolicy.maxRetries.toNatFloor
    let r := n.runLoop c maxR (maxR + 1) 0
    { out := r.1,
      status := match r.1 with
        | .ok _ => .completed
        | .thrown _ => .failed
        | .internalError => .running,
      calls := r.2.1,
      hookArgs := r.2.2 }

/-- The DependencyMap: node id to insertion-ordered list of dependency ids.
add appends (creating the list on first use); get returns the list (a copy
in the source; values here are immutable) and the empty list for unknown
ids. -/
structure DependencyMap where
  entries : List (String × List String)
deriving DecidableEq, Repr

/-- DependencyMap.get: the stored list, or the empty list for unknown ids. -/
def DependencyMap.get (m : DependencyMap) (k : String) : List String :=
  match m.entries.find? (fun p => p.1 == k) with
  | some p => p.2
  | none => []

/-- DependencyMap.add: append value to the list of key, creating it if
absent. -/
def DependencyMap.add (m : DependencyMap) (k v : String) : DependencyMap :=
  if m.entries.any (fun p => p.1 == k) then
    { entries := m.entries.map (fun p => if p.1 == k then (p.1, p.2 ++ [v]) else p) }
  else
    { entries := m.entries ++ [(k, [v])] }

/-- The source of the initial context stored by the Workflow constructor:
nothing, a plain value, or a factory function (asynchronous factories are
flattened to their resolved value). -/
inductive CtxSrc where
  | undef : CtxSrc
  | value (v : JsVal) : CtxSrc
  | factory (f : Unit → JsVal) : CtxSrc

/-- A caller-supplied constructor argument that may be a plain value or a
function (the constructor checks typeof on it). -/
inductive JsArgV where
  | plain (v : JsVal) : JsArgV
  | func (f : Unit → JsVal) : JsArgV

/-- The option object accepted by the Workflow constructor. -/
inductive WorkflowOptions where
  | noOptions : WorkflowOptions
  | contextValue (v : JsArgV) : WorkflowOptions
  | contextFactory (v : JsArgV) : WorkflowOptions
  | both (v w : JsArgV) : WorkflowOptions

/-- The Workflow constructor logic for the context options: both options
together are rejected; a contextValue of undefined leaves the field unset; a
function-typed contextValue is rejected; a non-function contextFactory is
rejected. -/
def Workflow.constructCtxSrc : WorkflowOptions → Except CfgErr CtxSrc
  | .noOptions => .ok .undef
  | .both _ _ => .error .bothContextOptions
  | .contextValue v =>
      match v with
      | .plain .vUndef => .ok .undef
      | .func _ => .error .contextValueIsFunction
      | .plain w => .ok (.value w)
  | .contextFactory v =>
      match v with
      | .func f => .ok (.factory f)
      | .plain _ => .error .contextFactoryNotFunction

/-- The builder state: the stored context source, the node map (insertion
ordered), and the dependency index. -/
structure WorkflowB (ε α : Type) where
  contextValueOrFactory : CtxSrc
  nodes : List (String × Node ε α)
  nodeDependencies : DependencyMap

/-- The per-dependency loop of addNode, in source order: a non-string
dependency id is rejected, then a self-dependency, then an unregistered
dependency; a valid dependency records one edge in the dependency index. -/
def addNodeDepsLoop (registered : List String) (nodeId : String) :
    List JsVal → DependencyMap → Except CfgErr DependencyMap
  | [], m => .ok m
  | d :: rest, m =>
      if !d.typeofString then .error .depNotString
      else
        match d with
        | .vStr s =>
            if s == nodeId then .error (.selfDependency nodeId)
            else if registered.contains s then
              addNodeDepsLoop registered nodeId rest (m.add nodeId s)
            else .error (.depNotFound s nodeId)
        | _ => .error .depNotString

/-- Workflow.addNode: reject the reserved id, then a duplicate id, then
construct the Node (validating any retry policy), then walk the dependency
list; on success register the node and return the extended builder. -/
def WorkflowB.addNode {ε α : Type} (w : WorkflowB ε α) (opts : NodeOptions ε α) :
    Except CfgErr (WorkflowB ε α) :=
  if opts.id == "initial" then .error .reservedId
  else if w.nodes.any (fun p => p.1 == opts.id) then .error (.duplicateId opts.id)
  else
    match Node.construct opts with
    | .error e => .error e
    | .ok node =>
        match addNodeDepsLoop (w.nodes.map Prod.fst) opts.id opts.dependencies
            w.nodeDependencies with
        | .error e => .error e
        | .ok m =>
            .ok { w with nodes := w.nodes ++ [(opts.id, node)], nodeDependencies := m }

/-- A fresh builder with a given context source. -/
def WorkflowB.empty {ε α : Type} (src : CtxSrc) : WorkflowB ε α :=
  { contextValueOrFactory := src, nodes := [], nodeDependencies := ⟨[]⟩ }

/-- Builder states reachable through the public API: a fresh builder followed
by any sequence of successful addNode calls. -/
inductive BuiltFrom {ε α : Type} : WorkflowB ε α → Prop where
  | init (src : CtxSrc) : BuiltFrom (WorkflowB.empty src)
  | step (w w2 : WorkflowB ε α) (opts : NodeOptions ε α) :
      BuiltFrom w → w.addNode opts = .ok w2 → BuiltFrom w2

/-- Errors raised by Workflow.build. -/
inductive BuildErr where
  | noNodes : BuildErr
  | hookNotFunction : BuildErr
  | cycle (id : String) : BuildErr
  | fuelOut : BuildErr
deriving DecidableEq, Repr

/-- Errors of the depth-first topological sort: a detected cycle (naming the
node at which it was detected) or exhaustion of the recursion-depth bound (an
artifact of the bounded model, proved unreachable for the bound used). -/
inductive SortErr where
  | cycle (id : String) : SortErr
  | fuelOut : SortErr
deriving DecidableEq, Repr

/-- State of the depth-first topological sort: the in-progress set, the
permanently-visited set, and the output order. -/
structure TopoState where
  temp : List String
  visited : List String
  order : List String
deriving DecidableEq, Repr

/-- The dependency walk of one visit: apply the given single-node visit to
each dependency in list order, threading the state and propagating the first
error. -/
def topoVisitListGo (visit1 : String → TopoState → Except SortErr TopoState) :
    List String → TopoState → Except SortErr TopoState
  | [], s => .ok s
  | d :: rest, s =>
      match visit1 d s with
      | .error e => .error e
      | .ok s2 => topoVisitListGo visit1 rest s2

/-- The recursive visit of the depth-first topological sort.  A node already
in the in-progress set signals a cycle; a visited node is skipped; otherwise
the node enters the in-progress set, its dependencies are visited, and it is
then moved to the visited set and appended to the order.  fuel bounds the
recursion depth (the source recursion is bounded by the number of distinct
ids; the fuel chosen below is proved sufficient). -/
def topoVisit (D : DependencyMap) : Nat → String → TopoState → Except SortErr TopoState
  | 0, _, _ => .error .fuelOut
  | fuel + 1, id, s =>
      if s.temp.contains id then .error (.cycle id)
      else if s.visited.contains id then .ok s
      else
        match topoVisitListGo (topoVisit D fuel) (D.get id)
            ⟨id :: s.temp, s.visited, s.order⟩ with
        | .error e => .error e
        | .ok s2 => .ok ⟨s2.temp.erase id, id :: s2.visited, s2.order ++ [id]⟩

/-- Visit each dependency in list order. -/
def topoVisitList (D : DependencyMap) (fuel : Nat) :
    List String → TopoState → Except SortErr TopoState :=
  topoVisitListGo (topoVisit D fuel)

/-- The top-level loop of #topologicalSort: visit every registered id not yet
visited, in registration order. -/
def topoFold (D : DependencyMap) (fuel : Nat) : List String → TopoState → Except SortErr TopoState
  | [], s => .ok s
  | id :: rest, s =>
      if s.visited.contains id then topoFold D fuel rest s
      else
        match topoVisit D fuel id s with
        | .error e => .error e
        | .ok s2 => topoFold D fuel rest s2

/-- Every id the sort can ever touch: the registered ids plus every key and
every dependency value of the dependency index. -/
def topoUniverse (ids : List String) (D : DependencyMap) : List String :=
  ids ++ (D.entries.map (fun p => p.1 :: p.2)).flatten

/-- Workflow.#topologicalSort on a fresh order, with fuel one more than the
size of the id universe (sufficient: the in-progress set grows strictly along
any recursion path and stays inside the universe). -/
def topologicalSort (ids : List String) (D : DependencyMap) : Except SortErr (List String) :=
  match topoFold D ((topoUniverse ids D).length + 1) ids ⟨[], [], []⟩ with
  | .error e => .error e
  | .ok s => .ok s.order

/-- The run-completion hook argument of build: absent, a function, or a
non-function value (the source checks truthiness and typeof on it). -/
inductive HookArg (h : Type) where
  | absent : HookArg h
  | fn (f : h) : HookArg h
  | val (v : JsVal) : HookArg h

/-- NodeError: pairs the failing node id with the underlying failure. -/
structure NodeError (ε : Type) where
  id : String
  error : ε
deriving DecidableEq, Repr

/-- The type of the overall run-completion hook: receives the final context
and the accumulated error list or null; may itself throw. -/
def OnAllHook (ε α : Type) : Type :=
  Ctx α → Option (List (NodeError ε)) → Except ε Unit

/-- The WorkflowRunner produced by build. -/
structure Runner (ε α : Type) where
  contextValueOrFactory : CtxSrc
  topologicalOrder : List String
  nodes : List (String × Node ε α)
  nodeDependencies : DependencyMap
  onNodesCompleted : Option (OnAllHook ε α)

/-- Workflow.build: an empty workflow is rejected; a truthy non-function
completion hook is rejected (a falsy non-function is kept but, being falsy,
is never invoked by the runner, hence modelled as absent); then the
topological sort runs and the runner is assembled. -/
def WorkflowB.build {ε α : Type} (w : WorkflowB ε α) (hook : HookArg (OnAllHook ε α)) :
    Except BuildErr (Runner ε α) :=
  if w.nodes.isEmpty then .error .noNodes
  else if (match hook with | .val v => v.truthy | _ => false) then .error .hookNotFunction
  else
    match topologicalSort (w.nodes.map Prod.fst) w.nodeDependencies with
    | .error (.cycle id) => .error (.cycle id)
    | .error .fuelOut => .error .fuelOut
    | .ok order =>
        .ok { contextValueOrFactory := w.contextValueOrFactory,
              topologicalOrder := order,
              nodes := w.nodes,
              nodeDependencies := w.nodeDependencies,
              onNodesCompleted := match hook with | .fn f => some f | _ => none }

/-- The context seeding at the top of WorkflowRunner.#run: the stored field
is tested for truthiness; when falsy (no value stored, or a falsy stored
value) the reset is skipped and the context keeps its fresh state; a stored
factory (a function, hence truthy) is invoked and the context is reset with
its resolved value; a truthy stored value resets the context directly. -/
def seedCtx {α : Type} (src : CtxSrc) (c : Ctx α) : Ctx α :=
  match src with
  | .undef => c
  | .value v => if v.truthy then Ctx.reset v else c
  | .factory f => Ctx.reset (f ())

/-- Fatal errors of a run: conditions under which the promise returned by
trigger rejects (they are internal-consistency failures, not per-node
failures).  loopFuelOut is an artifact of the bounded loop model and is
proved unreachable. -/
inductive RunFatal where
  | noNodesToRun : RunFatal
  | nodeNotFound (id : String) : RunFatal
  | internalRunError : RunFatal
  | loopFuelOut : RunFatal
deriving DecidableEq, Repr

/-- A node completion event as delivered to a per-node onCompleted hook
(timestamps and durations carry no semantic content and are omitted). -/
structure CompletionEvent (ε α : Type) where
  nodeId : String
  status : NodeStatus
  result : Option (Option α)
  error : Option (NodeError ε)
  context : Ctx α
deriving DecidableEq, Repr

/-- The scheduler state of one #run call, together with the observable trace
of the run: completion events delivered to per-node hooks, the ids whose work
function was invoked, and the finish log. -/
structure SchedState (ε α : Type) where
  ctx : Ctx α
  completed : List String
  running : List (String × Ctx α)
  ready : List String
  errors : List (NodeError ε)
  statuses : List (String × NodeStatus)
  events : List (CompletionEvent ε α)
  invoked : List String
  finished : List (String × RunOut ε α)

/-- Node lookup in the runner's node map. -/
def Runner.lookupNode {ε α : Type} (r : Runner ε α) (id : String) : Option (Node ε α) :=
  (r.nodes.find? (fun p => p.1 == id)).map Prod.snd

/-- The current status of a node (its private #status field): pending until
its run finishes. -/
def statusOf (statuses : List (String × NodeStatus)) (id : String) : NodeStatus :=
  match statuses.find? (fun p => p.1 == id) with
  | some p => p.2
  | none => .pending

/-- Record a node's final status. -/
def setStatus (l : List (String × NodeStatus)) (id : String) (s : NodeStatus) :
    List (String × NodeStatus) :=
  if l.any (fun p => p.1 == id) then
    l.map (fun p => if p.1 == id then (id, s) else p)
  else l ++ [(id, s)]

/-- Set insertion for the ready set (Set.add is a no-op on a present id). -/
def insertReady (l : List String) (id : String) : List String :=
  if l.contains id then l else l ++ [id]

/-- The ids currently running. -/
def runningIds {ε α : Type} (st : SchedState ε α) : List String :=
  st.running.map Prod.fst

/-- The readiness condition of the rescan in runNode's finally block, for one
candidate node: every dependency resolves in the node map, is in the
processed set, and finished with status completed.  The two isEnabled reads
of the source (on the candidate and on each dependency) are property reads of
a method and hence always truthy; see Node.isEnabledPropertyRead. -/
def depsOk {ε α : Type} (r : Runner ε α) (st : SchedState ε α) (id : String) : Bool :=
  (r.nodeDependencies.get id).all (fun dep =>
    (r.lookupNode dep).isSome && st.completed.contains dep &&
      (statusOf st.statuses dep == .completed))

/-- The candidate test of the rescan in runNode's finally block: not yet
processed, not currently running, enabled (a property read of a method, hence
always truthy), and all dependencies satisfied. -/
def rescanCond {ε α : Type} (r : Runner ε α) (st : SchedState ε α)
    (p : String × Node ε α) : Bool :=
  !st.completed.contains p.1 && !(runningIds st).contains p.1 &&
    Node.isEnabledPropertyRead p.2 && depsOk r st p.1

/-- The rescan over all nodes in runNode's finally block: every node passing
the candidate test is added to the ready set. -/
def rescan {ε α : Type} (r : Runner ε α) (st : SchedState ε α) : SchedState ε α :=
  { st with ready := r.nodes.foldl (fun acc p =>
      if rescanCond r st p then insertReady acc p.1 else acc) st.ready }

/-- Remove a finished node from the running map. -/
def removeRunning {ε α : Type} (st : SchedState ε α) (id : String) : SchedState ε α :=
  { st with running := st.running.filter (fun p => p.1 != id) }

/-- The completion of one in-flight node execution (the body of runNode from
the await of node.run onward): compute the run outcome from the context
snapshot taken when the node started; on a resolved run merge the result
under the node id, mark the node processed, and (if the node has a hook)
record a completed event with the post-merge snapshot; on a rejected run
append a NodeError, mark the node processed, and record a failed event with
the current snapshot; finally remove the node from the running map and
rescan for newly ready nodes. -/
def finishNode {ε α : Type} (r : Runner ε α) (st : SchedState ε α) (id : String)
    (snap : Ctx α) : Except RunFatal (SchedState ε α) :=
  match r.lookupNode id with
  | none => .error (.nodeNotFound id)
  | some n =>
      let res := n.run snap
      match res.out with
      | .internalError => .error .internalRunError
      | .ok v =>
          let ctx2 := st.ctx.set id v
          let st2 : SchedState ε α :=
            { st with
              ctx := ctx2,
              completed := st.completed ++ [id],
              statuses := setStatus st.statuses id res.status,
              invoked := if 0 < res.calls then st.invoked ++ [id] else st.invoked,
              finished := st.finished ++ [(id, res.out)],
              events := if n.onCompleted then
                  st.events ++ [{ nodeId := id, status := .completed, result := some v,
                                  error := none, context := ctx2 }]
                else st.events }
          .ok (rescan r (removeRunning st2 id))
      | .thrown e =>
          let st2 : SchedState ε α :=
            { st with
              completed := st.completed ++ [id],
              errors := st.errors ++ [{ id := id, error := e }],
              statuses := setStatus st.statuses id res.status,
              invoked := if 0 < res.calls then st.invoked ++ [id] else st.invoked,
              finished := st.finished ++ [(id, res.out)],
              events := if n.onCompleted then
                  st.events ++ [{ nodeId := id, status := .failed, result := none,
                                  error := some { id := id, error := e }, context := st.ctx }]
                else st.events }
          .ok (rescan r (removeRunning st2 id))

/-- Start every node currently in the ready set: each is removed from the
ready set and recorded as running together with the context snapshot it was
handed (all nodes started in the same scheduling step read the same
snapshot, because updates only apply when an execution finishes). -/
def startReady {ε α : Type} (st : SchedState ε α) : SchedState ε α :=
  { st with ready := [], running := st.running ++ st.ready.map (fun id => (id, st.ctx)) }

/-- Result of one iteration of the scheduling loop. -/
inductive StepOut (ε α : Type) where
  | exit (st : SchedState ε α) : StepOut ε α
  | cont (st : SchedState ε α) : StepOut ε α
  | fatal (e : RunFatal) : StepOut ε α

/-- One iteration of the while loop of #run: exit when every node is
processed; otherwise start all ready nodes; if nothing is running the loop
breaks (remaining nodes are blocked); otherwise the schedule picks which
in-flight execution settles (modelling Promise.race and the event loop), and
that node's completion is applied. -/
def loopIter {ε α : Type} (r : Runner ε α) (pick : Nat) (st : SchedState ε α) :
    StepOut ε α :=
  if r.nodes.length ≤ st.completed.length then .exit st
  else
    let st1 := startReady st
    match st1.running.get? (pick % st1.running.length) with
    | none => .exit st1
    | some p =>
        match finishNode r st1 p.1 p.2 with
        | .error e => .fatal e
        | .ok st2 => .cont st2

/-- The scheduling loop, driven by a schedule (one pick per iteration).  The
fuel bounds the number of iterations; every iteration processes exactly one
node, so nodes + 1 iterations always suffice (proved below). -/
def runLoopN {ε α : Type} (r : Runner ε α) (sched : Nat → Nat) :
    Nat → Nat → SchedState ε α → Except RunFatal (SchedState ε α)
  | 0, _, _ => .error .loopFuelOut
  | fuel + 1, k, st =>
      match loopIter r (sched k) st with
      | .exit st2 => .ok st2
      | .fatal e => .error e
      | .cont st2 => runLoopN r sched fuel (k + 1) st2

/-- The initial ready set of #run: every node of the topological order with
no dependencies (the isEnabled conjunct of the source filter is a property
read of a method, hence always truthy).  A missing node is fatal. -/
def seedReady {ε α : Type} (r : Runner ε α) :
    List String → Except RunFatal (List String)
  | [] => .ok []
  | id :: rest =>
      match r.lookupNode id with
      | none => .error (.nodeNotFound id)
      | some n =>
          match seedReady r rest with
          | .error e => .error e
          | .ok l =>
              if Node.isEnabledPropertyRead n && (r.nodeDependencies.get id).isEmpty then
                .ok (id :: l)
              else .ok l

/-- What a completed run returns and the trace of the final hook. -/
structure RunDone (ε α : Type) where
  finalCtx : Ctx α
  st : SchedState ε α
  hookLog : List (Ctx α × Option (List (NodeError ε)))

/-- Errors out of trigger: a fatal scheduler error or a failure thrown by the
overall completion hook (the source does not catch the latter). -/
inductive TriggerErr (ε : Type) where
  | fatal (e : RunFatal) : TriggerErr ε
  | hookThrew (e : ε) : TriggerErr ε
deriving DecidableEq, Repr

/-- The scheduler state at the top of one #run call: freshly seeded context,
nothing processed, the seeded ready set. -/
def initState {ε α : Type} (r : Runner ε α) (ready0 : List String) : SchedState ε α :=
  { ctx := seedCtx r.contextValueOrFactory emptyCtx, completed := [],
    running := [], ready := ready0, errors := [], statuses := [],
    events := [], invoked := [], finished := [] }

/-- WorkflowRunner.#run, as returned by trigger: reject an empty topological
order; seed the context per the stored source; seed the ready set; drive the
scheduling loop; then invoke the overall completion hook (if stored) with
the final snapshot and the error list (or null when empty) and return the
final snapshot.  trigger itself resets the context and error list of the
runner instance afterwards, which does not affect the returned snapshot. -/
def Runner.runW {ε α : Type} (r : Runner ε α) (sched : Nat → Nat) :
    Except (TriggerErr ε) (RunDone ε α) :=
  if r.topologicalOrder.isEmpty then .error (.fatal .noNodesToRun)
  else
    match seedReady r r.topologicalOrder with
    | .error e => .error (.fatal e)
    | .ok ready0 =>
        match runLoopN r sched (r.nodes.length + 1) 0 (initState r ready0) with
        | .error e => .error (.fatal e)
        | .ok stF =>
            let errArg : Option (List (NodeError ε)) :=
              if stF.errors.isEmpty then none else some stF.errors
            match r.onNodesCompleted with
            | none => .ok { finalCtx := stF.ctx, st := stF, hookLog := [] }
            | some h =>
                match h stF.ctx errArg with
                | .error e => .error (.hookThrew e)
                | .ok _ =>
                    .ok { finalCtx := stF.ctx, st := stF,
                          hookLog := [(stF.ctx, errArg)] }

/-- One dependency edge: b is among the declared dependencies of a. -/
def depEdge (D : DependencyMap) (a b : String) : Prop := b ∈ D.get a

/-- a reaches b through one or more dependency edges. -/
def Reaches (D : DependencyMap) (a b : String) : Prop :=
  Relation.TransGen (depEdge D) a b

/-- a reaches b through zero or more dependency edges. -/
def ReachesRefl (D : DependencyMap) (a b : String) : Prop :=
  Relation.ReflTransGen (depEdge D) a b

/-- A node on a dependency cycle. -/
def OnCycle (D : DependencyMap) (x : String) : Prop := Reaches D x x

/-- A node whose run always succeeds with a result: on every context
snapshot it is enabled, some attempt of its work function succeeds, and the
work function is invoked at least once. -/
def GoodNode {ε α : Type} (n : Node ε α) : Prop :=
  ∀ c : Ctx α, (∃ v, (n.run c).out = .ok (some v)) ∧ 0 < (n.run c).calls

/-- A node whose run never reaches status completed (for instance its work
function fails on every attempt, or it is statically disabled). -/
def BadNode {ε α : Type} (n : Node ε α) : Prop :=
  ∀ c : Ctx α, (n.run c).status ≠ .completed

/-- Every node reachable from id through zero or more dependency edges
resolves in the node map and always succeeds. -/
def GoodUp {ε α : Type} (r : Runner ε α) (id : String) : Prop :=
  ∀ m, ReachesRefl r.nodeDependencies id m →
    ∃ n, r.lookupNode m = some n ∧ GoodNode n

/-- Snapshot extension: the initial slot agrees and every result binding of
the first snapshot is present unchanged in the second. -/
def CtxExtends {α : Type} (c1 c2 : Ctx α) : Prop :=
  c1.initial = c2.initial ∧ ∀ k v, c1.get k = some v → c2.get k = some v

/-- Structural well-formedness of a runner, established by build for every
builder state reachable through addNode: registered ids are distinct, the
topological order enumerates exactly the registered ids without repetition,
all dependency targets are registered, and every dependency edge points to a
strictly earlier registered node. -/
structure RunnerWF {ε α : Type} (r : Runner ε α) : Prop where
  idsNodup : (r.nodes.map Prod.fst).Nodup
  orderNodup : r.topologicalOrder.Nodup
  orderSet : ∀ id, id ∈ r.topologicalOrder ↔ id ∈ r.nodes.map Prod.fst
  depsRegistered : ∀ id d, d ∈ r.nodeDependencies.get id → d ∈ r.nodes.map Prod.fst
  ranked : ∀ id d, d ∈ r.nodeDependencies.get id →
    (r.nodes.map Prod.fst).indexOf d < (r.nodes.map Prod.fst).indexOf id

/-- The scheduler invariant: bookkeeping facts preserved by every iteration
of the run loop.  readiness states completeness of the ready set (no node
with satisfied dependencies is overlooked); finishedFact ties each processed
node's recorded status, context entry, error entry, and invocation record to
the outcome of its run on the snapshot it was handed. -/
structure InvS {ε α : Type} (r : Runner ε α) (st : SchedState ε α) : Prop where
  completedSub : ∀ id, id ∈ st.completed → id ∈ r.nodes.map Prod.fst
  completedNodup : st.completed.Nodup
  runningSub : ∀ p, p ∈ st.running → p.1 ∈ r.nodes.map Prod.fst
  runningNodup : (runningIds st).Nodup
  readySub : ∀ id, id ∈ st.ready → id ∈ r.nodes.map Prod.fst
  readyNodup : st.ready.Nodup
  runningNotCompleted : ∀ p, p ∈ st.running → p.1 ∉ st.completed
  readyNotCompleted : ∀ id, id ∈ st.ready → id ∉ st.completed
  readyNotRunning : ∀ id, id ∈ st.ready → id ∉ runningIds st
  ctxKeysCompleted : ∀ k, (st.ctx.get k).isSome → k ∈ st.completed
  statusesCompleted : ∀ id, statusOf st.statuses id ≠ .pending → id ∈ st.completed
  finishedIds : st.finished.map Prod.fst = st.completed
  readiness : ∀ id, id ∈ r.nodes.map Prod.fst → id ∉ st.completed →
    id ∉ runningIds st → id ∉ st.ready → depsOk r st id = false
  finishedFact : ∀ id, id ∈ st.completed → ∃ n snap, r.lookupNode id = some n ∧
    statusOf st.statuses id = (n.run snap).status ∧
    (∀ v, (n.run snap).out = .ok v → st.ctx.get id = some v) ∧
    (0 < (n.run snap).calls ↔ id ∈ st.invoked)
  errorsChar : st.errors = st.finished.filterMap (fun p =>
    match p.2 with
    | .thrown e => some { id := p.1, error := e }
    | _ => none)
  eventsMono : st.events.Pairwise (fun e1 e2 => CtxExtends e1.context e2.context)
  eventsLe : ∀ e, e ∈ st.events → CtxExtends e.context st.ctx
  invokedSub : ∀ id, id ∈ st.invoked → id ∈ st.completed

/-- A node that never runs: it is in none of the scheduler's tracking sets,
its work function was never invoked, and the context has no binding for it. -/
def Untouched {ε α : Type} (st : SchedState ε α) (y : String) : Prop :=
  y ∉ st.completed ∧ y ∉ runningIds st ∧ y ∉ st.ready ∧
    st.ctx.get y = none ∧ y ∉ st.invoked

-- ===========================================================================
-- Concrete instances used by counterexamples and witnesses
-- ===========================================================================

/-- Node options for a trivial always-succeeding node with given id and
dependencies, used by concrete instances.  Results are natural numbers and
thrown values are strings. -/
def okNodeOpts (id : String) (deps : List String) (v : Nat) : NodeOptions String Nat :=
  { id := id, dependencies := deps.map JsVal.vStr, enabled := .missing,
    retryPolicy := none, execute := fun _ _ => .ok v,
    errorHandler := none, onCompleted := false }

/-- Node options for a node whose work function always throws. -/
def failNodeOpts (id : String) (deps : List String) (msg : String) :
    NodeOptions String Nat :=
  { id := id, dependencies := deps.map JsVal.vStr, enabled := .missing,
    retryPolicy := none, execute := fun _ _ => .error msg,
    errorHandler := none, onCompleted := false }

/-- Node options for a statically disabled node. -/
def disabledNodeOpts (id : String) (deps : List String) (v : Nat) :
    NodeOptions String Nat :=
  { id := id, dependencies := deps.map JsVal.vStr, enabled := .isStatic false,
    retryPolicy := none, execute := fun _ _ => .ok v,
    errorHandler := none, onCompleted := false }

/-- Concrete example node a (always returns 1) as constructed by addNode. -/
def nodeA : Node String Nat :=
  { id := "a", dependencies := [], enabled := .missing,
    retryPolicy := { maxRetries := .vNum 0, retryDelayMs := .vNum 0 },
    execute := fun _ _ => Except.ok 1, errorHandler := none, onCompleted := false }

/-- Concrete example node b (depends on a, returns 2) as constructed by
addNode. -/
def nodeB : Node String Nat :=
  { id := "b", dependencies := [JsVal.vStr "a"], enabled := .missing,
    retryPolicy := { maxRetries := .vNum 0, retryDelayMs := .vNum 0 },
    execute := fun _ _ => Except.ok 2, errorHandler := none, onCompleted := false }

/-- The builder after registering node a. -/
def exC6w1 : WorkflowB String Nat :=
  { contextValueOrFactory := .undef, nodes := [("a", nodeA)], nodeDependencies := ⟨[]⟩ }

/-- The builder after registering nodes a and b (b depends on a). -/
def exC6w2 : WorkflowB String Nat :=
  { contextValueOrFactory := .undef, nodes := [("a", nodeA), ("b", nodeB)],
    nodeDependencies := ⟨[("b", ["a"])]⟩ }

/-- Node options like okNodeOpts but with a per-node completion hook. -/
def hookNodeOpts (id : String) (deps : List String) (v : Nat) : NodeOptions String Nat :=
  { id := id, dependencies := deps.map JsVal.vStr, enabled := .missing,
    retryPolicy := none, execute := fun _ _ => .ok v,
    errorHandler := none, onCompleted := true }

/-- Node a with a per-node completion hook, as constructed by addNode. -/
def nodeAH : Node String Nat :=
  { id := "a", dependencies := [], enabled := .missing,
    retryPolicy := { maxRetries := .vNum 0, retryDelayMs := .vNum 0 },
    execute := fun _ _ => Except.ok 1, errorHandler := none, onCompleted := true }

/-- The builder after registering the hooked node a. -/
def exRunWH : WorkflowB String Nat :=
  { contextValueOrFactory := .undef, nodes := [("a", nodeAH)], nodeDependencies := ⟨[]⟩ }

/-- The runner build produces for exRunWH with no overall hook. -/
def exRunnerH : Runner String Nat :=
  { contextValueOrFactory := .undef, topologicalOrder := ["a"],
    nodes := [("a", nodeAH)], nodeDependencies := ⟨[]⟩, onNodesCompleted := none }

/-- The final context of the exRunnerH run. -/
def ctxAH : Ctx Nat := { initial := .vUndef, entries := [("a", some 1)] }

/-- The completed run of exRunnerH: node a ran once, merged its result, and
fired its completion hook with the post-merge snapshot. -/
def doneAH : RunDone String Nat :=
  { finalCtx := ctxAH,
    st := { ctx := ctxAH, completed := ["a"], running := [], ready := [],
            errors := [], statuses := [("a", .completed)],
            events := [{ nodeId := "a", status := .completed, result := some (some 1),
                         error := none, context := ctxAH }],
            invoked := ["a"], finished := [("a", .ok (some 1))] },
    hookLog := [] }

/-- An overall completion hook that always throws. -/
def exHookThrow : OnAllHook String Nat := fun _ _ => .error "boom"

/-- The runner build produces for exC6w1 with the throwing overall hook. -/
def exRunnerHT : Runner String Nat :=
  { contextValueOrFactory := .undef, topologicalOrder := ["a"],
    nodes := [("a", nodeA)], nodeDependencies := ⟨[]⟩,
    onNodesCompleted := some exHookThrow }

/-- A node x whose work function always throws, as constructed by addNode. -/
def nodeXF : Node String Nat :=
  { id := "x", dependencies := [], enabled := .missing,
    retryPolicy := { maxRetries := .vNum 0, retryDelayMs := .vNum 0 },
    execute := fun _ _ => Except.error "xboom", errorHandler := none,
    onCompleted := false }

/-- A node y that depends on x and would return 2, as constructed by
addNode. -/
def nodeYX : Node String Nat :=
  { id := "y", dependencies := [JsVal.vStr "x"], enabled := .missing,
    retryPolicy := { maxRetries := .vNum 0, retryDelayMs := .vNum 0 },
    execute := fun _ _ => Except.ok 2, errorHandler := none, onCompleted := false }

/-- An independent node z whose work function always throws, as constructed
by addNode. -/
def nodeZF : Node String Nat :=
  { id := "z", dependencies := [], enabled := .missing,
    retryPolicy := { maxRetries := .vNum 0, retryDelayMs := .vNum 0 },
    execute := fun _ _ => Except.error "zboom", errorHandler := none,
    onCompleted := false }

/-- An independent node g that returns 5, as constructed by addNode. -/
def nodeGG : Node String Nat :=
  { id := "g", dependencies := [], enabled := .missing,
    retryPolicy := { maxRetries := .vNum 0, retryDelayMs := .vNum 0 },
    execute := fun _ _ => Except.ok 5, errorHandler := none, onCompleted := false }

/-- Builder with failing x, dependent y, and an independent failing z. -/
def exC2w : WorkflowB String Nat :=
  { contextValueOrFactory := .undef,
    nodes := [("x", nodeXF), ("y", nodeYX), ("z", nodeZF)],
    nodeDependencies := ⟨[("y", ["x"])]⟩ }

/-- The runner build produces for exC2w with no overall hook. -/
def exC2r : Runner String Nat :=
  { contextValueOrFactory := .undef, topologicalOrder := ["x", "y", "z"],
    nodes := [("x", nodeXF), ("y", nodeYX), ("z", nodeZF)],
    nodeDependencies := ⟨[("y", ["x"])]⟩, onNodesCompleted := none }

/-- Builder with failing x, dependent y, and an independent succeeding g. -/
def exC2wGood : WorkflowB String Nat :=
  { contextValueOrFactory := .undef,
    nodes := [("x", nodeXF), ("y", nodeYX), ("g", nodeGG)],
    nodeDependencies := ⟨[("y", ["x"])]⟩ }

/-- The runner build produces for exC2wGood with no overall hook. -/
def exC2rGood : Runner String Nat :=
  { contextValueOrFactory := .undef, topologicalOrder := ["x", "y", "g"],
    nodes := [("x", nodeXF), ("y", nodeYX), ("g", nodeGG)],
    nodeDependencies := ⟨[("y", ["x"])]⟩, onNodesCompleted := none }

/-- The completed run of exC2rGood under the first-settles-first schedule. -/
def exC2doneGood : RunDone String Nat :=
  { finalCtx := { initial := .vUndef, entries := [("g", some 5)] },
    st := { ctx := { initial := .vUndef, entries := [("g", some 5)] },
            completed := ["x", "g"], running := [], ready := [],
            errors := [{ id := "x", error := "xboom" }],
            statuses := [("x", .failed), ("g", .completed)],
            events := [], invoked := ["x", "g"],
            finished := [("x", .thrown "xboom"), ("g", .ok (some 5))] },
    hookLog := [] }

/-- A statically disabled node d, as constructed by addNode. -/
def nodeDD : Node String Nat :=
  { id := "d", dependencies := [], enabled := .isStatic false,
    retryPolicy := { maxRetries := .vNum 0, retryDelayMs := .vNum 0 },
    execute := fun _ _ => Except.ok 7, errorHandler := none, onCompleted := false }

/-- A node e depending on the disabled node d, as constructed by addNode. -/
def nodeED : Node String Nat :=
  { id := "e", dependencies := [JsVal.vStr "d"], enabled := .missing,
    retryPolicy := { maxRetries := .vNum 0, retryDelayMs := .vNum 0 },
    execute := fun _ _ => Except.ok 3, errorHandler := none, onCompleted := false }

/-- An independent node f, as constructed by addNode. -/
def nodeFF : Node String Nat :=
  { id := "f", dependencies := [], enabled := .missing,
    retryPolicy := { maxRetries := .vNum 0, retryDelayMs := .vNum 0 },
    execute := fun _ _ => Except.ok 9, errorHandler := none, onCompleted := false }

/-- Builder with disabled d, dependent e, and independent f. -/
def exC1w : WorkflowB String Nat :=
  { contextValueOrFactory := .undef,
    nodes := [("d", nodeDD), ("e", nodeED), ("f", nodeFF)],
    nodeDependencies := ⟨[("e", ["d"])]⟩ }

/-- The runner build produces for exC1w with no overall hook. -/
def exC1r : Runner String Nat :=
  { contextValueOrFactory := .undef, topologicalOrder := ["d", "e", "f"],
    nodes := [("d", nodeDD), ("e", nodeED), ("f", nodeFF)],
    nodeDependencies := ⟨[("e", ["d"])]⟩, onNodesCompleted := none }

/-- Builder of a one-node workflow whose stored context source is a factory
resolving to the falsy number 0. -/
def exC10w : WorkflowB String Nat :=
  { contextValueOrFactory := .factory (fun _ => .vNum 0),
    nodes := [("a", nodeA)], nodeDependencies := ⟨[]⟩ }

/-- The runner build produces for exC10w with no overall hook. -/
def exC10r : Runner String Nat :=
  { contextValueOrFactory := .factory (fun _ => .vNum 0),
    topologicalOrder := ["a"], nodes := [("a", nodeA)],
    nodeDependencies := ⟨[]⟩, onNodesCompleted := none }

/-- Builder of a one-node workflow whose stored context source is the falsy
number 0 itself. -/
def exC10vw : WorkflowB String Nat :=
  { contextValueOrFactory := .value (.vNum 0),
    nodes := [("a", nodeA)], nodeDependencies := ⟨[]⟩ }

/-- The runner build produces for exC10vw with no overall hook. -/
def exC10vr : Runner String Nat :=
  { contextValueOrFactory := .value (.vNum 0),
    topologicalOrder := ["a"], nodes := [("a", nodeA)],
    nodeDependencies := ⟨[]⟩, onNodesCompleted := none }

/-- The completed run of exC10vr: the falsy stored value skips the reset and
the initial slot stays undefined. -/
def exC10vdone : RunDone String Nat :=
  { finalCtx := { initial := .vUndef, entries := [("a", some 1)] },
    st := { ctx := { initial := .vUndef, entries := [("a", some 1)] },
            completed := ["a"], running := [], ready := [],
            errors := [], statuses := [("a", .completed)],
            events := [], invoked := ["a"], finished := [("a", .ok (some 1))] },
    hookLog := [] }

/-- Lists built left to right so that each appended node's dependencies all
occur earlier: the shape of the order produced by the post-order sort. -/
inductive TopoOrdered (D : DependencyMap) : List String → Prop where
  | nil : TopoOrdered D []
  | snoc (l : List String) (x : String) : TopoOrdered D l →
      (∀ d ∈ D.get x, d ∈ l) → TopoOrdered D (l ++ [x])

/-- Invariant of the sort state: the order has no duplicates, the visited set
and the order hold exactly the same ids, and the order is topologically
consistent. -/
def GoodState (D : DependencyMap) (s : TopoState) : Prop :=
  s.order.Nodup ∧ (∀ x, x ∈ s.visited ↔ x ∈ s.order) ∧ TopoOrdered D s.order

/-- The in-progress set is a dependency chain: each entry is a dependency of
the entry pushed just after it (the list head is the most recent push). -/
def ChainTemp (D : DependencyMap) (temp : List String) : Prop :=
  List.Chain' (fun a b => a ∈ D.get b) temp

/-- What a successful visit guarantees: the in-progress set is restored, the
order is extended only with ids outside the entry in-progress set, the
visited set grows, and the state invariant is preserved. -/
def VisitPost (D : DependencyMap) (s s2 : TopoState) : Prop :=
  s2.temp = s.temp ∧
  (∃ t, s2.order = s.order ++ t ∧ ∀ x ∈ t, x ∉ s.temp) ∧
  (∀ x, x ∈ s.visited → x ∈ s2.visited) ∧
  (GoodState D s → GoodState D s2)

/-- A rank function witnessing acyclicity: every dependency edge strictly
decreases the rank.  Every builder state reachable through addNode is graded
by registration index (proved below), and a graded graph has no cycle. -/
def Graded (D : DependencyMap) (rank : String → Nat) : Prop :=
  ∀ a b, depEdge D a b → rank b < rank a

/-- Validity of the run-completion hook argument of build: absent, a
function, or a falsy value (the truthiness guard lets a falsy non-function
through and the runner then never invokes it). -/
def HookOk {h : Type} : HookArg h → Prop
  | .val v => v.truthy = false
  | _ => True

/-- Structural invariant of builder states reachable through addNode:
registered ids are distinct and every dependency edge goes from a node to a
strictly earlier registered node. -/
def BuilderWF {ε α : Type} (w : WorkflowB ε α) : Prop :=
  (w.nodes.map Prod.fst).Nodup ∧
  ∀ a b, b ∈ w.nodeDependencies.get a →
    a ∈ w.nodes.map Prod.fst ∧ b ∈ w.nodes.map Prod.fst ∧
    (w.nodes.map Prod.fst).indexOf b < (w.nodes.map Prod.fst).indexOf a

-- ===========================================================================
-- Theorems
-- ===========================================================================

theorem validateRetryPolicy_ok_iff (rp : RetryPolicyJs) :
    validateRetryPolicy rp = .ok () ↔
      ((∃ q : ℚ, rp.maxRetries = .vNum q ∧ 0 ≤ q ∧ q.den = 1) ∧
       (∃ q : ℚ, rp.retryDelayMs = .vNum q ∧ 0 ≤ q)) := by
  obtain ⟨m, d⟩ := rp
  constructor
  · intro h
    cases m with
    | vNum qm =>
        cases d with
        | vNum qd =>
            by_cases h1 : qm < 0
            · exfalso
              simp [validateRetryPolicy, JsVal.typeofNumber, JsVal.ltZero,
                JsVal.isIntegerNum, h1] at h
            · by_cases h2 : qm.den = 1
              · by_cases h3 : qd < 0
                · exfalso
                  simp [validateRetryPolicy, JsVal.typeofNumber, JsVal.ltZero,
                    JsVal.isIntegerNum, h1, h2, h3] at h
                · exact ⟨⟨qm, rfl, le_of_not_lt h1, h2⟩, ⟨qd, rfl, le_of_not_lt h3⟩⟩
              · exfalso
                simp [validateRetryPolicy, JsVal.typeofNumber, JsVal.ltZero,
                  JsVal.isIntegerNum, h1, h2] at h
        | vUndef =>
            exfalso; unfold validateRetryPolicy at h
            split at h <;> simp_all [JsVal.typeofNumber]
        | vNull =>
            exfalso; unfold validateRetryPolicy at h
            split at h <;> simp_all [JsVal.typeofNumber]
        | vBool b =>
            exfalso; unfold validateRetryPolicy at h
            split at h <;> simp_all [JsVal.typeofNumber]
        | vStr s =>
            exfalso; unfold validateRetryPolicy at h
            split at h <;> simp_all [JsVal.typeofNumber]
    | vUndef => simp [validateRetryPolicy, JsVal.typeofNumber] at h
    | vNull => simp [validateRetryPolicy, JsVal.typeofNumber] at h
    | vBool b => simp [validateRetryPolicy, JsVal.typeofNumber] at h
    | vStr s => simp [validateRetryPolicy, JsVal.typeofNumber] at h
  · rintro ⟨⟨q1, hq1, hq1n, hq1d⟩, ⟨q2, hq2, hq2n⟩⟩
    subst hq1; subst hq2
    have h1 : ¬ (q1 < 0) := not_lt.mpr hq1n
    have h2 : ¬ (q2 < 0) := not_lt.mpr hq2n
    simp [validateRetryPolicy, JsVal.typeofNumber, JsVal.ltZero, JsVal.isIntegerNum,
      h1, h2, hq1d]

theorem construct_eq_of_some {ε α : Type} (opts : NodeOptions ε α) (rp : RetryPolicyJs)
    (h : opts.retryPolicy = some rp) :
    Node.construct opts =
      match validateRetryPolicy rp with
      | .error e => .error e
      | .ok _ =>
          .ok
            { id := opts.id, dependencies := opts.dependencies, enabled := opts.enabled,
              retryPolicy := rp, execute := opts.execute, errorHandler := opts.errorHandler,
              onCompleted := opts.onCompleted } := by
  unfold Node.construct
  rw [h]

/-- C9: constructing a Node with a supplied retry policy succeeds exactly
when maxRetries is a non-negative integer number and retryDelayMs is a
non-negative number (otherwise the constructor throws the validation error);
on success the policy object is stored unchanged in the node's retryPolicy
field. -/
theorem c9_retry_policy_validated {ε α : Type} (opts : NodeOptions ε α) (rp : RetryPolicyJs)
    (h : opts.retryPolicy = some rp) :
    ((∃ n, Node.construct opts = .ok n) ↔
      ((∃ q : ℚ, rp.maxRetries = .vNum q ∧ 0 ≤ q ∧ q.den = 1) ∧
       (∃ q : ℚ, rp.retryDelayMs = .vNum q ∧ 0 ≤ q))) ∧
    (∀ n, Node.construct opts = .ok n → n.retryPolicy = rp) := by
  have hc := construct_eq_of_some opts rp h
  constructor
  · rw [← validateRetryPolicy_ok_iff]
    constructor
    · rintro ⟨n, hn⟩
      rw [hc] at hn
      rcases hv : validateRetryPolicy rp with e | u
      · rw [hv] at hn; simp at hn
      · cases u; rfl
    · intro hv
      rw [hc, hv]
      exact ⟨_, rfl⟩
  · intro n hn
    rw [hc] at hn
    rcases hv : validateRetryPolicy rp with e | u
    · rw [hv] at hn; simp at hn
    · cases u; rw [hv] at hn
      simp only [Except.ok.injEq] at hn
      rw [← hn]

/-- Witness for C9 at a concrete node with policy (2 retries, 10 ms). -/
theorem c9_retry_policy_validated_witness :
    (Node.construct
      { id := "r", dependencies := [], enabled := .missing,
        retryPolicy := some { maxRetries := .vNum 2, retryDelayMs := .vNum 10 },
        execute := fun _ _ => Except.ok 0, errorHandler := none,
        onCompleted := false } : Except CfgErr (Node String Nat)).map
      (fun n => n.retryPolicy) =
      .ok { maxRetries := .vNum 2, retryDelayMs := .vNum 10 } := by
  have h := c9_retry_policy_validated
    (ε := String) (α := Nat)
    { id := "r", dependencies := [], enabled := .missing,
      retryPolicy := some { maxRetries := .vNum 2, retryDelayMs := .vNum 10 },
      execute := fun _ _ => Except.ok 0, errorHandler := none, onCompleted := false }
    { maxRetries := .vNum 2, retryDelayMs := .vNum 10 } rfl
  obtain ⟨n, hn⟩ := h.1.mpr ⟨⟨2, rfl, by norm_num⟩, ⟨10, rfl, by norm_num⟩⟩
  have hr := h.2 n hn
  rw [hn, Except.map, hr]

theorem runLoop_calls_le {ε α : Type} (n : Node ε α) (c : Ctx α) (maxR : Nat) :
    ∀ fuel attempt, (n.runLoop c maxR fuel attempt).2.1 ≤ fuel := by
  intro fuel
  induction fuel with
  | zero => intro attempt; simp [Node.runLoop]
  | succ f ih =>
      intro attempt
      unfold Node.runLoop
      rcases hx : n.execute attempt c with e | v
      · by_cases hlast : attempt == maxR
        · simp [hx, hlast]
        · simp only [hx, hlast, Bool.false_eq_true, if_false]
          have := ih (attempt + 1)
          omega
      · simp [hx]

theorem runLoop_no_internal {ε α : Type} (n : Node ε α) (c : Ctx α) (maxR : Nat) :
    ∀ fuel attempt, attempt + fuel = maxR + 1 → attempt ≤ maxR →
      (n.runLoop c maxR fuel attempt).1 ≠ .internalError := by
  intro fuel
  induction fuel with
  | zero => intro attempt h1 h2; omega
  | succ f ih =>
      intro attempt h1 h2
      unfold Node.runLoop
      rcases hx : n.execute attempt c with e | v
      · by_cases hlast : attempt == maxR
        · simp [hx, hlast]
        · have hne : attempt ≠ maxR := by simpa using hlast
          simp only [hx, hlast, Bool.false_eq_true, if_false]
          exact ih (attempt + 1) (by omega) (by omega)
      · simp [hx]

theorem runLoop_success {ε α : Type} (n : Node ε α) (c : Ctx α) (maxR : Nat) :
    ∀ fuel attempt k v,
      attempt ≤ k → k ≤ maxR → attempt + fuel = maxR + 1 →
      n.execute k c = .ok v →
      (∀ j, attempt ≤ j → j < k → ∃ e, n.execute j c = .error e) →
      n.runLoop c maxR fuel attempt = (.ok (some v), k - attempt + 1, []) := by
  intro fuel
  induction fuel with
  | zero => intro attempt k v h1 h2 h3; omega
  | succ f ih =>
      intro attempt k v h1 h2 h3 hk hfail
      unfold Node.runLoop
      by_cases hak : attempt = k
      · subst hak
        simp [hk]
      · obtain ⟨e, he⟩ := hfail attempt le_rfl (by omega)
        have hne : (attempt == maxR) = false := by
          simp only [beq_eq_false_iff_ne, ne_eq]
          omega
        rw [he, hne]
        simp only [Bool.false_eq_true, if_false]
        rw [ih (attempt + 1) k v (by omega) h2 (by omega) hk
          (fun j hj1 hj2 => hfail j (by omega) hj2)]
        simp only []
        have : k - (attempt + 1) + 1 + 1 = k - attempt + 1 := by omega
        rw [this]

theorem runLoop_allFail {ε α : Type} (n : Node ε α) (c : Ctx α) (maxR : Nat) :
    ∀ fuel attempt,
      attempt + fuel = maxR + 1 → attempt ≤ maxR →
      (∀ j, attempt ≤ j → j ≤ maxR → ∃ e, n.execute j c = .error e) →
      ∃ e, n.execute maxR c = .error e ∧
        n.runLoop c maxR fuel attempt =
          (.thrown e, maxR - attempt + 1,
            match n.errorHandler with
            | some _ => [e]
            | none => []) := by
  intro fuel
  induction fuel with
  | zero => intro attempt h1 h2 h3; omega
  | succ f ih =>
      intro attempt h1 h2 hfail
      by_cases hlast : attempt = maxR
      · subst hlast
        obtain ⟨e, he⟩ := hfail attempt le_rfl le_rfl
        refine ⟨e, he, ?_⟩
        unfold Node.runLoop
        rw [he]
        simp only [beq_self_eq_true, if_true, Nat.sub_self]
      · obtain ⟨e0, he0⟩ := hfail attempt le_rfl (by omega)
        obtain ⟨e, he, hrec⟩ := ih (attempt + 1) (by omega) (by omega)
          (fun j hj1 hj2 => hfail j (by omega) hj2)
        refine ⟨e, he, ?_⟩
        unfold Node.runLoop
        have hne : (attempt == maxR) = false := by
          simp only [beq_eq_false_iff_ne, ne_eq]
          omega
        rw [he0, hne]
        simp only [Bool.false_eq_true, if_false]
        rw [hrec]
        simp only []
        have : maxR - (attempt + 1) + 1 + 1 = maxR - attempt + 1 := by omega
        rw [this]

theorem runLoop_handler_irrelevant {ε α : Type} (n : Node ε α)
    (eh : Option (ε → Ctx α → Except ε Unit)) (c : Ctx α) (maxR : Nat) :
    ∀ fuel attempt,
      (({ n with errorHandler := eh } : Node ε α).runLoop c maxR fuel attempt).1 =
        (n.runLoop c maxR fuel attempt).1 ∧
      (({ n with errorHandler := eh } : Node ε α).runLoop c maxR fuel attempt).2.1 =
        (n.runLoop c maxR fuel attempt).2.1 := by
  intro fuel
  induction fuel with
  | zero => intro attempt; simp [Node.runLoop]
  | succ f ih =>
      intro attempt
      unfold Node.runLoop
      rcases hx : n.execute attempt c with e | v
      · by_cases hlast : attempt == maxR
        · rcases eh with _ | f1 <;> rcases hh : n.errorHandler with _ | f2 <;>
            simp [hx, hlast, hh]
        · have := ih (attempt + 1)
          simp only [hx, hlast, Bool.false_eq_true, if_false]
          exact ⟨this.1, by rw [this.2]⟩
      · simp [hx]

theorem run_skipped_eq {ε α : Type} (n : Node ε α) (c : Ctx α)
    (hen : n.isEnabledWith c = false) :
    n.run c = { out := .ok none, status := .skipped, calls := 0, hookArgs := [] } := by
  unfold Node.run
  rw [hen]
  rfl

theorem run_enabled_eq {ε α : Type} (n : Node ε α) (c : Ctx α)
    (hen : n.isEnabledWith c = true) :
    n.run c =
      { out := (n.runLoop c n.retryPolicy.maxRetries.toNatFloor
          (n.retryPolicy.maxRetries.toNatFloor + 1) 0).1,
        status := match (n.runLoop c n.retryPolicy.maxRetries.toNatFloor
            (n.retryPolicy.maxRetries.toNatFloor + 1) 0).1 with
          | .ok _ => .completed
          | .thrown _ => .failed
          | .internalError => .running,
        calls := (n.runLoop c n.retryPolicy.maxRetries.toNatFloor
            (n.retryPolicy.maxRetries.toNatFloor + 1) 0).2.1,
        hookArgs := (n.runLoop c n.retryPolicy.maxRetries.toNatFloor
            (n.retryPolicy.maxRetries.toNatFloor + 1) 0).2.2 } := by
  unfold Node.run
  rw [hen]
  rfl

theorem toNatFloor_natCast (m : Nat) : (JsVal.vNum (m : ℚ)).toNatFloor = m := by
  simp [JsVal.toNatFloor]

/-- C3: for an enabled node with a validated retry policy of m retries, run
invokes the work function at most m + 1 times; if attempt k (the first to
succeed, k at most m) succeeds then the status becomes completed, that
attempt's result is returned and exactly k + 1 invocations were made; if all
m + 1 attempts fail the status becomes failed, the error thrown to the caller
is the original failure of the last attempt (no wrapping), and the error
handler, when present, is invoked exactly once with exactly that failure
(its own outcome is discarded, so a throwing handler cannot change the run's
result: the last conjunct states that the settled result, status, and call
count do not depend on the handler at all). -/
theorem c3_run_retry_contract {ε α : Type} (n : Node ε α) (c : Ctx α) (m : Nat)
    (hpol : n.retryPolicy.maxRetries = .vNum (m : ℚ))
    (hen : n.isEnabledWith c = true) :
    ((n.run c).calls ≤ m + 1) ∧
    (∀ k v, k ≤ m → n.execute k c = .ok v →
      (∀ j, j < k → ∃ e, n.execute j c = .error e) →
      (n.run c).status = .completed ∧ (n.run c).out = .ok (some v) ∧
        (n.run c).calls = k + 1) ∧
    ((∀ j, j ≤ m → ∃ e, n.execute j c = .error e) →
      ∃ e, n.execute m c = .error e ∧
        (n.run c).status = .failed ∧ (n.run c).out = .thrown e ∧
        (n.errorHandler.isSome → (n.run c).hookArgs = [e]) ∧
        (n.errorHandler = none → (n.run c).hookArgs = [])) ∧
    (∀ eh, (({ n with errorHandler := eh } : Node ε α).run c).out = (n.run c).out ∧
      (({ n with errorHandler := eh } : Node ε α).run c).status = (n.run c).status ∧
      (({ n with errorHandler := eh } : Node ε α).run c).calls = (n.run c).calls) := by
  have hmax : n.retryPolicy.maxRetries.toNatFloor = m := by
    rw [hpol]; exact toNatFloor_natCast m
  have hrun := run_enabled_eq n c hen
  refine ⟨?_, ?_, ?_, ?_⟩
  · rw [hrun]
    simp only []
    rw [hmax]
    exact runLoop_calls_le n c m (m + 1) 0
  · intro k v hk hx hfail
    have := runLoop_success n c m (m + 1) 0 k v (Nat.zero_le k) hk (by omega) hx
      (fun j _ hj => hfail j hj)
    rw [hrun]
    simp only []
    rw [hmax, this]
    refine ⟨rfl, rfl, by simp⟩
  · intro hfail
    obtain ⟨e, he, hloop⟩ := runLoop_allFail n c m (m + 1) 0 (by omega) (Nat.zero_le m)
      (fun j _ hj => hfail j hj)
    refine ⟨e, he, ?_, ?_, ?_, ?_⟩ <;> rw [hrun] <;> simp only [] <;> rw [hmax, hloop]
    · intro hsome
      rcases hh : n.errorHandler with _ | f
      · rw [hh] at hsome; simp at hsome
      · simp [hh]
    · intro hnone
      simp [hnone]
  · intro eh
    have h2 := runLoop_handler_irrelevant n eh c n.retryPolicy.maxRetries.toNatFloor
      (n.retryPolicy.maxRetries.toNatFloor + 1) 0
    have hen2 : ({ n with errorHandler := eh } : Node ε α).isEnabledWith c = true := hen
    have hrun2 := run_enabled_eq ({ n with errorHandler := eh } : Node ε α) c hen2
    rw [hrun, hrun2]
    simp only []
    rw [h2.1, h2.2]
    exact ⟨rfl, rfl, rfl⟩

/-- Witness for C3: a node that fails on attempts 0 and 1 and succeeds on
attempt 2, with policy (2 retries): status completed, result 7, exactly 3
invocations. -/
theorem c3_run_retry_contract_witness :
    (Node.run
      { id := "w", dependencies := [], enabled := .missing,
        retryPolicy := { maxRetries := .vNum 2, retryDelayMs := .vNum 10 },
        execute := fun attempt _ =>
          if attempt < 2 then Except.error "boom" else Except.ok 7,
        errorHandler := none, onCompleted := false }
      (emptyCtx : Ctx Nat)).status = .completed ∧
    (Node.run
      { id := "w", dependencies := [], enabled := .missing,
        retryPolicy := { maxRetries := .vNum 2, retryDelayMs := .vNum 10 },
        execute := fun attempt _ =>
          if attempt < 2 then Except.error "boom" else Except.ok 7,
        errorHandler := none, onCompleted := false }
      (emptyCtx : Ctx Nat)).out = .ok (some 7) ∧
    (Node.run
      { id := "w", dependencies := [], enabled := .missing,
        retryPolicy := { maxRetries := .vNum 2, retryDelayMs := .vNum 10 },
        execute := fun attempt _ =>
          if attempt < 2 then Except.error "boom" else Except.ok 7,
        errorHandler := none, onCompleted := false }
      (emptyCtx : Ctx Nat)).calls = 3 := by
  have h := c3_run_retry_contract
    (ε := String) (α := Nat)
    { id := "w", dependencies := [], enabled := .missing,
      retryPolicy := { maxRetries := .vNum 2, retryDelayMs := .vNum 10 },
      execute := fun attempt _ =>
        if attempt < 2 then Except.error "boom" else Except.ok 7,
      errorHandler := none, onCompleted := false }
    (emptyCtx : Ctx Nat) 2 (by norm_num) rfl
  obtain ⟨hs, ho, hc⟩ := h.2.1 2 7 le_rfl (by simp)
    (fun j hj => ⟨"boom", by simp [hj]⟩)
  exact ⟨hs, ho, hc⟩


theorem except_error_iff_not_ok {a b : Type} (x : Except a b) :
    (∃ e, x = .error e) ↔ ¬ (∃ v, x = .ok v) := by
  rcases x with e | v
  · simp
  · simp

theorem construct_ok_iff {ε α : Type} (opts : NodeOptions ε α) :
    (∃ node, Node.construct opts = .ok node) ↔
      (∀ rp, opts.retryPolicy = some rp → validateRetryPolicy rp = .ok ()) := by
  rcases hr : opts.retryPolicy with _ | rp
  · constructor
    · intro _ rp h
      cases h
    · intro _
      unfold Node.construct
      rw [hr]
      exact ⟨_, rfl⟩
  · have hc := construct_eq_of_some opts rp hr
    constructor
    · rintro ⟨node, hn⟩ rp2 h2
      cases h2
      rw [hc] at hn
      rcases hv : validateRetryPolicy rp with e | u
      · rw [hv] at hn; simp at hn
      · cases u; rfl
    · intro hall
      have hv := hall rp rfl
      rw [hc, hv]
      exact ⟨_, rfl⟩

theorem depsLoop_ok_iff (reg : List String) (nodeId : String) :
    ∀ (deps : List JsVal) (m0 : DependencyMap),
      (∃ m, addNodeDepsLoop reg nodeId deps m0 = .ok m) ↔
        (∀ d ∈ deps, ∃ s, d = .vStr s ∧ s ≠ nodeId ∧ s ∈ reg) := by
  intro deps
  induction deps with
  | nil => intro m0; simp [addNodeDepsLoop]
  | cons d rest ih =>
      intro m0
      constructor
      · rintro ⟨m, hm⟩
        unfold addNodeDepsLoop at hm
        rcases d with _ | _ | b | q | s
        case vStr =>
          simp only [JsVal.typeofString, Bool.not_true, Bool.false_eq_true, if_false] at hm
          by_cases hs : s = nodeId
          · rw [if_pos (by simpa using hs)] at hm
            cases hm
          · rw [if_neg (by simpa using hs)] at hm
            by_cases hreg : s ∈ reg
            · rw [if_pos (by simpa [List.elem_iff] using hreg)] at hm
              intro d hd
              rcases List.mem_cons.mp hd with hd | hd
              · subst hd
                exact ⟨s, rfl, hs, hreg⟩
              · exact ((ih (m0.add nodeId s)).mp ⟨m, hm⟩) d hd
            · rw [if_neg (by simpa [List.elem_iff] using hreg)] at hm
              cases hm
        all_goals simp [JsVal.typeofString] at hm
      · intro hall
        obtain ⟨s, hds, hs, hreg⟩ := hall d (by simp)
        subst hds
        unfold addNodeDepsLoop
        simp only [JsVal.typeofString, Bool.not_true, Bool.false_eq_true, if_false]
        rw [if_neg (by simpa using hs), if_pos (by simpa [List.elem_iff] using hreg)]
        exact (ih _).mpr (fun d hd => hall d (by simp [hd]))

theorem depsLoop_ok_map (reg : List String) (nodeId : String) :
    ∀ (deps : List JsVal) (m0 m : DependencyMap),
      addNodeDepsLoop reg nodeId deps m0 = .ok m →
      m = deps.foldl (fun acc d =>
        match d with
        | .vStr s => acc.add nodeId s
        | _ => acc) m0 := by
  intro deps
  induction deps with
  | nil => intro m0 m hm; cases hm; rfl
  | cons d rest ih =>
      intro m0 m hm
      unfold addNodeDepsLoop at hm
      rcases d with _ | _ | b | q | s
      case vStr =>
        simp only [JsVal.typeofString, Bool.not_true, Bool.false_eq_true, if_false] at hm
        by_cases hs : (s == nodeId) = true
        · rw [if_pos hs] at hm; cases hm
        · rw [if_neg (by simpa using hs)] at hm
          by_cases hreg : reg.contains s = true
          · rw [if_pos hreg] at hm
            exact ih (m0.add nodeId s) m hm
          · rw [if_neg hreg] at hm; cases hm
      all_goals simp [JsVal.typeofString] at hm

theorem addNode_ok_iff {ε α : Type} (w : WorkflowB ε α) (opts : NodeOptions ε α) :
    (∃ w2, w.addNode opts = .ok w2) ↔
      (opts.id ≠ "initial" ∧
       opts.id ∉ w.nodes.map Prod.fst ∧
       (∀ rp, opts.retryPolicy = some rp → validateRetryPolicy rp = .ok ()) ∧
       (∀ d ∈ opts.dependencies, ∃ s, d = .vStr s ∧ s ≠ opts.id ∧
          s ∈ w.nodes.map Prod.fst)) := by
  unfold WorkflowB.addNode
  by_cases h1 : opts.id = "initial"
  · rw [if_pos (by simpa using h1)]
    simp [h1]
  · rw [if_neg (by simpa using h1)]
    by_cases h2 : opts.id ∈ w.nodes.map Prod.fst
    · have h2b : w.nodes.any (fun p => p.1 == opts.id) = true := by
        simp only [List.any_eq_true, beq_iff_eq]
        obtain ⟨p, hp, he⟩ := List.mem_map.mp h2
        exact ⟨p, hp, he⟩
      rw [if_pos h2b]
      simp [h2]
    · have h2b : ¬ (w.nodes.any (fun p => p.1 == opts.id) = true) := by
        simp only [List.any_eq_true, beq_iff_eq]
        rintro ⟨p, hp, he⟩
        exact h2 (List.mem_map.mpr ⟨p, hp, he⟩)
      rw [if_neg h2b]
      rcases hcon : Node.construct opts with e | node
      · have : ¬ (∃ node, Node.construct opts = .ok node) := by
          rw [hcon]; simp
        rw [construct_ok_iff] at this
        simp only [hcon]
        constructor
        · rintro ⟨w2, hw2⟩; cases hw2
        · rintro ⟨_, _, h3, _⟩
          exact absurd h3 this
      · have hconok : ∀ rp, opts.retryPolicy = some rp → validateRetryPolicy rp = .ok () :=
          (construct_ok_iff opts).mp ⟨node, hcon⟩
        rcases hloop : addNodeDepsLoop (w.nodes.map Prod.fst) opts.id opts.dependencies
            w.nodeDependencies with e | m
        · have : ¬ (∃ m, addNodeDepsLoop (w.nodes.map Prod.fst) opts.id opts.dependencies
              w.nodeDependencies = .ok m) := by
            rw [hloop]; simp
          rw [depsLoop_ok_iff] at this
          constructor
          · rintro ⟨w2, hw2⟩; cases hw2
          · rintro ⟨_, _, _, h4⟩
            exact absurd h4 this
        · have hdeps := (depsLoop_ok_iff (w.nodes.map Prod.fst) opts.id opts.dependencies
            w.nodeDependencies).mp ⟨m, hloop⟩
          constructor
          · intro _
            exact ⟨h1, h2, hconok, hdeps⟩
          · intro _
            exact ⟨_, rfl⟩

theorem addNode_ok_effects {ε α : Type} (w : WorkflowB ε α) (opts : NodeOptions ε α)
    (w2 : WorkflowB ε α) (h : w.addNode opts = .ok w2) :
    (∃ node, Node.construct opts = .ok node ∧ w2.nodes = w.nodes ++ [(opts.id, node)]) ∧
    w2.nodeDependencies = opts.dependencies.foldl (fun acc d =>
      match d with
      | .vStr s => acc.add opts.id s
      | _ => acc) w.nodeDependencies ∧
    w2.contextValueOrFactory = w.contextValueOrFactory := by
  unfold WorkflowB.addNode at h
  by_cases h1 : (opts.id == "initial") = true
  · rw [if_pos h1] at h; cases h
  · rw [if_neg h1] at h
    by_cases h2 : (w.nodes.any (fun p => p.1 == opts.id)) = true
    · rw [if_pos h2] at h; cases h
    · rw [if_neg h2] at h
      rcases hcon : Node.construct opts with e | node
      · rw [hcon] at h; cases h
      · rw [hcon] at h
        rcases hloop : addNodeDepsLoop (w.nodes.map Prod.fst) opts.id opts.dependencies
            w.nodeDependencies with e | m
        · rw [hloop] at h; cases h
        · rw [hloop] at h
          cases h
          refine ⟨⟨node, rfl, rfl⟩, ?_, rfl⟩
          exact depsLoop_ok_map _ _ _ _ _ hloop

/-- Counterexample for C6 as frozen: addNode on a fresh builder with a fresh
id, no dependencies, and an invalid retry policy (maxRetries -1) throws, even
though none of the five conditions named by the claim holds. -/
theorem c6_counterexample :
    (WorkflowB.empty .undef : WorkflowB String Nat).addNode
      { id := "a", dependencies := [], enabled := .missing,
        retryPolicy := some { maxRetries := .vNum (-1), retryDelayMs := .vNum 0 },
        execute := fun _ _ => Except.ok 0, errorHandler := none,
        onCompleted := false } = .error .invalidMaxRetries ∧
    ("a" : String) ≠ "initial" ∧
    (WorkflowB.empty .undef : WorkflowB String Nat).nodes.map Prod.fst = [] := by
  refine ⟨?_, by decide, rfl⟩
  rfl

/-- C6 (amended): addNode throws exactly when the id is the reserved
"initial", or the id is already registered, or some listed dependency is not
a string, or some listed dependency equals the id itself, or some listed
dependency does not name an already-registered node, or the supplied
retry policy is invalid; otherwise it registers the node (appending it to
the node map), records each dependency edge in the dependency index in list
order, leaves the stored context source untouched, and returns the builder
for chaining. -/
theorem c6_addNode_contract {ε α : Type} (w : WorkflowB ε α) (opts : NodeOptions ε α) :
    ((∃ e, w.addNode opts = .error e) ↔
      (opts.id = "initial" ∨
       opts.id ∈ w.nodes.map Prod.fst ∨
       (∃ d ∈ opts.dependencies, ∀ s, d ≠ .vStr s) ∨
       JsVal.vStr opts.id ∈ opts.dependencies ∨
       (∃ s, JsVal.vStr s ∈ opts.dependencies ∧ s ∉ w.nodes.map Prod.fst) ∨
       (∃ rp, opts.retryPolicy = some rp ∧ validateRetryPolicy rp ≠ .ok ()))) ∧
    (∀ w2, w.addNode opts = .ok w2 →
      (∃ node, Node.construct opts = .ok node ∧ w2.nodes = w.nodes ++ [(opts.id, node)]) ∧
      w2.nodeDependencies = opts.dependencies.foldl (fun acc d =>
        match d with
        | .vStr s => acc.add opts.id s
        | _ => acc) w.nodeDependencies ∧
      w2.contextValueOrFactory = w.contextValueOrFactory) := by
  constructor
  · rw [except_error_iff_not_ok, addNode_ok_iff]
    constructor
    · intro hno
      by_cases h1 : opts.id = "initial"
      · exact Or.inl h1
      · by_cases h2 : opts.id ∈ w.nodes.map Prod.fst
        · exact Or.inr (Or.inl h2)
        · by_cases h3 : ∀ rp, opts.retryPolicy = some rp → validateRetryPolicy rp = .ok ()
          · have h4 : ¬ (∀ d ∈ opts.dependencies, ∃ s, d = .vStr s ∧ s ≠ opts.id ∧
                s ∈ w.nodes.map Prod.fst) := by
              intro h4
              exact hno ⟨h1, h2, h3, h4⟩
            push_neg at h4
            obtain ⟨d, hd, hbad⟩ := h4
            rcases d with _ | _ | b | q | s
            · exact Or.inr (Or.inr (Or.inl ⟨_, hd, by intro s h; cases h⟩))
            · exact Or.inr (Or.inr (Or.inl ⟨_, hd, by intro s h; cases h⟩))
            · exact Or.inr (Or.inr (Or.inl ⟨_, hd, by intro s h; cases h⟩))
            · exact Or.inr (Or.inr (Or.inl ⟨_, hd, by intro s h; cases h⟩))
            · by_cases hsid : s = opts.id
              · subst hsid
                exact Or.inr (Or.inr (Or.inr (Or.inl hd)))
              · have := hbad s rfl hsid
                exact Or.inr (Or.inr (Or.inr (Or.inr (Or.inl ⟨s, hd, this⟩))))
          · push_neg at h3
            obtain ⟨rp, hrp, hval⟩ := h3
            exact Or.inr (Or.inr (Or.inr (Or.inr (Or.inr ⟨rp, hrp, hval⟩))))
    · rintro (h | h | ⟨d, hd, hbad⟩ | h | ⟨s, hs, hreg⟩ | ⟨rp, hrp, hval⟩) ⟨g1, g2, g3, g4⟩
      · exact g1 h
      · exact g2 h
      · obtain ⟨s, hds, _, _⟩ := g4 d hd
        exact hbad s hds
      · obtain ⟨s, hds, hsne, _⟩ := g4 _ h
        exact hsne (by cases hds; rfl)
      · obtain ⟨s2, hds, _, hsreg⟩ := g4 _ hs
        cases hds
        exact hreg hsreg
      · exact hval (g3 rp hrp)
  · intro w2 h
    exact addNode_ok_effects w opts w2 h

/-- Witness for C6 at a concrete input: adding a node b depending on an
already-registered node a succeeds, appends b to the node map, and records
the edge b to a in the dependency index. -/
theorem c6_addNode_contract_witness :
    exC6w1.addNode (okNodeOpts "b" ["a"] 2) = .ok exC6w2 ∧
    exC6w2.nodeDependencies = exC6w1.nodeDependencies.add "b" "a" ∧
    exC6w2.nodes.map Prod.fst = ["a", "b"] := by
  have h2 := (c6_addNode_contract exC6w1 (okNodeOpts "b" ["a"] 2)).2 exC6w2 rfl
  refine ⟨rfl, ?_, rfl⟩
  rw [h2.2.1]
  rfl

theorem topoVisitListGo_post (D : DependencyMap)
    (visit1 : String → TopoState → Except SortErr TopoState)
    (hvisit : ∀ id s s2, visit1 id s = .ok s2 →
      VisitPost D s s2 ∧ id ∈ s2.visited) :
    ∀ l s s2, topoVisitListGo visit1 l s = .ok s2 →
      VisitPost D s s2 ∧ ∀ d ∈ l, d ∈ s2.visited := by
  intro l
  induction l with
  | nil =>
      intro s s2 h
      unfold topoVisitListGo at h
      cases h
      exact ⟨⟨rfl, ⟨[], by simp, by simp⟩, fun x hx => hx, fun g => g⟩, by simp⟩
  | cons d rest ih =>
      intro s s2 h
      unfold topoVisitListGo at h
      rcases hv : visit1 d s with e | sA
      · rw [hv] at h; cases h
      · rw [hv] at h
        obtain ⟨pA, hdA⟩ := hvisit d s sA hv
        obtain ⟨pB, hrest⟩ := ih sA s2 h
        constructor
        · obtain ⟨t1, ho1, ht1⟩ := pA.2.1
          obtain ⟨t2, ho2, ht2⟩ := pB.2.1
          refine ⟨pB.1.trans pA.1, ⟨t1 ++ t2, ?_, ?_⟩,
            fun x hx => pB.2.2.1 x (pA.2.2.1 x hx),
            fun g => pB.2.2.2 (pA.2.2.2 g)⟩
          · rw [ho2, ho1, List.append_assoc]
          · intro x hx
            rcases List.mem_append.mp hx with h1 | h2
            · exact ht1 x h1
            · rw [← pA.1]
              exact ht2 x h2
        · intro d2 hd2
          rcases List.mem_cons.mp hd2 with rfl | hmem
          · exact pB.2.2.1 d2 hdA
          · exact hrest d2 hmem

theorem topoVisit_post (D : DependencyMap) :
    ∀ fuel id s s2, topoVisit D fuel id s = .ok s2 →
      VisitPost D s s2 ∧ id ∈ s2.visited := by
  intro fuel
  induction fuel with
  | zero => intro id s s2 h; unfold topoVisit at h; cases h
  | succ f ih =>
      intro id s s2 h
      unfold topoVisit at h
      by_cases h1 : s.temp.contains id
      · rw [if_pos h1] at h; cases h
      · rw [if_neg h1] at h
        by_cases h2 : s.visited.contains id
        · rw [if_pos h2] at h
          cases h
          exact ⟨⟨rfl, ⟨[], by simp, by simp⟩, fun x hx => hx, fun g => g⟩,
            List.elem_iff.mp h2⟩
        · rw [if_neg h2] at h
          rcases hl : topoVisitListGo (topoVisit D f) (D.get id)
              ⟨id :: s.temp, s.visited, s.order⟩ with e | s3
          · rw [hl] at h; cases h
          · rw [hl] at h
            cases h
            obtain ⟨p, hdeps⟩ := topoVisitListGo_post D (topoVisit D f) ih _ _ _ hl
            have hidt : id ∉ s.temp := fun hin => h1 (List.elem_iff.mpr hin)
            have hidv : id ∉ s.visited := fun hin => h2 (List.elem_iff.mpr hin)
            have htemp3 : s3.temp = id :: s.temp := p.1
            obtain ⟨t, ho, ht⟩ := p.2.1
            have hmono : ∀ x, x ∈ s.visited → x ∈ s3.visited := p.2.2.1
            refine ⟨⟨?_, ⟨t ++ [id], ?_, ?_⟩, ?_, ?_⟩, ?_⟩
            · show s3.temp.erase id = s.temp
              rw [htemp3]
              exact List.erase_cons_head id s.temp
            · show s3.order ++ [id] = s.order ++ (t ++ [id])
              rw [ho, List.append_assoc]
            · intro x hx
              rcases List.mem_append.mp hx with hxt | hxi
              · intro hc
                exact ht x hxt (List.mem_cons_of_mem id hc)
              · have : x = id := by simpa using hxi
                subst this
                exact hidt
            · intro x hx
              exact List.mem_cons_of_mem id (hmono x hx)
            · intro g
              have g3 : GoodState D s3 := p.2.2.2 g
              have hidno : id ∉ s3.order := by
                rw [ho]
                intro hin
                rcases List.mem_append.mp hin with hin1 | hin2
                · exact hidv ((g.2.1 id).mpr hin1)
                · exact ht id hin2 (List.mem_cons_self id s.temp)
              refine ⟨?_, ?_, ?_⟩
              · show (s3.order ++ [id]).Nodup
                rw [List.nodup_append]
                refine ⟨g3.1, List.nodup_singleton id, ?_⟩
                intro a ha hai
                have : a = id := by simpa using hai
                subst this
                exact hidno ha
              · intro x
                show x ∈ id :: s3.visited ↔ x ∈ s3.order ++ [id]
                simp only [List.mem_cons, List.mem_append, List.mem_singleton]
                rw [g3.2.1 x]
                tauto
              · exact TopoOrdered.snoc s3.order id g3.2.2
                  (fun d2 hd2 => (g3.2.1 d2).mp (hdeps d2 hd2))
            · exact List.mem_cons_self id s3.visited

theorem topoFold_post (D : DependencyMap) (fuel : Nat) :
    ∀ ids s s2, topoFold D fuel ids s = .ok s2 →
      (∀ x, x ∈ s.visited → x ∈ s2.visited) ∧
      (∀ x, x ∈ ids → x ∈ s2.visited) ∧
      (GoodState D s → GoodState D s2) := by
  intro ids
  induction ids with
  | nil =>
      intro s s2 h
      unfold topoFold at h
      cases h
      exact ⟨fun x hx => hx, by simp, fun g => g⟩
  | cons id rest ih =>
      intro s s2 h
      unfold topoFold at h
      by_cases h1 : s.visited.contains id
      · rw [if_pos h1] at h
        obtain ⟨hmono, hrest, hgood⟩ := ih s s2 h
        refine ⟨hmono, ?_, hgood⟩
        intro x hx
        rcases List.mem_cons.mp hx with rfl | hm
        · exact hmono _ (List.elem_iff.mp h1)
        · exact hrest x hm
      · rw [if_neg h1] at h
        rcases hv : topoVisit D fuel id s with e | sA
        · rw [hv] at h; cases h
        · rw [hv] at h
          obtain ⟨p, hidv⟩ := topoVisit_post D fuel id s sA hv
          obtain ⟨hmono, hrest, hgood⟩ := ih sA s2 h
          refine ⟨fun x hx => hmono x (p.2.2.1 x hx), ?_, fun g => hgood (p.2.2.2 g)⟩
          intro x hx
          rcases List.mem_cons.mp hx with rfl | hm
          · exact hmono x hidv
          · exact hrest x hm

theorem topoOrdered_indexOf_prec (D : DependencyMap) :
    ∀ l, TopoOrdered D l → l.Nodup →
      ∀ n d, n ∈ l → d ∈ D.get n → d ∈ l ∧ l.indexOf d < l.indexOf n := by
  intro l ht
  induction ht with
  | nil => intro _ n d hn _; simp at hn
  | snoc l x hl hdeps ih =>
      intro hnd n d hn hd
      rw [List.nodup_append] at hnd
      obtain ⟨hnd1, _, hdisj⟩ := hnd
      have hxl : x ∉ l := fun hx => hdisj hx (by simp)
      rcases List.mem_append.mp hn with hnl | hnx
      · obtain ⟨hdl, hlt⟩ := ih hnd1 n d hnl hd
        refine ⟨List.mem_append.mpr (Or.inl hdl), ?_⟩
        rw [List.indexOf_append_of_mem hdl, List.indexOf_append_of_mem hnl]
        exact hlt
      · have hx : n = x := by simpa using hnx
        subst hx
        have hdl : d ∈ l := hdeps d hd
        refine ⟨List.mem_append.mpr (Or.inl hdl), ?_⟩
        rw [List.indexOf_append_of_mem hdl, List.indexOf_append_of_not_mem hxl]
        have hlen : l.indexOf d < l.length := List.indexOf_lt_length.mpr hdl
        simp only [List.indexOf_cons_self]
        omega

/-- C5: whenever the depth-first sort succeeds (which is what build requires
of an accepted graph), the resulting order lists every registered node
exactly once, and every declared dependency of a node in the order occurs in
the order at a strictly smaller index than the node itself. -/
theorem c5_topological_order (ids : List String) (D : DependencyMap) (order : List String)
    (h : topologicalSort ids D = .ok order) :
    order.Nodup ∧ (∀ id, id ∈ ids → order.count id = 1) ∧
    (∀ n d, n ∈ order → d ∈ D.get n →
      d ∈ order ∧ order.indexOf d < order.indexOf n) := by
  unfold topologicalSort at h
  rcases hf : topoFold D ((topoUniverse ids D).length + 1) ids ⟨[], [], []⟩ with e | s2
  · rw [hf] at h; cases h
  · rw [hf] at h
    cases h
    obtain ⟨_, hids, hgood⟩ := topoFold_post D _ ids _ s2 hf
    have g2 : GoodState D s2 := hgood ⟨List.nodup_nil, by simp, TopoOrdered.nil⟩
    refine ⟨g2.1, ?_, ?_⟩
    · intro id hid
      exact List.count_eq_one_of_mem g2.1 ((g2.2.1 id).mp (hids id hid))
    · exact topoOrdered_indexOf_prec D s2.order g2.2.2 g2.1

/-- Witness for C5 on the two-node chain b depends on a. -/
theorem c5_topological_order_witness :
    topologicalSort ["a", "b"] ⟨[("b", ["a"])]⟩ = .ok ["a", "b"] ∧
    (["a", "b"] : List String).Nodup ∧
    (["a", "b"] : List String).indexOf "a" < (["a", "b"] : List String).indexOf "b" := by
  have hs : topologicalSort ["a", "b"] ⟨[("b", ["a"])]⟩ = .ok ["a", "b"] := by rfl
  obtain ⟨hnd, _, hprec⟩ := c5_topological_order ["a", "b"] ⟨[("b", ["a"])]⟩ ["a", "b"] hs
  refine ⟨hs, hnd, ?_⟩
  exact (hprec "b" "a" (by simp) (by simp [DependencyMap.get])).2


theorem find?_append_some {β : Type} (l1 l2 : List β) (p : β → Bool) (x : β)
    (h : l1.find? p = some x) : (l1 ++ l2).find? p = some x := by
  induction l1 with
  | nil => cases h
  | cons a tl ih =>
      by_cases hp : p a
      · rw [List.find?_cons_of_pos _ hp] at h
        rw [List.cons_append, List.find?_cons_of_pos _ hp]
        exact h
      · rw [List.find?_cons_of_neg _ hp] at h
        rw [List.cons_append, List.find?_cons_of_neg _ hp]
        exact ih h

theorem find?_append_none {β : Type} (l1 l2 : List β) (p : β → Bool)
    (h : l1.find? p = none) : (l1 ++ l2).find? p = l2.find? p := by
  induction l1 with
  | nil => rfl
  | cons a tl ih =>
      by_cases hp : p a
      · rw [List.find?_cons_of_pos _ hp] at h; cases h
      · rw [List.find?_cons_of_neg _ hp] at h
        rw [List.cons_append, List.find?_cons_of_neg _ hp]
        exact ih h

theorem nodup_subset_length_le (l u : List String) (h1 : l.Nodup) (h2 : l ⊆ u) :
    l.length ≤ u.length := by
  have hle := List.toFinset_card_le (α := String) u
  have h3 : l.toFinset ⊆ u.toFinset := by
    intro x hx
    simp only [List.mem_toFinset] at hx ⊢
    exact h2 hx
  have h4 := Finset.card_le_card h3
  rw [List.toFinset_card_of_nodup h1] at h4
  omega

theorem chainTemp_walk (D : DependencyMap) :
    ∀ rest h, ChainTemp D (h :: rest) → ∀ x, x ∈ h :: rest →
      Relation.ReflTransGen (depEdge D) x h := by
  intro rest
  induction rest with
  | nil =>
      intro h _ x hx
      have : x = h := by simpa using hx
      subst this
      exact Relation.ReflTransGen.refl
  | cons h2 rest2 ih =>
      intro h hch x hx
      have hch2 := (List.chain'_cons.mp hch)
      rcases List.mem_cons.mp hx with rfl | hx2
      · exact Relation.ReflTransGen.refl
      · exact Relation.ReflTransGen.tail (ih h2 hch2.2 x hx2) hch2.1

theorem temp_hit_cycle (D : DependencyMap) (s : TopoState) (id : String)
    (hch : ChainTemp D s.temp)
    (hhd : s.temp = [] ∨ ∃ h t2, s.temp = h :: t2 ∧ id ∈ D.get h)
    (hin : id ∈ s.temp) : OnCycle D id := by
  rcases hhd with hnil | ⟨h, t2, ht, hd⟩
  · rw [hnil] at hin; cases hin
  · rw [ht] at hin hch
    have hwalk := chainTemp_walk D t2 h hch id hin
    exact Relation.TransGen.tail' hwalk hd

theorem topoVisitListGo_cycle (D : DependencyMap)
    (visit1 : String → TopoState → Except SortErr TopoState)
    (hvisit : ∀ id s z, ChainTemp D s.temp →
      (s.temp = [] ∨ ∃ h t2, s.temp = h :: t2 ∧ id ∈ D.get h) →
      visit1 id s = .error (.cycle z) → OnCycle D z)
    (htemp : ∀ id s s2, visit1 id s = .ok s2 → s2.temp = s.temp) :
    ∀ l s z, ChainTemp D s.temp →
      (∀ d, d ∈ l → s.temp = [] ∨ ∃ h t2, s.temp = h :: t2 ∧ d ∈ D.get h) →
      topoVisitListGo visit1 l s = .error (.cycle z) → OnCycle D z := by
  intro l
  induction l with
  | nil => intro s z _ _ h; unfold topoVisitListGo at h; cases h
  | cons d rest ih =>
      intro s z hch hhd h
      unfold topoVisitListGo at h
      rcases hv : visit1 d s with e | sA
      · rw [hv] at h
        cases h
        exact hvisit d s z hch (hhd d (by simp)) hv
      · rw [hv] at h
        have hte := htemp d s sA hv
        refine ih sA z ?_ ?_ h
        · rw [hte]; exact hch
        · intro d2 hd2
          rw [hte]
          exact hhd d2 (by simp [hd2])

theorem topoVisit_cycle (D : DependencyMap) :
    ∀ fuel id s z, ChainTemp D s.temp →
      (s.temp = [] ∨ ∃ h t2, s.temp = h :: t2 ∧ id ∈ D.get h) →
      topoVisit D fuel id s = .error (.cycle z) → OnCycle D z := by
  intro fuel
  induction fuel with
  | zero => intro id s z _ _ h; unfold topoVisit at h; cases h
  | succ f ih =>
      intro id s z hch hhd h
      unfold topoVisit at h
      by_cases h1 : s.temp.contains id
      · rw [if_pos h1] at h
        cases h
        exact temp_hit_cycle D s id hch hhd (List.elem_iff.mp h1)
      · rw [if_neg h1] at h
        by_cases h2 : s.visited.contains id
        · rw [if_pos h2] at h; cases h
        · rw [if_neg h2] at h
          rcases hl : topoVisitListGo (topoVisit D f) (D.get id)
              ⟨id :: s.temp, s.visited, s.order⟩ with e | s3
          · rw [hl] at h
            cases h
            refine topoVisitListGo_cycle D (topoVisit D f) ih
              (fun id2 s2 s3 hok => (topoVisit_post D f id2 s2 s3 hok).1.1)
              (D.get id) _ z ?_ ?_ hl
            · show ChainTemp D (id :: s.temp)
              rcases hhd with hnil | ⟨hh, t2, ht, hd⟩
              · rw [hnil]
                exact List.chain'_singleton id
              · rw [ht]
                exact List.chain'_cons.mpr ⟨hd, ht ▸ hch⟩
            · intro d hd
              exact Or.inr ⟨id, s.temp, rfl, hd⟩
          · rw [hl] at h; cases h

theorem topoFold_cycle (D : DependencyMap) (fuel : Nat) :
    ∀ ids s z, s.temp = [] → topoFold D fuel ids s = .error (.cycle z) →
      OnCycle D z := by
  intro ids
  induction ids with
  | nil => intro s z _ h; unfold topoFold at h; cases h
  | cons id rest ih =>
      intro s z htemp h
      unfold topoFold at h
      by_cases h1 : s.visited.contains id
      · rw [if_pos h1] at h
        exact ih s z htemp h
      · rw [if_neg h1] at h
        rcases hv : topoVisit D fuel id s with e | sA
        · rw [hv] at h
          cases h
          exact topoVisit_cycle D fuel id s z (by rw [htemp]; exact List.chain'_nil)
            (Or.inl htemp) hv
        · rw [hv] at h
          refine ih sA z ?_ h
          rw [(topoVisit_post D fuel id s sA hv).1.1, htemp]

theorem topologicalSort_cycle_sound (ids : List String) (D : DependencyMap) (z : String)
    (h : topologicalSort ids D = .error (.cycle z)) : OnCycle D z := by
  unfold topologicalSort at h
  rcases hf : topoFold D ((topoUniverse ids D).length + 1) ids ⟨[], [], []⟩ with e | s2
  · rw [hf] at h
    cases h
    exact topoFold_cycle D _ ids ⟨[], [], []⟩ z rfl hf
  · rw [hf] at h; cases h


theorem ids_subset_universe (ids : List String) (D : DependencyMap) :
    ∀ x, x ∈ ids → x ∈ topoUniverse ids D := by
  intro x hx
  exact List.mem_append.mpr (Or.inl hx)

theorem dget_subset_universe (ids : List String) (D : DependencyMap) :
    ∀ x d, d ∈ D.get x → d ∈ topoUniverse ids D := by
  intro x d hd
  unfold DependencyMap.get at hd
  rcases hf : D.entries.find? (fun p => p.1 == x) with _ | p
  · rw [hf] at hd; cases hd
  · rw [hf] at hd
    have hp : p ∈ D.entries := List.mem_of_find?_eq_some hf
    refine List.mem_append.mpr (Or.inr ?_)
    rw [List.mem_flatten]
    exact ⟨p.1 :: p.2, List.mem_map.mpr ⟨p, hp, rfl⟩, List.mem_cons_of_mem _ hd⟩

theorem topoVisitListGo_nofuel (D : DependencyMap) (ids : List String) (fuel : Nat)
    (hvisit : ∀ id s, id ∈ topoUniverse ids D → s.temp ⊆ topoUniverse ids D →
      s.temp.Nodup → (topoUniverse ids D).length + 1 ≤ fuel + s.temp.length →
      topoVisit D fuel id s ≠ .error .fuelOut) :
    ∀ l s, (∀ d, d ∈ l → d ∈ topoUniverse ids D) → s.temp ⊆ topoUniverse ids D →
      s.temp.Nodup → (topoUniverse ids D).length + 1 ≤ fuel + s.temp.length →
      topoVisitListGo (topoVisit D fuel) l s ≠ .error .fuelOut := by
  intro l
  induction l with
  | nil => intro s _ _ _ _ h; unfold topoVisitListGo at h; cases h
  | cons d rest ih =>
      intro s hl hts htn hb h
      unfold topoVisitListGo at h
      rcases hv : topoVisit D fuel d s with e | sA
      · rw [hv] at h
        cases h
        exact hvisit d s (hl d (by simp)) hts htn hb hv
      · rw [hv] at h
        have hte := (topoVisit_post D fuel d s sA hv).1.1
        refine ih sA (fun d2 hd2 => hl d2 (by simp [hd2])) ?_ ?_ ?_ h
        · rw [hte]; exact hts
        · rw [hte]; exact htn
        · rw [hte]; exact hb

theorem topoVisit_nofuel (D : DependencyMap) (ids : List String) :
    ∀ fuel id s, id ∈ topoUniverse ids D → s.temp ⊆ topoUniverse ids D →
      s.temp.Nodup → (topoUniverse ids D).length + 1 ≤ fuel + s.temp.length →
      topoVisit D fuel id s ≠ .error .fuelOut := by
  intro fuel
  induction fuel with
  | zero =>
      intro id s _ hts htn hb h
      have := nodup_subset_length_le s.temp (topoUniverse ids D) htn hts
      omega
  | succ f ih =>
      intro id s hid hts htn hb h
      unfold topoVisit at h
      by_cases h1 : s.temp.contains id
      · rw [if_pos h1] at h; cases h
      · rw [if_neg h1] at h
        by_cases h2 : s.visited.contains id
        · rw [if_pos h2] at h; cases h
        · rw [if_neg h2] at h
          rcases hl : topoVisitListGo (topoVisit D f) (D.get id)
              ⟨id :: s.temp, s.visited, s.order⟩ with e | s3
          · rw [hl] at h
            cases h
            refine topoVisitListGo_nofuel D ids f ih (D.get id)
              ⟨id :: s.temp, s.visited, s.order⟩
              (fun d hd => dget_subset_universe ids D id d hd) ?_ ?_ ?_ hl
            · intro x hx
              rcases List.mem_cons.mp hx with rfl | hx2
              · exact hid
              · exact hts hx2
            · exact List.nodup_cons.mpr ⟨fun hin => h1 (List.elem_iff.mpr hin), htn⟩
            · show (topoUniverse ids D).length + 1 ≤ f + (id :: s.temp).length
              simp only [List.length_cons]
              omega
          · rw [hl] at h; cases h

theorem topoFold_nofuel (D : DependencyMap) (ids0 : List String) (fuel : Nat)
    (hfuel : fuel = (topoUniverse ids0 D).length + 1) :
    ∀ ids s, (∀ x, x ∈ ids → x ∈ topoUniverse ids0 D) → s.temp = [] →
      topoFold D fuel ids s ≠ .error .fuelOut := by
  intro ids
  induction ids with
  | nil => intro s _ _ h; unfold topoFold at h; cases h
  | cons id rest ih =>
      intro s hl htemp h
      unfold topoFold at h
      by_cases h1 : s.visited.contains id
      · rw [if_pos h1] at h
        exact ih s (fun x hx => hl x (by simp [hx])) htemp h
      · rw [if_neg h1] at h
        rcases hv : topoVisit D fuel id s with e | sA
        · rw [hv] at h
          cases h
          refine topoVisit_nofuel D ids0 fuel id s (hl id (by simp)) ?_ ?_ ?_ hv
          · rw [htemp]; intro x hx; cases hx
          · rw [htemp]; exact List.nodup_nil
          · rw [htemp, hfuel]; simp
        · rw [hv] at h
          refine ih sA (fun x hx => hl x (by simp [hx])) ?_ h
          rw [(topoVisit_post D fuel id s sA hv).1.1, htemp]

theorem topologicalSort_no_fuelOut (ids : List String) (D : DependencyMap) :
    topologicalSort ids D ≠ .error .fuelOut := by
  intro h
  unfold topologicalSort at h
  rcases hf : topoFold D ((topoUniverse ids D).length + 1) ids ⟨[], [], []⟩ with e | s2
  · rw [hf] at h
    cases h
    exact topoFold_nofuel D ids _ rfl ids ⟨[], [], []⟩
      (fun x hx => ids_subset_universe ids D x hx) rfl hf
  · rw [hf] at h; cases h

theorem graded_no_cycle (D : DependencyMap) (rank : String → Nat)
    (hg : Graded D rank) (x : String) : ¬ OnCycle D x := by
  intro hc
  have key : ∀ a b, Relation.TransGen (depEdge D) a b → rank b < rank a := by
    intro a b h
    induction h with
    | single h1 => exact hg _ _ h1
    | tail h1 h2 ih => exact lt_trans (hg _ _ h2) ih
  exact lt_irrefl _ (key x x hc)

theorem topologicalSort_ok_no_cycle (ids : List String) (D : DependencyMap)
    (order : List String) (h : topologicalSort ids D = .ok order) (x : String)
    (hx : x ∈ ids) : ¬ OnCycle D x := by
  intro hc
  obtain ⟨hnd, hcount, hprec⟩ := c5_topological_order ids D order h
  have hxo : x ∈ order := by
    have := hcount x hx
    exact List.count_pos_iff.mp (by omega)
  have key : ∀ a b, Relation.TransGen (depEdge D) a b → a ∈ order →
      b ∈ order ∧ order.indexOf b < order.indexOf a := by
    intro a b hab
    induction hab with
    | single h1 => intro ha; exact hprec a _ ha h1
    | tail h1 h2 ih =>
        intro ha
        obtain ⟨hb, hlt⟩ := ih ha
        obtain ⟨hc2, hlt2⟩ := hprec _ _ hb h2
        exact ⟨hc2, lt_trans hlt2 hlt⟩
  have := (key x x hc hxo).2
  omega

theorem topologicalSort_ok_of_graded (ids : List String) (D : DependencyMap)
    (rank : String → Nat) (hg : Graded D rank) :
    ∃ order, topologicalSort ids D = .ok order := by
  rcases h : topologicalSort ids D with e | order
  · exfalso
    rcases e with z | _
    · exact graded_no_cycle D rank hg z (topologicalSort_cycle_sound ids D z h)
    · exact topologicalSort_no_fuelOut ids D h
  · exact ⟨order, rfl⟩


theorem find?_cons_pos {β : Type} (p : β → Bool) (a : β) (l : List β) (h : p a = true) :
    (a :: l).find? p = some a :=
  List.find?_cons_of_pos l h

theorem find?_cons_neg {β : Type} (p : β → Bool) (a : β) (l : List β) (h : p a = false) :
    (a :: l).find? p = l.find? p :=
  List.find?_cons_of_neg l (by simp [h])

theorem find?_map_update_self (k v : String) :
    ∀ entries : List (String × List String),
      (entries.map (fun p => if p.1 == k then (p.1, p.2 ++ [v]) else p)).find?
          (fun p => p.1 == k) =
        (entries.find? (fun p => p.1 == k)).map (fun p => (p.1, p.2 ++ [v])) := by
  intro entries
  induction entries with
  | nil => rfl
  | cons hd tl ih =>
      rw [List.map_cons]
      by_cases hp : (hd.1 == k) = true
      · rw [if_pos hp]
        rw [find?_cons_pos (fun p => p.1 == k) (hd.1, hd.2 ++ [v]) _ hp]
        rw [find?_cons_pos (fun p => p.1 == k) hd tl hp]
        rfl
      · have hpf : (hd.1 == k) = false := by simpa using hp
        rw [if_neg hp]
        rw [find?_cons_neg (fun p => p.1 == k) hd _ hpf]
        rw [find?_cons_neg (fun p => p.1 == k) hd tl hpf]
        exact ih

theorem find?_map_update_other (k v a : String) (hne : a ≠ k) :
    ∀ entries : List (String × List String),
      (entries.map (fun p => if p.1 == k then (p.1, p.2 ++ [v]) else p)).find?
          (fun p => p.1 == a) =
        entries.find? (fun p => p.1 == a) := by
  intro entries
  induction entries with
  | nil => rfl
  | cons hd tl ih =>
      rw [List.map_cons]
      by_cases hp : (hd.1 == k) = true
      · have hk : hd.1 = k := by simpa using hp
        have hpa : (hd.1 == a) = false := by
          simp only [beq_eq_false_iff_ne, ne_eq, hk]
          exact fun h => hne h.symm
        rw [if_pos hp]
        rw [find?_cons_neg (fun p => p.1 == a) (hd.1, hd.2 ++ [v]) _ hpa]
        rw [find?_cons_neg (fun p => p.1 == a) hd tl hpa]
        exact ih
      · rw [if_neg hp]
        by_cases hpa : (hd.1 == a) = true
        · rw [find?_cons_pos (fun p => p.1 == a) hd _ hpa]
          rw [find?_cons_pos (fun p => p.1 == a) hd tl hpa]
        · have hpaf : (hd.1 == a) = false := by simpa using hpa
          rw [find?_cons_neg (fun p => p.1 == a) hd _ hpaf]
          rw [find?_cons_neg (fun p => p.1 == a) hd tl hpaf]
          exact ih

theorem dmap_get_add_self (m : DependencyMap) (k v : String) :
    (m.add k v).get k = m.get k ++ [v] := by
  unfold DependencyMap.add DependencyMap.get
  by_cases hany : (m.entries.any (fun p => p.1 == k)) = true
  · rw [if_pos hany]
    simp only []
    rw [find?_map_update_self k v m.entries]
    rcases hf : m.entries.find? (fun p => p.1 == k) with _ | p
    · exfalso
      obtain ⟨p, hp, hpk⟩ := List.any_eq_true.mp hany
      have : m.entries.find? (fun p => p.1 == k) ≠ none := by
        intro hn
        rw [List.find?_eq_none] at hn
        exact hn p hp hpk
      exact this hf
    · rw [hf]
      rfl
  · rw [if_neg hany]
    simp only []
    have hf : m.entries.find? (fun p => p.1 == k) = none := by
      rw [List.find?_eq_none]
      intro p hp hpk
      exact hany (List.any_eq_true.mpr ⟨p, hp, hpk⟩)
    rw [find?_append_none _ _ _ hf, hf]
    rw [List.find?_cons_of_pos _ (by simp)]
    rfl

theorem dmap_get_add_other (m : DependencyMap) (k v a : String) (hne : a ≠ k) :
    (m.add k v).get a = m.get a := by
  unfold DependencyMap.add DependencyMap.get
  by_cases hany : (m.entries.any (fun p => p.1 == k)) = true
  · rw [if_pos hany]
    simp only []
    rw [find?_map_update_other k v a hne m.entries]
  · rw [if_neg hany]
    simp only []
    have hka : ¬ (k = a) := fun h => hne h.symm
    rcases hf : m.entries.find? (fun p => p.1 == a) with _ | p
    · rw [find?_append_none _ _ _ hf]
      rw [List.find?_cons_of_neg _ (by simpa using hka), List.find?_nil, hf]
    · rw [find?_append_some _ _ _ _ hf, hf]

theorem foldl_add_get_self (nodeId : String) :
    ∀ (deps : List JsVal) (m : DependencyMap),
      (deps.foldl (fun acc d =>
        match d with
        | .vStr s => acc.add nodeId s
        | _ => acc) m).get nodeId =
      m.get nodeId ++ deps.filterMap (fun d =>
        match d with
        | .vStr s => some s
        | _ => none) := by
  intro deps
  induction deps with
  | nil => intro m; simp
  | cons d rest ih =>
      intro m
      rcases d with _ | _ | b | q | s <;>
        simp only [List.foldl_cons, List.filterMap_cons]
      · exact ih m
      · exact ih m
      · exact ih m
      · exact ih m
      · rw [ih (m.add nodeId s), dmap_get_add_self]
        simp

theorem foldl_add_get_other (nodeId a : String) (hne : a ≠ nodeId) :
    ∀ (deps : List JsVal) (m : DependencyMap),
      (deps.foldl (fun acc d =>
        match d with
        | .vStr s => acc.add nodeId s
        | _ => acc) m).get a = m.get a := by
  intro deps
  induction deps with
  | nil => intro m; rfl
  | cons d rest ih =>
      intro m
      rcases d with _ | _ | b | q | s <;> simp only [List.foldl_cons]
      · exact ih m
      · exact ih m
      · exact ih m
      · exact ih m
      · rw [ih (m.add nodeId s), dmap_get_add_other _ _ _ _ hne]

theorem dmap_get_ne_nil_mem (m : DependencyMap) (a : String)
    (h : m.get a ≠ []) : ∃ b, b ∈ m.get a := by
  rcases hg : m.get a with _ | ⟨b, rest⟩
  · exact absurd hg h
  · exact ⟨b, by simp⟩

theorem builtFrom_wf {ε α : Type} (w : WorkflowB ε α) (h : BuiltFrom w) : BuilderWF w := by
  induction h with
  | init src =>
      constructor
      · exact List.nodup_nil
      · intro a b hb
        unfold WorkflowB.empty DependencyMap.get at hb
        simp at hb
  | step w w2 opts hw hok ih =>
      obtain ⟨hne1, hnotmem, hcon, hdeps⟩ := (addNode_ok_iff w opts).mp ⟨w2, hok⟩
      obtain ⟨⟨node, _, hnodes⟩, hdmap, _⟩ := addNode_ok_effects w opts w2 hok
      have hids2 : w2.nodes.map Prod.fst = w.nodes.map Prod.fst ++ [opts.id] := by
        rw [hnodes]; simp
      have hDid : w.nodeDependencies.get opts.id = [] := by
        by_contra hne
        obtain ⟨b, hb⟩ := dmap_get_ne_nil_mem _ _ hne
        exact hnotmem (ih.2 opts.id b hb).1
      constructor
      · rw [hids2, List.nodup_append]
        refine ⟨ih.1, List.nodup_singleton _, ?_⟩
        intro a ha hai
        have : a = opts.id := by simpa using hai
        subst this
        exact hnotmem ha
      · intro a b hb
        rw [hdmap] at hb
        by_cases hai : a = opts.id
        · subst hai
          rw [foldl_add_get_self, hDid, List.nil_append] at hb
          obtain ⟨d, hd, hds⟩ := List.mem_filterMap.mp hb
          obtain ⟨s, hdv, hsne, hsmem⟩ := hdeps d hd
          subst hdv
          simp only [Option.some.injEq] at hds
          subst hds
          rw [hids2]
          refine ⟨by simp, List.mem_append.mpr (Or.inl hsmem), ?_⟩
          rw [List.indexOf_append_of_mem hsmem, List.indexOf_append_of_not_mem hnotmem]
          have := List.indexOf_lt_length.mpr hsmem
          simp only [List.indexOf_cons_self]
          omega
        · rw [foldl_add_get_other _ _ hai] at hb
          obtain ⟨ha2, hb2, hlt⟩ := ih.2 a b hb
          rw [hids2]
          refine ⟨List.mem_append.mpr (Or.inl ha2), List.mem_append.mpr (Or.inl hb2), ?_⟩
          rw [List.indexOf_append_of_mem ha2, List.indexOf_append_of_mem hb2]
          exact hlt

theorem builtFrom_graded {ε α : Type} (w : WorkflowB ε α) (h : BuiltFrom w) :
    Graded w.nodeDependencies (fun id => (w.nodes.map Prod.fst).indexOf id) := by
  intro a b hb
  exact ((builtFrom_wf w h).2 a b hb).2.2


/-- Counterexample for C7 as frozen: passing null as the run-completion hook
supplies a non-function, yet build succeeds on a one-node workflow (the guard
tests truthiness first, and null is falsy). -/
theorem c7_counterexample :
    (exC6w1.build (HookArg.val .vNull)).isOk = true ∧ JsVal.vNull.truthy = false := by
  exact ⟨rfl, rfl⟩

/-- C7 (amended): build throws when zero nodes have been registered, or when
a supplied truthy final-completion hook is not a function (a falsy
non-function such as null passes the guard and is treated as absent); for
every graph with a dependency cycle through a registered node, and a valid
hook, the error is raised during build by the cycle-detecting depth-first
sort and names a node lying on a cycle (so a cyclic graph can never reach
trigger); and for every non-empty graph that admits a rank function making
every dependency edge strictly decreasing (equivalently, an acyclic graph;
in particular every graph built through addNode, which is graded by
registration index), build with a valid hook returns a WorkflowRunner over
the same nodes, the same dependency index, and the computed topological
order. -/
theorem c7_build_contract {ε α : Type} (w : WorkflowB ε α)
    (hook : HookArg (OnAllHook ε α)) :
    (w.nodes = [] → w.build hook = .error .noNodes) ∧
    (∀ v, hook = .val v → v.truthy = true → w.nodes ≠ [] →
      w.build hook = .error .hookNotFunction) ∧
    (∀ x, HookOk hook → x ∈ w.nodes.map Prod.fst → OnCycle w.nodeDependencies x →
      ∃ z, w.build hook = .error (.cycle z) ∧ OnCycle w.nodeDependencies z) ∧
    (∀ rank, HookOk hook → w.nodes ≠ [] → Graded w.nodeDependencies rank →
      ∃ r, w.build hook = .ok r ∧ r.nodes = w.nodes ∧
        r.nodeDependencies = w.nodeDependencies ∧
        topologicalSort (w.nodes.map Prod.fst) w.nodeDependencies =
          .ok r.topologicalOrder) := by
  refine ⟨?_, ?_, ?_, ?_⟩
  · intro h
    unfold WorkflowB.build
    rw [if_pos (by simp [h])]
  · intro v hv htr hne
    unfold WorkflowB.build
    rw [if_neg (by simp [List.isEmpty_eq_false.mpr hne]), hv]
    rw [if_pos htr]
  · intro x hok hx hcyc
    have hne : w.nodes ≠ [] := by
      intro h
      rw [h] at hx
      simp at hx
    rcases hs : topologicalSort (w.nodes.map Prod.fst) w.nodeDependencies with e | order
    · rcases e with z | _
      · refine ⟨z, ?_, topologicalSort_cycle_sound _ _ z hs⟩
        unfold WorkflowB.build
        rw [if_neg (by simp [List.isEmpty_eq_false.mpr hne])]
        rcases hook with _ | f | v
        · rw [hs, if_neg (by simp)]
        · rw [hs, if_neg (by simp)]
        · have : v.truthy = false := hok
          rw [if_neg (by simp [this]), hs]
      · exact absurd hs (topologicalSort_no_fuelOut _ _)
    · exact absurd hcyc (topologicalSort_ok_no_cycle _ _ order hs x hx)
  · intro rank hok hne hg
    obtain ⟨order, hs⟩ := topologicalSort_ok_of_graded (w.nodes.map Prod.fst)
      w.nodeDependencies rank hg
    refine ⟨{ contextValueOrFactory := w.contextValueOrFactory,
              topologicalOrder := order,
              nodes := w.nodes,
              nodeDependencies := w.nodeDependencies,
              onNodesCompleted := match hook with | .fn f => some f | _ => none },
      ?_, rfl, rfl, hs⟩
    unfold WorkflowB.build
    rw [if_neg (by simp [List.isEmpty_eq_false.mpr hne])]
    rcases hook with _ | f | v
    · rw [hs, if_neg (by simp)]
    · rw [hs, if_neg (by simp)]
    · have : v.truthy = false := hok
      rw [if_neg (by simp [this]), hs]

/-- Witness for C7: building the two-node acyclic workflow (a, then b
depending on a) with no hook succeeds; the rank function sending b to 1 and
everything else to 0 grades the graph. -/
theorem c7_build_contract_witness :
    (exC6w2.build HookArg.absent).isOk = true ∧ exC6w2.nodes ≠ [] := by
  have hg : Graded exC6w2.nodeDependencies (fun id => if id = "b" then 1 else 0) := by
    intro a b h
    unfold depEdge DependencyMap.get at h
    by_cases ha : a = "b"
    · subst ha
      simp only [exC6w2] at h
      rw [find?_cons_pos (fun p => p.1 == "b") ("b", ["a"]) [] (by simp)] at h
      have : b = "a" := by simpa using h
      subst this
      simp
    · simp only [exC6w2] at h
      rw [find?_cons_neg (fun p => p.1 == a) ("b", ["a"]) []
        (beq_eq_false_iff_ne.mpr (fun hh => ha hh.symm))] at h
      simp at h
  obtain ⟨r, hr, _⟩ := (c7_build_contract exC6w2 HookArg.absent).2.2.2
    (fun id => if id = "b" then 1 else 0) trivial (by simp [exC6w2]) hg
  refine ⟨?_, by simp [exC6w2]⟩
  rw [hr]
  rfl


theorem find?_map_replace_self {γ : Type} (k : String) (v : γ) :
    ∀ l : List (String × γ),
      (l.map (fun p => if p.1 == k then (k, v) else p)).find? (fun p => p.1 == k) =
        (l.find? (fun p => p.1 == k)).map (fun _ => (k, v)) := by
  intro l
  induction l with
  | nil => rfl
  | cons hd tl ih =>
      rw [List.map_cons]
      by_cases hp : (hd.1 == k) = true
      · rw [if_pos hp]
        rw [find?_cons_pos (fun p => p.1 == k) (k, v) _ (by simp)]
        rw [find?_cons_pos (fun p => p.1 == k) hd tl hp]
        rfl
      · have hpf : (hd.1 == k) = false := by simpa using hp
        rw [if_neg hp]
        rw [find?_cons_neg (fun p => p.1 == k) hd _ hpf]
        rw [find?_cons_neg (fun p => p.1 == k) hd tl hpf]
        exact ih

theorem find?_map_replace_other {γ : Type} (k : String) (v : γ) (a : String) (hne : a ≠ k) :
    ∀ l : List (String × γ),
      (l.map (fun p => if p.1 == k then (k, v) else p)).find? (fun p => p.1 == a) =
        l.find? (fun p => p.1 == a) := by
  intro l
  induction l with
  | nil => rfl
  | cons hd tl ih =>
      rw [List.map_cons]
      by_cases hp : (hd.1 == k) = true
      · have hk : hd.1 = k := by simpa using hp
        have hpa : ((k : String) == a) = false :=
          beq_eq_false_iff_ne.mpr (fun h => hne h.symm)
        rw [if_pos hp]
        rw [find?_cons_neg (fun p => p.1 == a) (k, v) _ hpa]
        rw [find?_cons_neg (fun p => p.1 == a) hd tl
          (by show (hd.1 == a) = false; rw [hk]; exact hpa)]
        exact ih
      · rw [if_neg hp]
        by_cases hpa : (hd.1 == a) = true
        · rw [find?_cons_pos (fun p => p.1 == a) hd _ hpa]
          rw [find?_cons_pos (fun p => p.1 == a) hd tl hpa]
        · have hpaf : (hd.1 == a) = false := by simpa using hpa
          rw [find?_cons_neg (fun p => p.1 == a) hd _ hpaf]
          rw [find?_cons_neg (fun p => p.1 == a) hd tl hpaf]
          exact ih

theorem ctx_get_set_self {α : Type} (c : Ctx α) (k : String) (v : Option α) :
    (c.set k v).get k = some v := by
  unfold Ctx.set Ctx.get
  by_cases hany : (c.entries.any (fun p => p.1 == k)) = true
  · rw [if_pos hany]
    simp only []
    rw [find?_map_replace_self k v c.entries]
    obtain ⟨p, hp, hpk⟩ := List.any_eq_true.mp hany
    rcases hf : c.entries.find? (fun p => p.1 == k) with _ | p2
    · rw [List.find?_eq_none] at hf
      exact absurd hpk (hf p hp)
    · rw [hf]
      rfl
  · rw [if_neg hany]
    simp only []
    have hf : c.entries.find? (fun p => p.1 == k) = none := by
      rw [List.find?_eq_none]
      intro p hp hpk
      exact hany (List.any_eq_true.mpr ⟨p, hp, hpk⟩)
    rw [find?_append_none _ _ _ hf]
    rw [find?_cons_pos (fun p => p.1 == k) (k, v) [] (by simp)]
    rfl

theorem ctx_get_set_other {α : Type} (c : Ctx α) (k : String) (v : Option α)
    (a : String) (hne : a ≠ k) : (c.set k v).get a = c.get a := by
  unfold Ctx.set Ctx.get
  by_cases hany : (c.entries.any (fun p => p.1 == k)) = true
  · rw [if_pos hany]
    simp only []
    rw [find?_map_replace_other k v a hne c.entries]
  · rw [if_neg hany]
    simp only []
    rcases hf : c.entries.find? (fun p => p.1 == a) with _ | p
    · rw [find?_append_none _ _ _ hf, hf]
      rw [find?_cons_neg (fun p => p.1 == a) (k, v) []
        (beq_eq_false_iff_ne.mpr (fun h => hne h.symm))]
      rfl
    · rw [find?_append_some _ _ _ _ hf, hf]

theorem ctx_set_initial {α : Type} (c : Ctx α) (k : String) (v : Option α) :
    (c.set k v).initial = c.initial := by
  unfold Ctx.set
  split <;> rfl

theorem ctxExtends_refl {α : Type} (c : Ctx α) : CtxExtends c c :=
  ⟨rfl, fun _ _ h => h⟩

theorem ctxExtends_trans {α : Type} (a b c : Ctx α)
    (h1 : CtxExtends a b) (h2 : CtxExtends b c) : CtxExtends a c :=
  ⟨h1.1.trans h2.1, fun k v h => h2.2 k v (h1.2 k v h)⟩

theorem ctxExtends_set {α : Type} (c : Ctx α) (k : String) (v : Option α)
    (h : c.get k = none) : CtxExtends c (c.set k v) := by
  refine ⟨(ctx_set_initial c k v).symm, ?_⟩
  intro k2 v2 h2
  by_cases hk : k2 = k
  · subst hk
    rw [h] at h2
    cases h2
  · rw [ctx_get_set_other c k v k2 hk]
    exact h2

theorem ctx_set_preserves_key {α : Type} (c : Ctx α) (k : String) (v : Option α)
    (a : String) (h : (c.get a).isSome) : ((c.set k v).get a).isSome := by
  by_cases hk : a = k
  · subst hk
    rw [ctx_get_set_self]
    rfl
  · rw [ctx_get_set_other c k v a hk]
    exact h

theorem mem_insertReady (l : List String) (id a : String) :
    a ∈ insertReady l id ↔ a ∈ l ∨ a = id := by
  unfold insertReady
  by_cases h : l.contains id
  · rw [if_pos h]
    constructor
    · exact Or.inl
    · rintro (h2 | rfl)
      · exact h2
      · exact List.elem_iff.mp h
  · rw [if_neg h]
    simp

theorem nodup_insertReady (l : List String) (id : String) (h : l.Nodup) :
    (insertReady l id).Nodup := by
  unfold insertReady
  by_cases hc : l.contains id
  · rw [if_pos hc]; exact h
  · rw [if_neg hc]
    rw [List.nodup_append]
    refine ⟨h, List.nodup_singleton id, ?_⟩
    intro a ha hai
    have : a = id := by simpa using hai
    subst this
    exact hc (List.elem_iff.mpr ha)

theorem mem_ready_fold {ε α : Type} (cond : String × Node ε α → Bool) :
    ∀ (nodes : List (String × Node ε α)) (init : List String) (a : String),
      (a ∈ nodes.foldl (fun acc p => if cond p then insertReady acc p.1 else acc) init ↔
        a ∈ init ∨ ∃ p, p ∈ nodes ∧ cond p = true ∧ p.1 = a) := by
  intro nodes
  induction nodes with
  | nil => intro init a; simp
  | cons hd tl ih =>
      intro init a
      rw [List.foldl_cons]
      by_cases hc : cond hd = true
      · rw [if_pos hc, ih]
        rw [mem_insertReady]
        constructor
        · rintro ((h | rfl) | ⟨p, hp, hcp, hpa⟩)
          · exact Or.inl h
          · exact Or.inr ⟨hd, by simp, hc, rfl⟩
          · exact Or.inr ⟨p, by simp [hp], hcp, hpa⟩
        · rintro (h | ⟨p, hp, hcp, hpa⟩)
          · exact Or.inl (Or.inl h)
          · rcases List.mem_cons.mp hp with rfl | hp2
            · exact Or.inl (Or.inr hpa.symm)
            · exact Or.inr ⟨p, hp2, hcp, hpa⟩
      · rw [if_neg hc, ih]
        constructor
        · rintro (h | ⟨p, hp, hcp, hpa⟩)
          · exact Or.inl h
          · exact Or.inr ⟨p, by simp [hp], hcp, hpa⟩
        · rintro (h | ⟨p, hp, hcp, hpa⟩)
          · exact Or.inl h
          · rcases List.mem_cons.mp hp with rfl | hp2
            · rw [hcp] at hc
              exact absurd rfl hc
            · exact Or.inr ⟨p, hp2, hcp, hpa⟩

theorem nodup_ready_fold {ε α : Type} (cond : String × Node ε α → Bool) :
    ∀ (nodes : List (String × Node ε α)) (init : List String),
      init.Nodup →
      (nodes.foldl (fun acc p => if cond p then insertReady acc p.1 else acc) init).Nodup := by
  intro nodes
  induction nodes with
  | nil => intro init h; exact h
  | cons hd tl ih =>
      intro init h
      rw [List.foldl_cons]
      by_cases hc : cond hd = true
      · rw [if_pos hc]
        exact ih _ (nodup_insertReady _ _ h)
      · rw [if_neg hc]
        exact ih _ h

theorem run_out_not_internal {ε α : Type} (n : Node ε α) (c : Ctx α) :
    (n.run c).out ≠ .internalError := by
  by_cases hen : n.isEnabledWith c = true
  · rw [run_enabled_eq n c hen]
    simp only []
    exact runLoop_no_internal n c n.retryPolicy.maxRetries.toNatFloor
      (n.retryPolicy.maxRetries.toNatFloor + 1) 0 (by omega) (by omega)
  · rw [run_skipped_eq n c (by simpa using hen)]
    simp

theorem lookupNode_isSome_of_mem {ε α : Type} (r : Runner ε α) (id : String)
    (h : id ∈ r.nodes.map Prod.fst) : ∃ n, r.lookupNode id = some n := by
  unfold Runner.lookupNode
  obtain ⟨p, hp, hpe⟩ := List.mem_map.mp h
  have : (r.nodes.find? (fun q => q.1 == id)).isSome := by
    rw [List.find?_isSome]
    exact ⟨p, hp, by simp [hpe]⟩
  rcases hf : r.nodes.find? (fun q => q.1 == id) with _ | q
  · rw [hf] at this; cases this
  · exact ⟨q.2, by rw [hf]; rfl⟩

theorem lookupNode_mem {ε α : Type} (r : Runner ε α) (id : String) (n : Node ε α)
    (h : r.lookupNode id = some n) : id ∈ r.nodes.map Prod.fst := by
  unfold Runner.lookupNode at h
  rcases hf : r.nodes.find? (fun q => q.1 == id) with _ | q
  · rw [hf] at h; cases h
  · have hq : q ∈ r.nodes := List.mem_of_find?_eq_some hf
    have hqk := List.find?_some hf
    have : q.1 = id := by simpa using hqk
    rw [← this]
    exact List.mem_map.mpr ⟨q, hq, rfl⟩


theorem statusOf_set_self (l : List (String × NodeStatus)) (id : String) (s : NodeStatus) :
    statusOf (setStatus l id s) id = s := by
  unfold setStatus statusOf
  by_cases hany : (l.any (fun p => p.1 == id)) = true
  · rw [if_pos hany]
    rw [find?_map_replace_self id s l]
    obtain ⟨p, hp, hpk⟩ := List.any_eq_true.mp hany
    rcases hf : l.find? (fun p => p.1 == id) with _ | p2
    · rw [List.find?_eq_none] at hf
      exact absurd hpk (hf p hp)
    · rw [hf]
      rfl
  · rw [if_neg hany]
    have hf : l.find? (fun p => p.1 == id) = none := by
      rw [List.find?_eq_none]
      intro p hp hpk
      exact hany (List.any_eq_true.mpr ⟨p, hp, hpk⟩)
    rw [find?_append_none _ _ _ hf]
    rw [find?_cons_pos (fun p => p.1 == id) (id, s) [] (by simp)]

theorem statusOf_set_other (l : List (String × NodeStatus)) (id : String) (s : NodeStatus)
    (a : String) (hne : a ≠ id) : statusOf (setStatus l id s) a = statusOf l a := by
  unfold setStatus statusOf
  by_cases hany : (l.any (fun p => p.1 == id)) = true
  · rw [if_pos hany]
    rw [find?_map_replace_other id s a hne l]
  · rw [if_neg hany]
    rcases hf : l.find? (fun p => p.1 == a) with _ | p
    · rw [find?_append_none _ _ _ hf, hf]
      rw [find?_cons_neg (fun p => p.1 == a) (id, s) []
        (beq_eq_false_iff_ne.mpr (fun h => hne h.symm))]
      rfl
    · rw [find?_append_some _ _ _ _ hf, hf]

theorem mem_runningIds_removeRunning {ε α : Type} (st : SchedState ε α) (id a : String) :
    a ∈ runningIds (removeRunning st id) ↔ a ∈ runningIds st ∧ a ≠ id := by
  unfold runningIds removeRunning
  simp only [List.mem_map, List.mem_filter]
  constructor
  · rintro ⟨p, ⟨hp, hne⟩, rfl⟩
    exact ⟨⟨p, hp, rfl⟩, by simpa using hne⟩
  · rintro ⟨⟨p, hp, rfl⟩, hne⟩
    exact ⟨p, ⟨hp, by simpa using hne⟩, rfl⟩

theorem runningIds_removeRunning_nodup {ε α : Type} (st : SchedState ε α) (id : String)
    (h : (runningIds st).Nodup) : (runningIds (removeRunning st id)).Nodup := by
  unfold runningIds removeRunning at *
  simp only []
  exact List.Nodup.sublist (List.Sublist.map Prod.fst (List.filter_sublist st.running)) h

theorem mem_running_removeRunning {ε α : Type} (st : SchedState ε α) (id : String)
    (p : String × Ctx α) (h : p ∈ (removeRunning st id).running) : p ∈ st.running := by
  unfold removeRunning at h
  exact (List.mem_filter.mp h).1

theorem depsOk_congr {ε α : Type} (r : Runner ε α) (st st2 : SchedState ε α) (a : String)
    (hc : st2.completed = st.completed) (hs : st2.statuses = st.statuses) :
    depsOk r st2 a = depsOk r st a := by
  unfold depsOk
  rw [hc, hs]

theorem map_fst_pair {α : Type} (c : Ctx α) :
    ∀ l : List String, l.map (Prod.fst ∘ fun id => (id, c)) = l := by
  intro l
  induction l with
  | nil => rfl
  | cons h t ih => rw [List.map_cons, ih]; rfl

theorem startReady_post {ε α : Type} (r : Runner ε α) (st : SchedState ε α)
    (hI : InvS r st) :
    InvS r (startReady st) ∧ (startReady st).completed = st.completed ∧
    (startReady st).ctx = st.ctx ∧ (startReady st).ready = [] ∧
    (∀ a, a ∈ runningIds (startReady st) ↔ a ∈ runningIds st ∨ a ∈ st.ready) ∧
    (startReady st).invoked = st.invoked ∧
    (∀ p, p ∈ (startReady st).running → p ∈ st.running ∨ (p.1 ∈ st.ready ∧ p.2 = st.ctx)) := by
  have hrm : ∀ a, a ∈ runningIds (startReady st) ↔ a ∈ runningIds st ∨ a ∈ st.ready := by
    intro a
    unfold runningIds startReady
    simp only [List.map_append, List.map_map, List.mem_append]
    constructor
    · rintro (h | h)
      · exact Or.inl h
      · right
        obtain ⟨x, hx, hxe⟩ := List.mem_map.mp h
        have : x = a := by simpa using hxe
        exact this ▸ hx
    · rintro (h | h)
      · exact Or.inl h
      · right
        exact List.mem_map.mpr ⟨a, h, rfl⟩
  refine ⟨?_, rfl, rfl, rfl, hrm, rfl, ?_⟩
  · constructor
    · exact hI.completedSub
    · exact hI.completedNodup
    · intro p hp
      rcases List.mem_append.mp hp with h | h
      · exact hI.runningSub p h
      · obtain ⟨x, hx, rfl⟩ := List.mem_map.mp h
        exact hI.readySub x hx
    · show (runningIds (startReady st)).Nodup
      unfold runningIds startReady
      simp only [List.map_append, List.map_map]
      rw [List.nodup_append]
      refine ⟨hI.runningNodup, ?_, ?_⟩
      · rw [map_fst_pair st.ctx st.ready]
        exact hI.readyNodup
      · intro a ha hb
        have hb2 : a ∈ st.ready := by simpa using hb
        exact hI.readyNotRunning a hb2 ha
    · intro id h; cases h
    · exact List.nodup_nil
    · intro p hp
      rcases List.mem_append.mp hp with h | h
      · exact hI.runningNotCompleted p h
      · obtain ⟨x, hx, rfl⟩ := List.mem_map.mp h
        exact hI.readyNotCompleted x hx
    · intro id h; cases h
    · intro id h; cases h
    · exact hI.ctxKeysCompleted
    · exact hI.statusesCompleted
    · exact hI.finishedIds
    · intro id hid hc hr hrd
      rw [depsOk_congr r st (startReady st) id rfl rfl]
      refine hI.readiness id hid hc ?_ ?_
      · intro hin
        exact hr ((hrm id).mpr (Or.inl hin))
      · intro hin
        exact hr ((hrm id).mpr (Or.inr hin))
    · exact hI.finishedFact
    · exact hI.errorsChar
    · exact hI.eventsMono
    · exact hI.eventsLe
    · exact hI.invokedSub
  · intro p hp
    rcases List.mem_append.mp hp with h | h
    · exact Or.inl h
    · obtain ⟨x, hx, rfl⟩ := List.mem_map.mp h
      exact Or.inr ⟨hx, rfl⟩


theorem rescanCond_iff {ε α : Type} (r : Runner ε α) (st : SchedState ε α)
    (p : String × Node ε α) :
    rescanCond r st p = true ↔
      p.1 ∉ st.completed ∧ p.1 ∉ runningIds st ∧ depsOk r st p.1 = true := by
  unfold rescanCond Node.isEnabledPropertyRead
  simp only [Bool.and_eq_true, Bool.not_eq_true', and_true, true_and]
  constructor
  · rintro ⟨⟨h1, h2⟩, h3⟩
    refine ⟨?_, ?_, h3⟩
    · intro hin
      have hx := List.elem_iff.mpr hin
      rw [show List.elem p.1 st.completed = st.completed.contains p.1 from rfl, h1] at hx
      cases hx
    · intro hin
      have hx := List.elem_iff.mpr hin
      rw [show List.elem p.1 (runningIds st) = (runningIds st).contains p.1 from rfl,
        h2] at hx
      cases hx
  · rintro ⟨h1, h2, h3⟩
    refine ⟨⟨?_, ?_⟩, h3⟩
    · rcases hc : st.completed.contains p.1 with _ | _
      · rfl
      · exact absurd (List.elem_iff.mp hc) h1
    · rcases hc : (runningIds st).contains p.1 with _ | _
      · rfl
      · exact absurd (List.elem_iff.mp hc) h2

theorem finishNode_ok_eq {ε α : Type} (r : Runner ε α) (st : SchedState ε α)
    (id : String) (snap : Ctx α) (n : Node ε α) (v : Option α)
    (hn : r.lookupNode id = some n) (hout : (n.run snap).out = .ok v) :
    finishNode r st id snap = .ok (rescan r (removeRunning
      { st with
        ctx := st.ctx.set id v,
        completed := st.completed ++ [id],
        statuses := setStatus st.statuses id (n.run snap).status,
        invoked := if 0 < (n.run snap).calls then st.invoked ++ [id] else st.invoked,
        finished := st.finished ++ [(id, (n.run snap).out)],
        events := if n.onCompleted then
            st.events ++ [{ nodeId := id, status := .completed, result := some v,
                            error := none, context := st.ctx.set id v }]
          else st.events } id)) := by
  unfold finishNode
  rw [hn]
  simp only [hout]

theorem finishNode_thrown_eq {ε α : Type} (r : Runner ε α) (st : SchedState ε α)
    (id : String) (snap : Ctx α) (n : Node ε α) (e : ε)
    (hn : r.lookupNode id = some n) (hout : (n.run snap).out = .thrown e) :
    finishNode r st id snap = .ok (rescan r (removeRunning
      { st with
        completed := st.completed ++ [id],
        errors := st.errors ++ [{ id := id, error := e }],
        statuses := setStatus st.statuses id (n.run snap).status,
        invoked := if 0 < (n.run snap).calls then st.invoked ++ [id] else st.invoked,
        finished := st.finished ++ [(id, (n.run snap).out)],
        events := if n.onCompleted then
            st.events ++ [{ nodeId := id, status := .failed, result := none,
                            error := some { id := id, error := e }, context := st.ctx }]
          else st.events } id)) := by
  unfold finishNode
  rw [hn]
  simp only [hout]


theorem finish_mid_post {ε α : Type} (r : Runner ε α) (st stM stF : SchedState ε α)
    (id : String) (n : Node ε α) (snap : Ctx α)
    (hinv : InvS r st)
    (hidrun : id ∈ runningIds st)
    (hn : r.lookupNode id = some n)
    (hMrun : stM.running = st.running)
    (hMready : stM.ready = st.ready)
    (hMcomp : stM.completed = st.completed ++ [id])
    (hMstat : stM.statuses = setStatus st.statuses id (n.run snap).status)
    (hMinv : stM.invoked =
      if 0 < (n.run snap).calls then st.invoked ++ [id] else st.invoked)
    (hMfin : stM.finished = st.finished ++ [(id, (n.run snap).out)])
    (hMctx : (∃ v, (n.run snap).out = .ok v ∧ stM.ctx = st.ctx.set id v ∧
               stM.errors = st.errors) ∨
             (∃ e, (n.run snap).out = .thrown e ∧ stM.ctx = st.ctx ∧
               stM.errors = st.errors ++ [{ id := id, error := e }]))
    (hMevs : stM.events = st.events ∨
             ∃ ev, stM.events = st.events ++ [ev] ∧ ev.context = stM.ctx)
    (hF : stF = rescan r (removeRunning stM id)) :
    InvS r stF ∧ stF.completed = st.completed ++ [id] ∧
    CtxExtends st.ctx stF.ctx ∧
    (∀ a, a ≠ id → stF.ctx.get a = st.ctx.get a) ∧
    (∀ a, a ∈ stF.ready → a ∈ st.ready ∨
      (a ∈ r.nodes.map Prod.fst ∧ depsOk r stF a = true)) ∧
    (∀ a, a ∈ runningIds stF ↔ a ∈ runningIds st ∧ a ≠ id) ∧
    (∀ a, a ∈ stF.invoked → a ∈ st.invoked ∨ a = id) ∧
    (∀ a, a ≠ id → statusOf stF.statuses a = statusOf st.statuses a) := by
  have hFctx : stF.ctx = stM.ctx := by rw [hF]; rfl
  have hFcomp : stF.completed = stM.completed := by rw [hF]; rfl
  have hFstat : stF.statuses = stM.statuses := by rw [hF]; rfl
  have hFerr : stF.errors = stM.errors := by rw [hF]; rfl
  have hFev : stF.events = stM.events := by rw [hF]; rfl
  have hFinvk : stF.invoked = stM.invoked := by rw [hF]; rfl
  have hFfin : stF.finished = stM.finished := by rw [hF]; rfl
  have hRcomp : (removeRunning stM id).completed = stM.completed := rfl
  have hRstat : (removeRunning stM id).statuses = stM.statuses := rfl
  have hrunM : runningIds stM = runningIds st := by
    unfold runningIds; rw [hMrun]
  have hFrids : ∀ a, a ∈ runningIds stF ↔ a ∈ runningIds st ∧ a ≠ id := by
    intro a
    have h0 : a ∈ runningIds stF ↔ a ∈ runningIds (removeRunning stM id) := by
      rw [hF]; rfl
    rw [h0, mem_runningIds_removeRunning, hrunM]
  have hrdy : ∀ a, a ∈ stF.ready ↔ a ∈ st.ready ∨
      ∃ p, p ∈ r.nodes ∧ rescanCond r (removeRunning stM id) p = true ∧ p.1 = a := by
    intro a
    have h0 : a ∈ stF.ready ↔ a ∈
        r.nodes.foldl (fun acc p =>
          if rescanCond r (removeRunning stM id) p then insertReady acc p.1 else acc)
          stM.ready := by
      rw [hF]; rfl
    rw [h0, mem_ready_fold (rescanCond r (removeRunning stM id)) r.nodes stM.ready a,
      hMready]
  have hFdeps : ∀ a, depsOk r stF a = depsOk r (removeRunning stM id) a := by
    intro a
    exact depsOk_congr r (removeRunning stM id) stF a (by rw [hF]; rfl) (by rw [hF]; rfl)
  have hmemc : ∀ a, a ∈ stM.completed ↔ a ∈ st.completed ∨ a = id := by
    intro a; rw [hMcomp]; simp
  have hidnc : id ∉ st.completed := by
    unfold runningIds at hidrun
    obtain ⟨p, hp, rfl⟩ := List.mem_map.mp hidrun
    exact hinv.runningNotCompleted p hp
  have hctxid : st.ctx.get id = none := by
    rcases h : st.ctx.get id with _ | v
    · rfl
    · exact absurd (hinv.ctxKeysCompleted id (by rw [h]; rfl)) hidnc
  have hext : CtxExtends st.ctx stM.ctx := by
    rcases hMctx with ⟨v, _, hceq, _⟩ | ⟨e, _, hceq, _⟩
    · rw [hceq]; exact ctxExtends_set st.ctx id v hctxid
    · rw [hceq]; exact ctxExtends_refl _
  have hco : ∀ a, a ≠ id → stM.ctx.get a = st.ctx.get a := by
    intro a hne
    rcases hMctx with ⟨v, _, hceq, _⟩ | ⟨e, _, hceq, _⟩
    · rw [hceq]; exact ctx_get_set_other st.ctx id v a hne
    · rw [hceq]
  have hcid : ∀ v, (n.run snap).out = .ok v → stM.ctx.get id = some v := by
    intro v hout
    rcases hMctx with ⟨v2, hout2, hceq, _⟩ | ⟨e, hout2, hceq, _⟩
    · rw [hout] at hout2
      cases hout2
      rw [hceq]; exact ctx_get_set_self st.ctx id v
    · rw [hout] at hout2; cases hout2
  have hcompN : stF.completed.Nodup := by
    rw [hFcomp, hMcomp, List.nodup_append]
    refine ⟨hinv.completedNodup, List.nodup_singleton id, ?_⟩
    intro a ha hb
    have : a = id := by simpa using hb
    subst this
    exact hidnc ha
  have hidnr : id ∉ st.ready := by
    intro h
    exact hinv.readyNotRunning id h hidrun
  refine ⟨?_, by rw [hFcomp, hMcomp], ?_, ?_, ?_, hFrids, ?_, ?_⟩
  · constructor
    · intro a ha
      rw [hFcomp] at ha
      rcases (hmemc a).mp ha with h | rfl
      · exact hinv.completedSub a h
      · exact lookupNode_mem r a n hn
    · exact hcompN
    · intro p hp
      rw [hF] at hp
      have hp2 := mem_running_removeRunning stM id p hp
      rw [hMrun] at hp2
      exact hinv.runningSub p hp2
    · show (runningIds stF).Nodup
      have h0 : runningIds stF = runningIds (removeRunning stM id) := by rw [hF]; rfl
      rw [h0]
      exact runningIds_removeRunning_nodup stM id (by rw [hrunM]; exact hinv.runningNodup)
    · intro a ha
      rcases (hrdy a).mp ha with h | ⟨p, hp, _, rfl⟩
      · exact hinv.readySub a h
      · exact List.mem_map.mpr ⟨p, hp, rfl⟩
    · show stF.ready.Nodup
      have h0 : stF.ready = r.nodes.foldl (fun acc p =>
          if rescanCond r (removeRunning stM id) p then insertReady acc p.1 else acc)
          stM.ready := by rw [hF]; rfl
      rw [h0]
      exact nodup_ready_fold _ r.nodes stM.ready (by rw [hMready]; exact hinv.readyNodup)
    · intro p hp
      rw [hF] at hp
      have hne : p.1 ≠ id := by
        unfold removeRunning at hp
        have := (List.mem_filter.mp hp).2
        simpa using this
      have hp2 := mem_running_removeRunning stM id p hp
      rw [hMrun] at hp2
      rw [hFcomp]
      intro hc
      rcases (hmemc p.1).mp hc with h | h
      · exact hinv.runningNotCompleted p hp2 h
      · exact hne h
    · intro a ha
      rw [hFcomp]
      rcases (hrdy a).mp ha with h | ⟨p, hp, hcnd, rfl⟩
      · have hane : a ≠ id := by
          rintro rfl
          exact hidnr h
        intro hc
        rcases (hmemc a).mp hc with h2 | h2
        · exact hinv.readyNotCompleted a h h2
        · exact hane h2
      · have := ((rescanCond_iff r (removeRunning stM id) p).mp hcnd).1
        rw [hRcomp] at this
        exact this
    · intro a ha
      rcases (hrdy a).mp ha with h | ⟨p, hp, hcnd, rfl⟩
      · intro hin
        rcases (hFrids a).mp hin with ⟨h2, _⟩
        exact hinv.readyNotRunning a h h2
      · have := ((rescanCond_iff r (removeRunning stM id) p).mp hcnd).2.1
        intro hin
        apply this
        have h0 : runningIds stF = runningIds (removeRunning stM id) := by rw [hF]; rfl
        rw [h0] at hin
        exact hin
    · intro k hk
      rw [hFctx] at hk
      rw [hFcomp]
      by_cases hkid : k = id
      · subst hkid
        exact (hmemc k).mpr (Or.inr rfl)
      · rw [hco k hkid] at hk
        exact (hmemc k).mpr (Or.inl (hinv.ctxKeysCompleted k hk))
    · intro a ha
      rw [hFstat, hMstat] at ha
      rw [hFcomp]
      by_cases haid : a = id
      · subst haid
        exact (hmemc a).mpr (Or.inr rfl)
      · rw [statusOf_set_other st.statuses id _ a haid] at ha
        exact (hmemc a).mpr (Or.inl (hinv.statusesCompleted a ha))
    · rw [hFfin, hFcomp, hMfin, hMcomp, List.map_append, hinv.finishedIds]
      rfl
    · intro a hanodes hac har hard
      by_contra htrue
      have hd : depsOk r stF a = true := by
        rcases hdd : depsOk r stF a with _ | _
        · exact absurd hdd htrue
        · rfl
      obtain ⟨p, hp, hpa⟩ := List.mem_map.mp hanodes
      apply hard
      refine (hrdy a).mpr (Or.inr ⟨p, hp, ?_, hpa⟩)
      rw [rescanCond_iff, hpa]
      refine ⟨?_, ?_, ?_⟩
      · rw [hRcomp]
        rw [hFcomp] at hac
        exact hac
      · intro hin
        apply har
        have h0 : runningIds stF = runningIds (removeRunning stM id) := by rw [hF]; rfl
        rw [h0]
        exact hin
      · rw [← hFdeps a]
        exact hd
    · intro a ha
      rw [hFcomp] at ha
      rcases (hmemc a).mp ha with hold | rfl
      · have hane : a ≠ id := by
          rintro rfl
          exact hidnc hold
        obtain ⟨n2, snap2, hlk, hst2, hcx2, hiv2⟩ := hinv.finishedFact a hold
        refine ⟨n2, snap2, hlk, ?_, ?_, ?_⟩
        · rw [hFstat, hMstat, statusOf_set_other st.statuses id _ a hane]
          exact hst2
        · intro v hv
          rw [hFctx, hco a hane]
          exact hcx2 v hv
        · rw [hFinvk]
          by_cases hcalls : 0 < (n.run snap).calls
          · rw [hMinv, if_pos hcalls]
            constructor
            · intro h
              exact List.mem_append.mpr (Or.inl (hiv2.mp h))
            · intro h
              rcases List.mem_append.mp h with h2 | h2
              · exact hiv2.mpr h2
              · exact absurd (by simpa using h2) hane
          · rw [hMinv, if_neg hcalls]
            exact hiv2
      · refine ⟨n, snap, hn, ?_, ?_, ?_⟩
        · rw [hFstat, hMstat, statusOf_set_self]
        · intro v hv
          rw [hFctx]
          exact hcid v hv
        · rw [hFinvk]
          by_cases hcalls : 0 < (n.run snap).calls
          · rw [hMinv, if_pos hcalls]
            constructor
            · intro _
              exact List.mem_append.mpr (Or.inr (by simp))
            · intro _
              exact hcalls
          · rw [hMinv, if_neg hcalls]
            constructor
            · intro h
              exact absurd h hcalls
            · intro h
              exact absurd (hidnc (hinv.invokedSub a h)) (fun hff => hff)
    · rw [hFerr, hFfin, hMfin, List.filterMap_append]
      rcases hMctx with ⟨v, hout, _, herr⟩ | ⟨e, hout, _, herr⟩
      · rw [herr, hout, hinv.errorsChar]
        simp
      · rw [herr, hout, hinv.errorsChar]
        simp
    · rw [hFev]
      rcases hMevs with h | ⟨ev, hevs, hevc⟩
      · rw [h]
        exact hinv.eventsMono
      · rw [hevs, List.pairwise_append]
        refine ⟨hinv.eventsMono, by simp, ?_⟩
        intro e1 he1 e2 he2
        have : e2 = ev := by simpa using he2
        subst this
        rw [hevc]
        exact ctxExtends_trans _ _ _ (hinv.eventsLe e1 he1) hext
    · intro e he
      rw [hFev] at he
      rw [hFctx]
      rcases hMevs with h | ⟨ev, hevs, hevc⟩
      · rw [h] at he
        exact ctxExtends_trans _ _ _ (hinv.eventsLe e he) hext
      · rw [hevs] at he
        rcases List.mem_append.mp he with h2 | h2
        · exact ctxExtends_trans _ _ _ (hinv.eventsLe e h2) hext
        · have : e = ev := by simpa using h2
          subst this
          rw [hevc]
          exact ctxExtends_refl _
    · intro a ha
      rw [hFinvk] at ha
      rw [hFcomp]
      by_cases hcalls : 0 < (n.run snap).calls
      · rw [hMinv, if_pos hcalls] at ha
        rcases List.mem_append.mp ha with h2 | h2
        · exact (hmemc a).mpr (Or.inl (hinv.invokedSub a h2))
        · exact (hmemc a).mpr (Or.inr (by simpa using h2))
      · rw [hMinv, if_neg hcalls] at ha
        exact (hmemc a).mpr (Or.inl (hinv.invokedSub a ha))
  · rw [hFctx]
    exact hext
  · intro a hne
    rw [hFctx]
    exact hco a hne
  · intro a ha
    rcases (hrdy a).mp ha with h | ⟨p, hp, hcnd, rfl⟩
    · exact Or.inl h
    · refine Or.inr ⟨List.mem_map.mpr ⟨p, hp, rfl⟩, ?_⟩
      rw [hFdeps]
      exact ((rescanCond_iff r (removeRunning stM id) p).mp hcnd).2.2
  · intro a ha
    rw [hFinvk] at ha
    by_cases hcalls : 0 < (n.run snap).calls
    · rw [hMinv, if_pos hcalls] at ha
      rcases List.mem_append.mp ha with h2 | h2
      · exact Or.inl h2
      · exact Or.inr (by simpa using h2)
    · rw [hMinv, if_neg hcalls] at ha
      exact Or.inl ha
  · intro a hne
    rw [hFstat, hMstat]
    exact statusOf_set_other st.statuses id _ a hne


theorem finishNode_post {ε α : Type} (r : Runner ε α) (st stF : SchedState ε α)
    (id : String) (snap : Ctx α)
    (hinv : InvS r st)
    (hidrun : id ∈ runningIds st)
    (hfin : finishNode r st id snap = .ok stF) :
    InvS r stF ∧ stF.completed = st.completed ++ [id] ∧
    CtxExtends st.ctx stF.ctx ∧
    (∀ a, a ≠ id → stF.ctx.get a = st.ctx.get a) ∧
    (∀ a, a ∈ stF.ready → a ∈ st.ready ∨
      (a ∈ r.nodes.map Prod.fst ∧ depsOk r stF a = true)) ∧
    (∀ a, a ∈ runningIds stF ↔ a ∈ runningIds st ∧ a ≠ id) ∧
    (∀ a, a ∈ stF.invoked → a ∈ st.invoked ∨ a = id) ∧
    (∀ a, a ≠ id → statusOf stF.statuses a = statusOf st.statuses a) := by
  rcases hn : r.lookupNode id with _ | n
  · unfold finishNode at hfin
    rw [hn] at hfin
    cases hfin
  · rcases hout : (n.run snap).out with v | e | _
    · rw [finishNode_ok_eq r st id snap n v hn hout] at hfin
      injection hfin with h
      refine finish_mid_post r st _ stF id n snap hinv hidrun hn
        ?_ ?_ ?_ ?_ ?_ ?_ ?_ ?_ h.symm
      · rfl
      · rfl
      · rfl
      · rfl
      · rfl
      · rfl
      · exact Or.inl ⟨v, hout, rfl, rfl⟩
      · by_cases hoc : n.onCompleted = true
        · refine Or.inr ⟨{ nodeId := id, status := .completed, result := some v,
                           error := none, context := st.ctx.set id v }, ?_, rfl⟩
          show (if n.onCompleted then _ else st.events) = st.events ++ _
          rw [if_pos hoc]
        · refine Or.inl ?_
          show (if n.onCompleted then _ else st.events) = st.events
          rw [if_neg hoc]
    · rw [finishNode_thrown_eq r st id snap n e hn hout] at hfin
      injection hfin with h
      refine finish_mid_post r st _ stF id n snap hinv hidrun hn
        ?_ ?_ ?_ ?_ ?_ ?_ ?_ ?_ h.symm
      · rfl
      · rfl
      · rfl
      · rfl
      · rfl
      · rfl
      · exact Or.inr ⟨e, hout, rfl, rfl⟩
      · by_cases hoc : n.onCompleted = true
        · refine Or.inr ⟨{ nodeId := id, status := .failed, result := none,
                           error := some { id := id, error := e },
                           context := st.ctx }, ?_, rfl⟩
          show (if n.onCompleted then _ else st.events) = st.events ++ _
          rw [if_pos hoc]
        · refine Or.inl ?_
          show (if n.onCompleted then _ else st.events) = st.events
          rw [if_neg hoc]
    · exact absurd hout (run_out_not_internal n snap)


theorem run_ok_status {ε α : Type} (n : Node ε α) (c : Ctx α) (v : Option α)
    (hout : (n.run c).out = .ok v) (hcalls : 0 < (n.run c).calls) :
    (n.run c).status = .completed := by
  by_cases hen : n.isEnabledWith c = true
  · have h2 := run_enabled_eq n c hen
    rw [h2] at hout ⊢
    dsimp only at hout ⊢
    rw [hout]
  · rw [run_skipped_eq n c (by simpa using hen)] at hcalls
    simp at hcalls

theorem run_thrown_status {ε α : Type} (n : Node ε α) (c : Ctx α) (e : ε)
    (hout : (n.run c).out = .thrown e) :
    (n.run c).status = .failed := by
  by_cases hen : n.isEnabledWith c = true
  · have h2 := run_enabled_eq n c hen
    rw [h2] at hout ⊢
    dsimp only at hout ⊢
    rw [hout]
  · rw [run_skipped_eq n c (by simpa using hen)] at hout
    cases hout

theorem depsOk_false_of_bad {ε α : Type} (r : Runner ε α) (st : SchedState ε α)
    (y d : String) (nd : Node ε α)
    (hinv : InvS r st) (hd : d ∈ r.nodeDependencies.get y)
    (hdn : r.lookupNode d = some nd) (hbad : BadNode nd) :
    depsOk r st y = false := by
  rcases h : depsOk r st y with _ | _
  · rfl
  · exfalso
    unfold depsOk at h
    rw [List.all_eq_true] at h
    have h2 := h d hd
    simp only [Bool.and_eq_true] at h2
    obtain ⟨⟨hsome, hcont⟩, hstat⟩ := h2
    have hdc : d ∈ st.completed := List.elem_iff.mp hcont
    obtain ⟨n2, snap2, hlk, hst, _, _⟩ := hinv.finishedFact d hdc
    rw [hdn] at hlk
    cases hlk
    have hsc : statusOf st.statuses d = NodeStatus.completed := beq_iff_eq.mp hstat
    rw [hst] at hsc
    exact hbad snap2 hsc

theorem finishNode_ok_exists {ε α : Type} (r : Runner ε α) (st : SchedState ε α)
    (id : String) (snap : Ctx α) (hmem : id ∈ r.nodes.map Prod.fst) :
    ∃ st2, finishNode r st id snap = .ok st2 := by
  obtain ⟨n, hn⟩ := lookupNode_isSome_of_mem r id hmem
  rcases hout : (n.run snap).out with v | e | _
  · exact ⟨_, finishNode_ok_eq r st id snap n v hn hout⟩
  · exact ⟨_, finishNode_thrown_eq r st id snap n e hn hout⟩
  · exact absurd hout (run_out_not_internal n snap)


theorem loopIter_cont_post {ε α : Type} (r : Runner ε α) (pick : Nat)
    (st st2 : SchedState ε α) (hinv : InvS r st)
    (h : loopIter r pick st = .cont st2) :
    InvS r st2 ∧ st2.completed.length = st.completed.length + 1 ∧
    CtxExtends st.ctx st2.ctx := by
  unfold loopIter at h
  by_cases hle : r.nodes.length ≤ st.completed.length
  · rw [if_pos hle] at h; cases h
  · rw [if_neg hle] at h
    dsimp only at h
    rcases hg : (startReady st).running.get? (pick % (startReady st).running.length)
      with _ | p
    · rw [hg] at h; cases h
    · rw [hg] at h
      dsimp only at h
      rcases hf : finishNode r (startReady st) p.1 p.2 with e | stf
      · rw [hf] at h; cases h
      · rw [hf] at h
        injection h with h
        subst h
        obtain ⟨hinv1, hcomp1, hctx1, _, _, _, _⟩ := startReady_post r st hinv
        have hp : p ∈ (startReady st).running := List.get?_mem hg
        have hpr : p.1 ∈ runningIds (startReady st) :=
          List.mem_map_of_mem Prod.fst hp
        obtain ⟨hinv2, hcomp2, hctx2, _, _, _, _, _⟩ :=
          finishNode_post r (startReady st) stf p.1 p.2 hinv1 hpr hf
        refine ⟨hinv2, ?_, ?_⟩
        · rw [hcomp2, hcomp1]
          simp
        · rw [← hctx1]
          exact hctx2

theorem loopIter_exit_post {ε α : Type} (r : Runner ε α) (pick : Nat)
    (st st2 : SchedState ε α) (hinv : InvS r st)
    (h : loopIter r pick st = .exit st2) :
    InvS r st2 ∧ st2.completed = st.completed ∧ st2.ctx = st.ctx ∧
    st2.invoked = st.invoked ∧ st2.errors = st.errors ∧ st2.events = st.events ∧
    st2.statuses = st.statuses ∧ st2.finished = st.finished ∧
    (r.nodes.length ≤ st2.completed.length ∨ (st2.running = [] ∧ st2.ready = [])) := by
  unfold loopIter at h
  by_cases hle : r.nodes.length ≤ st.completed.length
  · rw [if_pos hle] at h
    injection h with h
    subst h
    exact ⟨hinv, rfl, rfl, rfl, rfl, rfl, rfl, rfl, Or.inl hle⟩
  · rw [if_neg hle] at h
    dsimp only at h
    rcases hg : (startReady st).running.get? (pick % (startReady st).running.length)
      with _ | p
    · rw [hg] at h
      injection h with h
      subst h
      have hrun : (startReady st).running = [] := by
        rcases hr : (startReady st).running with _ | ⟨q, rest⟩
        · rfl
        · exfalso
          have hlen : 0 < (startReady st).running.length := by rw [hr]; simp
          have hlt : pick % (startReady st).running.length <
              (startReady st).running.length := Nat.mod_lt _ hlen
          rw [List.get?_eq_none] at hg
          omega
      obtain ⟨hinv1, hcomp1, hctx1, hready1, _, hinvok1, _⟩ := startReady_post r st hinv
      exact ⟨hinv1, hcomp1, hctx1, hinvok1, rfl, rfl, rfl, rfl, Or.inr ⟨hrun, hready1⟩⟩
    · rw [hg] at h
      dsimp only at h
      have hp : p ∈ (startReady st).running := List.get?_mem hg
      obtain ⟨hinv1, _, _, _, _, _, _⟩ := startReady_post r st hinv
      have hmem : p.1 ∈ r.nodes.map Prod.fst := hinv1.runningSub p hp
      obtain ⟨st3, hfn⟩ := finishNode_ok_exists r (startReady st) p.1 p.2 hmem
      rw [hfn] at h
      cases h

theorem loopIter_no_fatal {ε α : Type} (r : Runner ε α) (pick : Nat)
    (st : SchedState ε α) (e : RunFatal) (hinv : InvS r st) :
    loopIter r pick st ≠ .fatal e := by
  intro h
  unfold loopIter at h
  by_cases hle : r.nodes.length ≤ st.completed.length
  · rw [if_pos hle] at h; cases h
  · rw [if_neg hle] at h
    dsimp only at h
    rcases hg : (startReady st).running.get? (pick % (startReady st).running.length)
      with _ | p
    · rw [hg] at h; cases h
    · rw [hg] at h
      dsimp only at h
      have hp : p ∈ (startReady st).running := List.get?_mem hg
      obtain ⟨hinv1, _, _, _, _, _, _⟩ := startReady_post r st hinv
      have hmem : p.1 ∈ r.nodes.map Prod.fst := hinv1.runningSub p hp
      obtain ⟨st3, hfn⟩ := finishNode_ok_exists r (startReady st) p.1 p.2 hmem
      rw [hfn] at h
      cases h

theorem runLoopN_post {ε α : Type} (r : Runner ε α) (sched : Nat → Nat) :
    ∀ fuel k (st : SchedState ε α), InvS r st →
    r.nodes.length + 1 ≤ fuel + st.completed.length →
    ∃ stF, runLoopN r sched fuel k st = .ok stF ∧ InvS r stF ∧
      CtxExtends st.ctx stF.ctx ∧
      (r.nodes.length ≤ stF.completed.length ∨
        (stF.running = [] ∧ stF.ready = [])) := by
  intro fuel
  induction fuel with
  | zero =>
      intro k st hinv hfuel
      exfalso
      have hle := nodup_subset_length_le st.completed (r.nodes.map Prod.fst)
        hinv.completedNodup (by intro a ha; exact hinv.completedSub a ha)
      rw [List.length_map] at hle
      omega
  | succ fuel ih =>
      intro k st hinv hfuel
      unfold runLoopN
      rcases hli : loopIter r (sched k) st with st2 | st2 | e
      · obtain ⟨hinv2, hcomp2, hctx2, _, _, _, _, _, hend⟩ :=
          loopIter_exit_post r (sched k) st st2 hinv hli
        refine ⟨st2, rfl, hinv2, ?_, ?_⟩
        · rw [hctx2]
          exact ctxExtends_refl _
        · rw [hcomp2] at hend
          rw [hcomp2]
          exact hend
      · obtain ⟨hinv2, hlen2, hctx2⟩ := loopIter_cont_post r (sched k) st st2 hinv hli
        obtain ⟨stF, hrun, hinvF, hctxF, hendF⟩ := ih (k + 1) st2 hinv2 (by omega)
        refine ⟨stF, ?_, hinvF, ctxExtends_trans _ _ _ hctx2 hctxF, hendF⟩
        exact hrun
      · exact absurd hli (loopIter_no_fatal r (sched k) st e hinv)


theorem startReady_untouched {ε α : Type} (r : Runner ε α) (st : SchedState ε α)
    (y : String) (hinv : InvS r st) (hu : Untouched st y) :
    Untouched (startReady st) y := by
  obtain ⟨h1, h2, h3, h4, h5⟩ := hu
  obtain ⟨_, hcomp1, hctx1, hready1, hrm, hinvok1, _⟩ := startReady_post r st hinv
  refine ⟨?_, ?_, ?_, ?_, ?_⟩
  · rw [hcomp1]; exact h1
  · intro hin
    rcases (hrm y).mp hin with h | h
    · exact h2 h
    · exact h3 h
  · rw [hready1]; exact List.not_mem_nil y
  · rw [hctx1]; exact h4
  · rw [hinvok1]; exact h5

theorem loopIter_untouched {ε α : Type} (r : Runner ε α) (pick : Nat)
    (st st2 : SchedState ε α) (y d : String) (nd : Node ε α)
    (hinv : InvS r st) (hu : Untouched st y)
    (hd : d ∈ r.nodeDependencies.get y) (hdn : r.lookupNode d = some nd)
    (hbad : BadNode nd)
    (h : loopIter r pick st = .cont st2 ∨ loopIter r pick st = .exit st2) :
    Untouched st2 y := by
  rcases h with h | h
  · unfold loopIter at h
    by_cases hle : r.nodes.length ≤ st.completed.length
    · rw [if_pos hle] at h; cases h
    · rw [if_neg hle] at h
      dsimp only at h
      rcases hg : (startReady st).running.get? (pick % (startReady st).running.length)
        with _ | p
      · rw [hg] at h; cases h
      · rw [hg] at h
        dsimp only at h
        rcases hf : finishNode r (startReady st) p.1 p.2 with e | stf
        · rw [hf] at h; cases h
        · rw [hf] at h
          injection h with h
          subst h
          obtain ⟨hinv1, hcomp1, hctx1, hready1, _, hinvok1, _⟩ := startReady_post r st hinv
          have hu1 : Untouched (startReady st) y := startReady_untouched r st y hinv hu
          have hp : p ∈ (startReady st).running := List.get?_mem hg
          have hpr : p.1 ∈ runningIds (startReady st) :=
            List.mem_map_of_mem Prod.fst hp
          have hyne : y ≠ p.1 := by
            rintro rfl
            exact hu1.2.1 hpr
          obtain ⟨hinv2, hcomp2, _, hctxo2, hready2, hrids2, hinvk2, _⟩ :=
            finishNode_post r (startReady st) stf p.1 p.2 hinv1 hpr hf
          refine ⟨?_, ?_, ?_, ?_, ?_⟩
          · rw [hcomp2]
            intro hin
            rcases List.mem_append.mp hin with h2 | h2
            · exact hu1.1 h2
            · exact hyne (by simpa using h2)
          · intro hin
            exact hu1.2.1 ((hrids2 y).mp hin).1
          · intro hin
            rcases hready2 y hin with h2 | ⟨_, h3⟩
            · rw [hready1] at h2
              exact List.not_mem_nil y h2
            · rw [depsOk_false_of_bad r stf y d nd hinv2 hd hdn hbad] at h3
              cases h3
          · rw [hctxo2 y hyne, hctx1]
            exact hu.2.2.2.1
          · intro hin
            rcases hinvk2 y hin with h2 | h2
            · rw [hinvok1] at h2
              exact hu.2.2.2.2 h2
            · exact hyne h2
  · unfold loopIter at h
    by_cases hle : r.nodes.length ≤ st.completed.length
    · rw [if_pos hle] at h
      injection h with h
      subst h
      exact hu
    · rw [if_neg hle] at h
      dsimp only at h
      rcases hg : (startReady st).running.get? (pick % (startReady st).running.length)
        with _ | p
      · rw [hg] at h
        injection h with h
        subst h
        exact startReady_untouched r st y hinv hu
      · rw [hg] at h
        dsimp only at h
        obtain ⟨hinv1, _, _, _, _, _, _⟩ := startReady_post r st hinv
        have hp : p ∈ (startReady st).running := List.get?_mem hg
        have hmem : p.1 ∈ r.nodes.map Prod.fst := hinv1.runningSub p hp
        obtain ⟨st3, hfn⟩ := finishNode_ok_exists r (startReady st) p.1 p.2 hmem
        rw [hfn] at h
        cases h

theorem runLoopN_untouched {ε α : Type} (r : Runner ε α) (sched : Nat → Nat)
    (y d : String) (nd : Node ε α)
    (hd : d ∈ r.nodeDependencies.get y) (hdn : r.lookupNode d = some nd)
    (hbad : BadNode nd) :
    ∀ fuel k (st stF : SchedState ε α), InvS r st → Untouched st y →
      runLoopN r sched fuel k st = .ok stF → Untouched stF y := by
  intro fuel
  induction fuel with
  | zero =>
      intro k st stF _ _ h
      cases h
  | succ fuel ih =>
      intro k st stF hinv hu h
      unfold runLoopN at h
      rcases hli : loopIter r (sched k) st with st2 | st2 | e
      · rw [hli] at h
        injection h with h
        subst h
        exact loopIter_untouched r (sched k) st st2 y d nd hinv hu hd hdn hbad (Or.inr hli)
      · rw [hli] at h
        obtain ⟨hinv2, _, _⟩ := loopIter_cont_post r (sched k) st st2 hinv hli
        exact ih (k + 1) st2 stF hinv2
          (loopIter_untouched r (sched k) st st2 y d nd hinv hu hd hdn hbad (Or.inl hli)) h
      · rw [hli] at h
        cases h


theorem exit_good_completed {ε α : Type} (r : Runner ε α) (stF : SchedState ε α)
    (hwf : RunnerWF r) (hinv : InvS r stF)
    (hexit : r.nodes.length ≤ stF.completed.length ∨
      (stF.running = [] ∧ stF.ready = []))
    (id : String) (hgood : GoodUp r id) :
    id ∈ stF.completed ∧ ∃ v, stF.ctx.get id = some (some v) := by
  have hmemid : id ∈ r.nodes.map Prod.fst := by
    obtain ⟨n, hn, _⟩ := hgood id Relation.ReflTransGen.refl
    exact lookupNode_mem r id n hn
  have hcomp : id ∈ stF.completed := by
    rcases hexit with hall | ⟨hrun0, hready0⟩
    · have h1 : stF.completed.toFinset ⊆ (r.nodes.map Prod.fst).toFinset := by
        intro a ha
        rw [List.mem_toFinset] at ha ⊢
        exact hinv.completedSub a ha
      have hcard1 : stF.completed.toFinset.card = stF.completed.length :=
        List.toFinset_card_of_nodup hinv.completedNodup
      have hcard2 : (r.nodes.map Prod.fst).toFinset.card = r.nodes.length := by
        rw [List.toFinset_card_of_nodup hwf.idsNodup, List.length_map]
      have heq := Finset.eq_of_subset_of_card_le h1 (by omega)
      have : id ∈ stF.completed.toFinset := by
        rw [heq, List.mem_toFinset]
        exact hmemid
      rw [List.mem_toFinset] at this
      exact this
    · by_cases hidc : id ∈ stF.completed
      · exact hidc
      · exfalso
        have hS : Set.Nonempty {k : ℕ | ∃ m, ReachesRefl r.nodeDependencies id m ∧
            m ∉ stF.completed ∧ (r.nodes.map Prod.fst).indexOf m = k} :=
          ⟨(r.nodes.map Prod.fst).indexOf id,
            id, Relation.ReflTransGen.refl, hidc, rfl⟩
        obtain ⟨k, ⟨m, hm, hmc, hk⟩, hmin⟩ := Nat.lt_wfRel.wf.has_min _ hS
        obtain ⟨nm, hnm, _⟩ := hgood m hm
        have hmm : m ∈ r.nodes.map Prod.fst := lookupNode_mem r m nm hnm
        have hdeps : depsOk r stF m = true := by
          unfold depsOk
          rw [List.all_eq_true]
          intro dep hdep
          have hmd : ReachesRefl r.nodeDependencies id dep :=
            Relation.ReflTransGen.tail hm hdep
          have hdc : dep ∈ stF.completed := by
            by_contra hdc
            have hkd : (r.nodes.map Prod.fst).indexOf dep ∈
                {k : ℕ | ∃ m, ReachesRefl r.nodeDependencies id m ∧
                  m ∉ stF.completed ∧ (r.nodes.map Prod.fst).indexOf m = k} :=
              ⟨dep, hmd, hdc, rfl⟩
            have hlt := hwf.ranked m dep hdep
            rw [hk] at hlt
            exact hmin _ hkd hlt
          obtain ⟨nd2, hnd2, hgd2⟩ := hgood dep hmd
          obtain ⟨n3, snap3, hlk3, hst3, _, _⟩ := hinv.finishedFact dep hdc
          rw [hnd2] at hlk3
          cases hlk3
          obtain ⟨⟨v, hov⟩, hcalls⟩ := hgd2 snap3
          have hstc := run_ok_status nd2 snap3 (some v) hov hcalls
          simp only [Bool.and_eq_true]
          refine ⟨⟨?_, ?_⟩, ?_⟩
          · rw [hnd2]; rfl
          · exact List.elem_iff.mpr hdc
          · simp [hst3, hstc]
        have hmr : m ∉ runningIds stF := by
          unfold runningIds
          rw [hrun0]
          exact List.not_mem_nil m
        have hmrd : m ∉ stF.ready := by
          rw [hready0]
          exact List.not_mem_nil m
        have hfalse := hinv.readiness m hmm hmc hmr hmrd
        rw [hdeps] at hfalse
        cases hfalse
  refine ⟨hcomp, ?_⟩
  obtain ⟨n3, snap3, hlk3, _, hcx3, _⟩ := hinv.finishedFact id hcomp
  obtain ⟨n, hn, hgn⟩ := hgood id Relation.ReflTransGen.refl
  rw [hn] at hlk3
  cases hlk3
  obtain ⟨⟨v, hov⟩, _⟩ := hgn snap3
  exact ⟨v, hcx3 (some v) hov⟩


theorem seedCtx_get_none {α : Type} (src : CtxSrc) (k : String) :
    (seedCtx src (emptyCtx : Ctx α)).get k = none := by
  unfold seedCtx
  rcases src with _ | v | f
  · rfl
  · dsimp only
    by_cases hv : v.truthy = true
    · rw [if_pos hv]
      unfold Ctx.reset Ctx.get
      split <;> rfl
    · rw [if_neg hv]
      rfl
  · dsimp only
    unfold Ctx.reset Ctx.get
    split <;> rfl

theorem seedReady_spec {ε α : Type} (r : Runner ε α) :
    ∀ order : List String, (∀ a, a ∈ order → a ∈ r.nodes.map Prod.fst) →
    ∃ l, seedReady r order = .ok l ∧
      (∀ a, a ∈ l ↔ a ∈ order ∧ (r.nodeDependencies.get a).isEmpty = true) ∧
      l.Sublist order := by
  intro order
  induction order with
  | nil =>
      intro _
      exact ⟨[], rfl, by simp, List.nil_sublist []⟩
  | cons hd tl ih =>
      intro hsub
      obtain ⟨l, hl, hiff, hsl⟩ := ih (fun a ha => hsub a (List.mem_cons_of_mem hd ha))
      obtain ⟨n, hn⟩ := lookupNode_isSome_of_mem r hd (hsub hd (List.mem_cons_self hd tl))
      unfold seedReady
      rw [hn]
      dsimp only
      rw [hl]
      dsimp only
      simp only [Node.isEnabledPropertyRead, Bool.true_and]
      by_cases hie : (r.nodeDependencies.get hd).isEmpty = true
      · rw [if_pos hie]
        refine ⟨hd :: l, rfl, ?_, List.Sublist.cons₂ hd hsl⟩
        intro a
        constructor
        · intro hal
          rcases List.mem_cons.mp hal with rfl | hal2
          · exact ⟨List.mem_cons_self _ _, hie⟩
          · obtain ⟨h1, h2⟩ := (hiff a).mp hal2
            exact ⟨List.mem_cons_of_mem _ h1, h2⟩
        · rintro ⟨ha, hae⟩
          rcases List.mem_cons.mp ha with rfl | h1
          · exact List.mem_cons_self _ _
          · exact List.mem_cons_of_mem _ ((hiff a).mpr ⟨h1, hae⟩)
      · rw [if_neg hie]
        refine ⟨l, rfl, ?_, List.Sublist.cons hd hsl⟩
        intro a
        rw [hiff a]
        constructor
        · rintro ⟨h1, h2⟩
          exact ⟨List.mem_cons_of_mem _ h1, h2⟩
        · rintro ⟨ha, hae⟩
          rcases List.mem_cons.mp ha with rfl | h1
          · exact absurd hae hie
          · exact ⟨h1, hae⟩


theorem initial_invS {ε α : Type} (r : Runner ε α) (hwf : RunnerWF r)
    (ready0 : List String)
    (hr0 : ∀ a, a ∈ ready0 ↔ a ∈ r.topologicalOrder ∧
      (r.nodeDependencies.get a).isEmpty = true)
    (hnd : ready0.Nodup) :
    InvS r (initState r ready0) := by
  constructor
  · intro a ha; cases ha
  · exact List.nodup_nil
  · intro p hp; cases hp
  · exact List.nodup_nil
  · intro a ha
    exact (hwf.orderSet a).mp ((hr0 a).mp ha).1
  · exact hnd
  · intro p hp; cases hp
  · intro a _ ha; cases ha
  · intro a _ ha; cases ha
  · intro k hk
    rw [show (initState r ready0).ctx.get k =
      (seedCtx r.contextValueOrFactory (emptyCtx : Ctx α)).get k from rfl,
      seedCtx_get_none] at hk
    cases hk
  · intro a ha
    exact absurd rfl ha
  · rfl
  · intro a hmem _ _ hard
    rcases hdeps : r.nodeDependencies.get a with _ | ⟨d, ds⟩
    · exact absurd ((hr0 a).mpr ⟨(hwf.orderSet a).mpr hmem, by rw [hdeps]; rfl⟩) hard
    · unfold depsOk
      rw [hdeps, List.all_cons]
      have h1 : ((initState r ready0).completed.contains d) = false := rfl
      rw [h1]
      simp
  · intro a ha; cases ha
  · rfl
  · exact List.Pairwise.nil
  · intro e he; cases he
  · intro a ha; cases ha


theorem runW_char {ε α : Type} (r : Runner ε α) (sched : Nat → Nat)
    (hwf : RunnerWF r) (hne : r.nodes ≠ []) :
    ∃ ready0 stF,
      seedReady r r.topologicalOrder = .ok ready0 ∧
      (∀ a, a ∈ ready0 ↔ a ∈ r.topologicalOrder ∧
        (r.nodeDependencies.get a).isEmpty = true) ∧
      InvS r (initState r ready0) ∧
      runLoopN r sched (r.nodes.length + 1) 0 (initState r ready0) = .ok stF ∧
      InvS r stF ∧
      CtxExtends (initState r ready0).ctx stF.ctx ∧
      (r.nodes.length ≤ stF.completed.length ∨
        (stF.running = [] ∧ stF.ready = [])) ∧
      ((r.onNodesCompleted = none ∧
          r.runW sched = .ok { finalCtx := stF.ctx, st := stF, hookLog := [] }) ∨
        (∃ h, r.onNodesCompleted = some h ∧
          ((∃ e, h stF.ctx (if stF.errors.isEmpty then none else some stF.errors) =
               .error e ∧
             r.runW sched = .error (.hookThrew e)) ∨
           (∃ u, h stF.ctx (if stF.errors.isEmpty then none else some stF.errors) =
               .ok u ∧
             r.runW sched = .ok { finalCtx := stF.ctx, st := stF,
                                  hookLog := [(stF.ctx,
                                    if stF.errors.isEmpty then none
                                    else some stF.errors)] })))) := by
  have hordne : r.topologicalOrder.isEmpty = false := by
    rcases ho : r.topologicalOrder with _ | ⟨x, xs⟩
    · exfalso
      rcases hn : r.nodes with _ | ⟨p, ps⟩
      · exact hne hn
      · have hm : p.1 ∈ r.nodes.map Prod.fst := by
          rw [hn]
          exact List.mem_map_of_mem Prod.fst (List.mem_cons_self p ps)
        have h2 := (hwf.orderSet p.1).mpr hm
        rw [ho] at h2
        cases h2
    · rfl
  obtain ⟨ready0, hsr, hr0, hsl⟩ := seedReady_spec r r.topologicalOrder
    (fun a ha => (hwf.orderSet a).mp ha)
  have hnd : ready0.Nodup := List.Nodup.sublist hsl hwf.orderNodup
  have hinv0 := initial_invS r hwf ready0 hr0 hnd
  obtain ⟨stF, hloop, hinvF, hctxe, hend⟩ := runLoopN_post r sched (r.nodes.length + 1) 0
    (initState r ready0) hinv0 (by simp [initState])
  refine ⟨ready0, stF, hsr, hr0, hinv0, hloop, hinvF, hctxe, hend, ?_⟩
  unfold Runner.runW
  rw [if_neg (by simp [hordne]), hsr]
  dsimp only
  rw [hloop]
  dsimp only
  rcases hoc : r.onNodesCompleted with _ | h
  · exact Or.inl ⟨rfl, rfl⟩
  · refine Or.inr ⟨h, rfl, ?_⟩
    dsimp only
    rcases hres : h stF.ctx (if stF.errors.isEmpty then none else some stF.errors)
      with e | u
    · exact Or.inl ⟨e, rfl, rfl⟩
    · exact Or.inr ⟨u, rfl, rfl⟩


theorem topoVisitListGo_order_sub (ids : List String)
    (visit1 : String → TopoState → Except SortErr TopoState)
    (hvisit : ∀ id s s2, visit1 id s = .ok s2 → id ∈ ids →
      (∀ x, x ∈ s.order → x ∈ ids) → ∀ x, x ∈ s2.order → x ∈ ids) :
    ∀ l s s2, topoVisitListGo visit1 l s = .ok s2 → (∀ d, d ∈ l → d ∈ ids) →
      (∀ x, x ∈ s.order → x ∈ ids) → ∀ x, x ∈ s2.order → x ∈ ids := by
  intro l
  induction l with
  | nil =>
      intro s s2 h _ hs
      unfold topoVisitListGo at h
      cases h
      exact hs
  | cons d rest ih =>
      intro s s2 h hl hs
      unfold topoVisitListGo at h
      rcases hv : visit1 d s with e | sA
      · rw [hv] at h; cases h
      · rw [hv] at h
        exact ih sA s2 h (fun d2 hd2 => hl d2 (List.mem_cons_of_mem d hd2))
          (hvisit d s sA hv (hl d (List.mem_cons_self d rest)) hs)

theorem topoVisit_order_sub (D : DependencyMap) (ids : List String)
    (hclosed : ∀ a b, b ∈ D.get a → b ∈ ids) :
    ∀ fuel id s s2, topoVisit D fuel id s = .ok s2 → id ∈ ids →
      (∀ x, x ∈ s.order → x ∈ ids) → ∀ x, x ∈ s2.order → x ∈ ids := by
  intro fuel
  induction fuel with
  | zero =>
      intro id s s2 h
      unfold topoVisit at h
      cases h
  | succ f ih =>
      intro id s s2 h hid hs
      unfold topoVisit at h
      by_cases h1 : s.temp.contains id
      · rw [if_pos h1] at h; cases h
      · rw [if_neg h1] at h
        by_cases h2 : s.visited.contains id
        · rw [if_pos h2] at h
          cases h
          exact hs
        · rw [if_neg h2] at h
          rcases hl : topoVisitListGo (topoVisit D f) (D.get id)
              ⟨id :: s.temp, s.visited, s.order⟩ with e | s3
          · rw [hl] at h; cases h
          · rw [hl] at h
            cases h
            have h3 := topoVisitListGo_order_sub ids (topoVisit D f) ih
              (D.get id) ⟨id :: s.temp, s.visited, s.order⟩ s3 hl
              (fun d2 hd2 => hclosed id d2 hd2) hs
            intro x hx
            rcases List.mem_append.mp hx with hx1 | hx2
            · exact h3 x hx1
            · have : x = id := by simpa using hx2
              subst this
              exact hid

theorem topoFold_order_sub (D : DependencyMap) (ids : List String)
    (hclosed : ∀ a b, b ∈ D.get a → b ∈ ids) (fuel : Nat) :
    ∀ l s s2, topoFold D fuel l s = .ok s2 → (∀ d, d ∈ l → d ∈ ids) →
      (∀ x, x ∈ s.order → x ∈ ids) → ∀ x, x ∈ s2.order → x ∈ ids := by
  intro l
  induction l with
  | nil =>
      intro s s2 h _ hs
      unfold topoFold at h
      cases h
      exact hs
  | cons d rest ih =>
      intro s s2 h hl hs
      unfold topoFold at h
      by_cases h2 : s.visited.contains d
      · rw [if_pos h2] at h
        exact ih s s2 h (fun d2 hd2 => hl d2 (List.mem_cons_of_mem d hd2)) hs
      · rw [if_neg h2] at h
        rcases hv : topoVisit D fuel d s with e | sA
        · rw [hv] at h; cases h
        · rw [hv] at h
          exact ih sA s2 h (fun d2 hd2 => hl d2 (List.mem_cons_of_mem d hd2))
            (topoVisit_order_sub D ids hclosed fuel d s sA hv
              (hl d (List.mem_cons_self d rest)) hs)

theorem topologicalSort_order_sub (ids : List String) (D : DependencyMap)
    (hclosed : ∀ a b, b ∈ D.get a → b ∈ ids) (order : List String)
    (h : topologicalSort ids D = .ok order) : ∀ x, x ∈ order → x ∈ ids := by
  unfold topologicalSort at h
  rcases hf : topoFold D ((topoUniverse ids D).length + 1) ids ⟨[], [], []⟩ with e | s2
  · rw [hf] at h; cases h
  · rw [hf] at h
    cases h
    exact topoFold_order_sub D ids hclosed _ ids ⟨[], [], []⟩ s2 hf
      (fun d hd => hd) (fun x hx => absurd hx (List.not_mem_nil x))

theorem build_runnerWF_aux {ε α : Type} (w : WorkflowB ε α) (r : Runner ε α)
    (hwf : BuilderWF w) (oc : Option (OnAllHook ε α))
    (hb : (match topologicalSort (w.nodes.map Prod.fst) w.nodeDependencies with
           | .error (.cycle id) => Except.error (BuildErr.cycle id)
           | .error .fuelOut => Except.error BuildErr.fuelOut
           | .ok order => Except.ok { contextValueOrFactory := w.contextValueOrFactory,
                                      topologicalOrder := order, nodes := w.nodes,
                                      nodeDependencies := w.nodeDependencies,
                                      onNodesCompleted := oc }) = Except.ok r) :
    RunnerWF r ∧ r.nodes = w.nodes ∧ r.nodeDependencies = w.nodeDependencies ∧
    r.contextValueOrFactory = w.contextValueOrFactory ∧
    r.onNodesCompleted = oc := by
  rcases hts : topologicalSort (w.nodes.map Prod.fst) w.nodeDependencies
    with e | order
  · rcases e with id | _ <;> rw [hts] at hb <;> cases hb
  · rw [hts] at hb
    dsimp only at hb
    injection hb with hb
    subst hb
    obtain ⟨hnodup, hcount, hprec⟩ :=
      c5_topological_order (w.nodes.map Prod.fst) w.nodeDependencies order hts
    have hsub := topologicalSort_order_sub (w.nodes.map Prod.fst)
      w.nodeDependencies (fun a b hab => (hwf.2 a b hab).2.1) order hts
    refine ⟨⟨hwf.1, hnodup, ?_, ?_, ?_⟩, rfl, rfl, rfl, rfl⟩
    · intro id
      constructor
      · intro hin
        exact hsub id hin
      · intro hin
        have h1 := hcount id hin
        have h2 : 0 < order.count id := by omega
        exact List.count_pos_iff.mp h2
    · intro id d hd
      exact (hwf.2 id d hd).2.1
    · intro id d hd
      exact (hwf.2 id d hd).2.2

theorem build_runnerWF {ε α : Type} (w : WorkflowB ε α) (hook : HookArg (OnAllHook ε α))
    (r : Runner ε α) (hbf : BuiltFrom w) (hb : w.build hook = .ok r) :
    RunnerWF r ∧ r.nodes = w.nodes ∧ r.nodeDependencies = w.nodeDependencies ∧
    r.contextValueOrFactory = w.contextValueOrFactory ∧
    r.onNodesCompleted = (match hook with | .fn f => some f | _ => none) := by
  have hwf := builtFrom_wf w hbf
  unfold WorkflowB.build at hb
  by_cases hemp : w.nodes.isEmpty = true
  · rw [if_pos hemp] at hb; cases hb
  · rw [if_neg hemp] at hb
    rcases hook with _ | f | v
    · rw [if_neg (by simp)] at hb
      exact build_runnerWF_aux w r hwf none hb
    · rw [if_neg (by simp)] at hb
      exact build_runnerWF_aux w r hwf (some f) hb
    · dsimp only at hb
      by_cases hv : v.truthy = true
      · rw [if_pos hv] at hb; cases hb
      · rw [if_neg hv] at hb
        exact build_runnerWF_aux w r hwf none hb


/-- C4: within one trigger run of a workflow assembled through addNode and
build, the context snapshots delivered to successive per-node completion
hooks are monotonically non-shrinking: the event list is pairwise ordered by
snapshot extension (every key of an earlier snapshot is present with the same
value in every later one, and the initial slot never changes), every
delivered snapshot extends into the final context, and a context update never
removes a key (each update replaces the snapshot wholesale with one that
keeps every existing binding). -/
theorem c4_snapshots_monotonic {ε α : Type} (w : WorkflowB ε α)
    (hook : HookArg (OnAllHook ε α)) (r : Runner ε α) (sched : Nat → Nat)
    (done : RunDone ε α)
    (hbf : BuiltFrom w) (hb : w.build hook = .ok r)
    (hrun : r.runW sched = .ok done) :
    done.st.events.Pairwise (fun e1 e2 => CtxExtends e1.context e2.context) ∧
    (∀ e, e ∈ done.st.events → CtxExtends e.context done.finalCtx) ∧
    (∀ (c : Ctx α) (k : String) (v : Option α) (a : String),
      (c.get a).isSome = true → ((c.set k v).get a).isSome = true) := by
  obtain ⟨hwf, hnodes, _, _, _⟩ := build_runnerWF w hook r hbf hb
  have hne : r.nodes ≠ [] := by
    rw [hnodes]
    intro h0
    unfold WorkflowB.build at hb
    rw [if_pos (by rw [h0]; rfl)] at hb
    cases hb
  obtain ⟨ready0, stF, _, _, _, _, hinvF, _, _, hdisj⟩ := runW_char r sched hwf hne
  have hdone : done.st = stF ∧ done.finalCtx = stF.ctx := by
    rcases hdisj with ⟨_, heq⟩ | ⟨h, _, hcase⟩
    · rw [hrun] at heq
      injection heq with heq
      subst heq
      exact ⟨rfl, rfl⟩
    · rcases hcase with ⟨e, _, heq⟩ | ⟨u, _, heq⟩
      · rw [hrun] at heq
        cases heq
      · rw [hrun] at heq
        injection heq with heq
        subst heq
        exact ⟨rfl, rfl⟩
  obtain ⟨hst, hctx⟩ := hdone
  refine ⟨?_, ?_, ?_⟩
  · rw [hst]
    exact hinvF.eventsMono
  · intro e he
    rw [hst] at he
    rw [hctx]
    exact hinvF.eventsLe e he
  · intro c k v a h
    exact ctx_set_preserves_key c k v a h

/-- Witness for C4: the one-node workflow with a per-node completion hook
runs to completion; its build, run, and trace evaluate concretely and the
theorem applies to them. -/
theorem c4_snapshots_monotonic_witness :
    BuiltFrom exRunWH ∧ exRunWH.build .absent = .ok exRunnerH ∧
    exRunnerH.runW (fun _ => 0) = .ok doneAH ∧
    doneAH.st.events.Pairwise (fun e1 e2 => CtxExtends e1.context e2.context) := by
  have hbf : BuiltFrom exRunWH :=
    BuiltFrom.step (WorkflowB.empty .undef) exRunWH (hookNodeOpts "a" [] 1)
      (BuiltFrom.init .undef) rfl
  exact ⟨hbf, rfl, rfl,
    (c4_snapshots_monotonic exRunWH .absent exRunnerH (fun _ => 0) doneAH
      hbf rfl rfl).1⟩


/-- C8 counterexample: a run of a one-node workflow whose overall completion
hook throws; trigger rejects with the hook failure instead of resolving with
the final context, refuting the unconditional resolution clause of the
claim. -/
theorem c8_counterexample :
    exC6w1.build (.fn exHookThrow) = .ok exRunnerHT ∧
    exRunnerHT.runW (fun _ => 0) = .error (.hookThrew "boom") :=
  ⟨rfl, rfl⟩

/-- C8 (amended): trigger never rejects with a per-node failure: every
rejection carries a failure thrown by the supplied overall completion hook
itself.  For every run there is a final scheduler state whose accumulated
error list holds exactly one NodeError per failed node, pairing the node id
with the original thrown failure, in finish order, with each node
contributing at most once; without an overall hook the run resolves with the
final context and the hook log stays empty; with an overall hook the hook is
invoked exactly once, with the final context and either null (no node
failed) or the accumulated non-empty error list: if it returns, the run
resolves with the final context and logs that single invocation, and if it
throws, the run rejects with exactly that failure. -/
theorem c8_trigger_errors {ε α : Type} (w : WorkflowB ε α)
    (hook : HookArg (OnAllHook ε α)) (r : Runner ε α) (sched : Nat → Nat)
    (hbf : BuiltFrom w) (hb : w.build hook = .ok r) :
    (∀ e, r.runW sched = .error e → ∃ he, e = TriggerErr.hookThrew he) ∧
    ∃ stF : SchedState ε α,
      stF.errors = stF.finished.filterMap (fun p =>
        match p.2 with
        | .thrown e => some { id := p.1, error := e }
        | _ => none) ∧
      (stF.finished.map Prod.fst).Nodup ∧
      (r.onNodesCompleted = none →
        r.runW sched = .ok { finalCtx := stF.ctx, st := stF, hookLog := [] }) ∧
      (∀ h, r.onNodesCompleted = some h →
        ((∃ e, h stF.ctx (if stF.errors.isEmpty then none else some stF.errors) =
             .error e ∧
           r.runW sched = .error (.hookThrew e)) ∨
         (∃ u, h stF.ctx (if stF.errors.isEmpty then none else some stF.errors) =
             .ok u ∧
           r.runW sched = .ok { finalCtx := stF.ctx, st := stF,
                                hookLog := [(stF.ctx,
                                  if stF.errors.isEmpty then none
                                  else some stF.errors)] }))) := by
  obtain ⟨hwf, hnodes, _, _, _⟩ := build_runnerWF w hook r hbf hb
  have hne : r.nodes ≠ [] := by
    rw [hnodes]
    intro h0
    unfold WorkflowB.build at hb
    rw [if_pos (by rw [h0]; rfl)] at hb
    cases hb
  obtain ⟨ready0, stF, _, _, _, _, hinvF, _, _, hdisj⟩ := runW_char r sched hwf hne
  constructor
  · intro e herr
    rcases hdisj with ⟨_, heq⟩ | ⟨h, _, hcase⟩
    · rw [herr] at heq
      cases heq
    · rcases hcase with ⟨e0, _, heq⟩ | ⟨u, _, heq⟩
      · rw [herr] at heq
        injection heq with heq
        exact ⟨e0, heq⟩
      · rw [herr] at heq
        cases heq
  · refine ⟨stF, hinvF.errorsChar, ?_, ?_, ?_⟩
    · rw [hinvF.finishedIds]
      exact hinvF.completedNodup
    · intro hnone
      rcases hdisj with ⟨_, heq⟩ | ⟨h, hsome, _⟩
      · exact heq
      · rw [hnone] at hsome
        cases hsome
    · intro h hsome
      rcases hdisj with ⟨hnone, _⟩ | ⟨h2, hsome2, hcase⟩
      · rw [hnone] at hsome
        cases hsome
      · rw [hsome] at hsome2
        injection hsome2 with hsome2
        subst hsome2
        exact hcase

/-- Witness for C8 on the hook-throwing run: the build and run evaluate
concretely and the theorem classifies the rejection. -/
theorem c8_trigger_errors_witness :
    BuiltFrom exC6w1 ∧ exC6w1.build (.fn exHookThrow) = .ok exRunnerHT ∧
    exRunnerHT.runW (fun _ => 0) = .error (.hookThrew "boom") := by
  have hbf : BuiltFrom exC6w1 :=
    BuiltFrom.step (WorkflowB.empty .undef) exC6w1 (okNodeOpts "a" [] 1)
      (BuiltFrom.init .undef) rfl
  obtain ⟨hnros, _⟩ := c8_trigger_errors exC6w1 (.fn exHookThrow) exRunnerHT
    (fun _ => 0) hbf rfl
  obtain ⟨he, _⟩ := hnros (.hookThrew "boom") rfl
  exact ⟨hbf, rfl, rfl⟩


/-- C2 counterexample: x fails, y depends on x, and the independent node z
also fails: z has no dependency path to x, yet the final context holds no
key z (its work function ran and threw), refuting the clause that every node
without a dependency path to X has its result appear in the final context. -/
theorem c2_counterexample :
    exC2w.build .absent = .ok exC2r ∧
    exC2r.nodeDependencies.get "z" = [] ∧
    (exC2r.runW (fun _ => 0)).map
      (fun d => (d.finalCtx.get "z", d.st.invoked.contains "z")) =
      .ok (none, true) :=
  ⟨rfl, rfl, rfl⟩

/-- C2 (amended): in a run of a built workflow, if node y lists among its
dependencies a node x whose run never reaches status completed (for instance
its work function fails on every attempt after exhausting retries), then y
is never started, its work function is never invoked, and the final context
contains no key y; and every node all of whose transitive dependencies
(itself included) resolve and succeed — in particular one with no dependency
path to any failing or disabled node — is processed and its result appears
in the final context.  Independence from x alone does not suffice: an
independent node can itself fail or be blocked by a different failing
dependency. -/
theorem c2_failed_dependency_blocks {ε α : Type} (w : WorkflowB ε α)
    (hook : HookArg (OnAllHook ε α)) (r : Runner ε α) (sched : Nat → Nat)
    (y x : String) (nx : Node ε α) (done : RunDone ε α)
    (hbf : BuiltFrom w) (hb : w.build hook = .ok r)
    (hdep : x ∈ r.nodeDependencies.get y)
    (hx : r.lookupNode x = some nx) (hbad : BadNode nx)
    (hrun : r.runW sched = .ok done) :
    y ∉ done.st.invoked ∧ done.finalCtx.get y = none ∧
    ∀ z, GoodUp r z → z ∈ done.st.completed ∧
      ∃ v, done.finalCtx.get z = some (some v) := by
  obtain ⟨hwf, hnodes, _, _, _⟩ := build_runnerWF w hook r hbf hb
  have hne : r.nodes ≠ [] := by
    rw [hnodes]
    intro h0
    unfold WorkflowB.build at hb
    rw [if_pos (by rw [h0]; rfl)] at hb
    cases hb
  obtain ⟨ready0, stF, _, hr0, hinv0, hloop, hinvF, _, hend, hdisj⟩ :=
    runW_char r sched hwf hne
  have hdone : done.st = stF ∧ done.finalCtx = stF.ctx := by
    rcases hdisj with ⟨_, heq⟩ | ⟨h, _, hcase⟩
    · rw [hrun] at heq
      injection heq with heq
      subst heq
      exact ⟨rfl, rfl⟩
    · rcases hcase with ⟨e, _, heq⟩ | ⟨u, _, heq⟩
      · rw [hrun] at heq
        cases heq
      · rw [hrun] at heq
        injection heq with heq
        subst heq
        exact ⟨rfl, rfl⟩
  obtain ⟨hst, hctx⟩ := hdone
  have hu0 : Untouched (initState r ready0) y := by
    refine ⟨List.not_mem_nil y, ?_, ?_, seedCtx_get_none _ y, List.not_mem_nil y⟩
    · intro hin
      exact List.not_mem_nil y hin
    · intro hin
      have h2 := ((hr0 y).mp hin).2
      rw [List.isEmpty_iff] at h2
      rw [h2] at hdep
      exact List.not_mem_nil x hdep
  have huF : Untouched stF y := runLoopN_untouched r sched y x nx hdep hx hbad
    (r.nodes.length + 1) 0 (initState r ready0) stF hinv0 hu0 hloop
  refine ⟨?_, ?_, ?_⟩
  · rw [hst]
    exact huF.2.2.2.2
  · rw [hctx]
    exact huF.2.2.2.1
  · intro z hz
    obtain ⟨hzc, v, hzv⟩ := exit_good_completed r stF hwf hinvF hend z hz
    rw [hst, hctx]
    exact ⟨hzc, v, hzv⟩

/-- Witness for C2: x fails, y depends on x, g is independent and succeeds;
the run evaluates concretely, y is never invoked and absent from the final
context, g completes and its result appears. -/
theorem c2_failed_dependency_blocks_witness :
    BuiltFrom exC2wGood ∧ exC2wGood.build .absent = .ok exC2rGood ∧
    exC2rGood.runW (fun _ => 0) = .ok exC2doneGood ∧
    "y" ∉ exC2doneGood.st.invoked ∧ exC2doneGood.finalCtx.get "y" = none ∧
    "g" ∈ exC2doneGood.st.completed ∧
    exC2doneGood.finalCtx.get "g" = some (some 5) := by
  have hbf : BuiltFrom exC2wGood :=
    BuiltFrom.step _ _ (okNodeOpts "g" [] 5)
      (BuiltFrom.step _ _ (okNodeOpts "y" ["x"] 2)
        (BuiltFrom.step _ _ (failNodeOpts "x" [] "xboom")
          (BuiltFrom.init .undef) rfl) rfl) rfl
  have hbad : BadNode nodeXF := by
    intro c h
    exact NodeStatus.noConfusion h
  have hgood : GoodUp exC2rGood "g" := by
    intro m hm
    rcases Relation.ReflTransGen.cases_head hm with rfl | ⟨c, hc, _⟩
    · refine ⟨nodeGG, rfl, ?_⟩
      intro ctx
      exact ⟨⟨5, rfl⟩, Nat.zero_lt_one⟩
    · exact absurd hc (List.not_mem_nil c)
  have happ := c2_failed_dependency_blocks exC2wGood .absent exC2rGood (fun _ => 0)
    "y" "x" nodeXF exC2doneGood hbf rfl (List.mem_cons_self "x" []) rfl hbad rfl
  exact ⟨hbf, rfl, rfl, happ.1, happ.2.1, (happ.2.2 "g" hgood).1, rfl⟩


/-- C1 (code bug): the scheduler reads node.isEnabled as a property of
_node.ts's isEnabled method, so its readiness checks see a truthy function
object for every node and start the statically disabled node d; Node.run then
skips d (its work function is never invoked) and resolves null, which the
success path merges into the context.  Concretely: d is disabled
(isEnabledWith is false) yet the property read is true; the run invokes only
the independent node f; the dependent e stays out of the context; but the
final context HAS the key d, bound to null (get returns some none),
contradicting the claim that the final context contains no key for the
disabled node.  The repository's own test suite expects the no-key
behavior. -/
theorem c1_disabled_node_context_key_bug :
    exC1w.build .absent = .ok exC1r ∧
    nodeDD.isEnabledWith (emptyCtx : Ctx Nat) = false ∧
    Node.isEnabledPropertyRead nodeDD = true ∧
    (exC1r.runW (fun _ => 0)).map (fun d =>
      (d.st.invoked, d.finalCtx.get "d", d.finalCtx.get "e", d.finalCtx.get "f")) =
      .ok (["f"], some none, none, some (some 9)) :=
  ⟨rfl, rfl, rfl, rfl⟩

/-- C10 counterexample: a stored context FACTORY resolving to the falsy
number 0 does not skip the reset: the factory (a function, hence truthy)
passes the truthiness guard, is invoked, and the reset runs with its
resolved value, so the final initial slot is 0, not undefined. -/
theorem c10_counterexample :
    (JsVal.vNum 0).truthy = false ∧
    exC10w.build .absent = .ok exC10r ∧
    (exC10r.runW (fun _ => 0)).map (fun d => d.finalCtx.initial) =
      .ok (.vNum 0) :=
  ⟨rfl, rfl, rfl⟩

/-- C10 (amended): the truthiness guard tests the STORED value-or-factory,
not a resolved value.  A falsy stored context value (0, the empty string,
false, null, undefined) skips the reset, so the run's final initial slot is
undefined; a stored factory is always truthy, is always invoked, and the
reset runs with whatever it resolves to, falsy or not; Context.reset maps
only a null or undefined seed to an undefined initial slot and stores every
other seed, falsy ones included, as the initial value. -/
theorem c10_falsy_seed {ε α : Type} (w : WorkflowB ε α)
    (hook : HookArg (OnAllHook ε α)) (r : Runner ε α) (sched : Nat → Nat)
    (done : RunDone ε α) (v : JsVal)
    (hbf : BuiltFrom w) (hb : w.build hook = .ok r)
    (hsrc : r.contextValueOrFactory = .value v) (hv : v.truthy = false)
    (hrun : r.runW sched = .ok done) :
    done.finalCtx.initial = .vUndef ∧
    (∀ f : Unit → JsVal, seedCtx (.factory f) (emptyCtx : Ctx α) = Ctx.reset (f ())) ∧
    (Ctx.reset .vNull : Ctx α) = { initial := .vUndef, entries := [] } ∧
    (∀ s : JsVal, (s == .vUndef || s == .vNull) = false →
      (Ctx.reset s : Ctx α) = { initial := s, entries := [] }) := by
  obtain ⟨hwf, hnodes, _, _, _⟩ := build_runnerWF w hook r hbf hb
  have hne : r.nodes ≠ [] := by
    rw [hnodes]
    intro h0
    unfold WorkflowB.build at hb
    rw [if_pos (by rw [h0]; rfl)] at hb
    cases hb
  obtain ⟨ready0, stF, _, _, _, _, _, hctxe, _, hdisj⟩ := runW_char r sched hwf hne
  have hctx : done.finalCtx = stF.ctx := by
    rcases hdisj with ⟨_, heq⟩ | ⟨h, _, hcase⟩
    · rw [hrun] at heq
      injection heq with heq
      subst heq
      rfl
    · rcases hcase with ⟨e, _, heq⟩ | ⟨u, _, heq⟩
      · rw [hrun] at heq
        cases heq
      · rw [hrun] at heq
        injection heq with heq
        subst heq
        rfl
  refine ⟨?_, fun f => rfl, rfl, ?_⟩
  · have h1 : (initState r ready0).ctx.initial = JsVal.vUndef := by
      show (seedCtx r.contextValueOrFactory (emptyCtx : Ctx α)).initial = .vUndef
      rw [hsrc]
      unfold seedCtx
      dsimp only
      rw [if_neg (by rw [hv]; exact Bool.false_ne_true)]
      rfl
    rw [hctx, ← hctxe.1, h1]
  · intro s hs
    unfold Ctx.reset
    rw [if_neg (by rw [hs]; exact Bool.false_ne_true)]

/-- Witness for C10: the one-node workflow whose stored context value is the
falsy number 0 runs to completion with an undefined initial slot; the
theorem applies to it with every definition evaluated concretely. -/
theorem c10_falsy_seed_witness :
    BuiltFrom exC10vw ∧ exC10vw.build .absent = .ok exC10vr ∧
    exC10vr.runW (fun _ => 0) = .ok exC10vdone ∧
    exC10vdone.finalCtx.initial = .vUndef := by
  have hbf : BuiltFrom exC10vw :=
    BuiltFrom.step (WorkflowB.empty (.value (.vNum 0))) exC10vw (okNodeOpts "a" [] 1)
      (BuiltFrom.init (.value (.vNum 0))) rfl
  have happ := c10_falsy_seed exC10vw .absent exC10vr (fun _ => 0) exC10vdone
    (.vNum 0) hbf rfl rfl rfl rfl
  exact ⟨hbf, rfl, rfl, happ.1⟩


end WEngine
